import Mathlib

/-!
# donut: the ASCII torus renderer of `donut.go`

A shallow embedding of `src/donut.go`.

* A Go `rune` is modelled by its integer value (`Rune := Int`).
* A Go `string` is modelled by the rune sequence `[]rune(s)` yields, a list of Unicode
  scalar values; the conversion `string(t)` of a rune slice replaces every value that is
  not a scalar value by U+FFFD (`stringOfRunes`).
* A slice is a list; an indexing or slicing operation that panics in Go yields `none`.
* `float64` values are elements of a linearly ordered field `K` with exact arithmetic;
  `int(x)` is truncation toward zero (`truncInt`).  Definitions are generic in `K`, so they
  evaluate on `ℚ` and are stated about `ℝ` with `Real.sin` and `Real.cos`.
* The statements `x += c` of the producer loop, where the rounding of float64 accumulates
  and decides the number of iterations of the sweep loops, go through a parameter `fadd`,
  the float64 addition; what is proved of the loop holds for every `fadd`.  `fadd64` is
  the addition of IEEE 754 binary64, round to nearest, ties to even, on the range of the
  normal values.
* A float64 quotient by zero is +Inf: the rate `frameN / elapsed` has its text modelled
  for `elapsed = 0` too (`rateText`).
-/

namespace Donut

/-! ## Runes, strings and slices -/

/-- A Go rune, by its integer value. -/
abbrev Rune := Int

/-- The rune of a character literal. -/
def rune (c : Char) : Rune := Int.ofNat c.toNat

/-- The conversion `[]rune("...")` of a string literal. -/
def runes (s : String) : List Rune := s.toList.map rune

/-- The values a Go string can hold as one rune: the Unicode scalar values. -/
def validRune (r : Rune) : Bool :=
  (decide (0 ≤ r) && decide (r < 0xD800)) || (decide (0xE000 ≤ r) && decide (r ≤ 0x10FFFF))

/-- The rune a string holds for the value `r` of a rune slice: `r`, or U+FFFD when `r` is
not a scalar value. -/
def toValid (r : Rune) : Rune := if validRune r then r else 0xFFFD

/-- The conversion `string(t)` of a rune slice, read back as runes. -/
def stringOfRunes (t : List Rune) : List Rune :=
  t.map toValid

/-- The read `l[i]` of a slice, `none` when the index is out of range. -/
def index {α : Type} (l : List α) (i : Int) : Option α :=
  if 0 ≤ i ∧ i < l.length then l[i.toNat]? else none

/-- The write `l[i] = v` of a slice, `none` when the index is out of range. -/
def setIdx {α : Type} (l : List α) (i : Int) (v : α) : Option (List α) :=
  if 0 ≤ i ∧ i < l.length then some (l.set i.toNat v) else none

/-- The library function `strings.Split(s, sep)` for a one-rune separator: the pieces of
`s` between the occurrences of `sep`, one more than there are occurrences. -/
def split : List Rune → Rune → List (List Rune)
  | [], _ => [[]]
  | c :: cs, sep =>
    if c = sep then [] :: split cs sep
    else
      match split cs sep with
      | [] => [[c]]
      | l :: ls => (c :: l) :: ls

/-- The library function `strings.Join(lines, sep)` for a one-rune separator. -/
def join : List (List Rune) → Rune → List Rune
  | [], _ => []
  | [l], _ => l
  | l :: l' :: ls, sep => l ++ sep :: join (l' :: ls) sep

/-- The conversion `int(x)` of a float: truncation toward zero. -/
def truncInt {K : Type} [LinearOrderedField K] [FloorRing K] (x : K) : Int :=
  if 0 ≤ x then Int.floor x else Int.ceil x

/-! ## The frame formatter -/

/-- The type `Frame`, a string. -/
abbrev Frame := List Rune

/-- `trimAt(s, pos)` for `pos ≥ 0`. -/
def trimAt (s : List Rune) (pos : Nat) : List Rune :=
  let t := s
  let n := t.length
  if n > pos then stringOfRunes (t.take pos)
  else s ++ List.replicate (pos - n) (rune ' ')

/-- `frameLine(s, chr)`: the first and the last rune replaced. -/
def frameLine (s : List Rune) (chr : Rune) : Option (List Rune) :=
  match setIdx s 0 chr with
  | none => none
  | some t =>
    match setIdx t ((t.length : Int) - 1) chr with
    | none => none
    | some t => some (stringOfRunes t)

def top : List Rune :=
  runes "┌——————————————————————————————————————————————————————————————┬———————————————┐"

def side : Rune := rune '│'

def bttm : List Rune :=
  runes "└——————————————————————————————————————————————————————————————————————————————┘"

/-- The body of the loop of `MakeFrame` for the line of index `i`. -/
def frameRow (frameWidth : Nat) (i : Nat) (line : List Rune) : Option (List Rune) :=
  match frameLine (trimAt line frameWidth) side with
  | none => none
  | some nl =>
    if i = 4 then
      match setIdx nl 79 (rune '┤') with
      | none => none
      | some t => some (stringOfRunes t)
    else some nl

/-- The loop `for i, _ := range lines` of `MakeFrame`, from index `i` on. -/
def frameLoop (frameWidth : Nat) : Nat → List (List Rune) → Option (List (List Rune))
  | _, [] => some []
  | i, l :: ls =>
    match frameRow frameWidth i l with
    | none => none
    | some r =>
      match frameLoop frameWidth (i + 1) ls with
      | none => none
      | some rs => some (r :: rs)

/-- The framed rows `MakeFrame` computes, before the border lines are added. -/
def frameRows (pic : List Rune) : Option (List (List Rune)) :=
  frameLoop top.length 0 (split (stringOfRunes pic) (rune '\n'))

/-- `MakeFrame(pic)`. -/
def MakeFrame (pic : List Rune) : Option Frame :=
  match frameRows pic with
  | none => none
  | some lines => some (join (top :: lines ++ [bttm]) (rune '\n'))

/-! ## The statistics overlay -/

/-- `_f(b, ch)`: the index of the first `ch` of `b`, or `len(b)`. -/
def _f : List Rune → Rune → Nat
  | [], _ => 0
  | c :: cs, ch => if c = ch then 0 else _f cs ch + 1

/-- The loop of `splice` from the index `i` of `val` on. -/
def spliceLoop (maxx yidx offs : Int) : Nat → List Rune → List Rune → Option (List Rune)
  | _, [], b => some b
  | i, v :: vs, b =>
    if (i : Int) + offs > maxx then some b
    else
      match setIdx b (yidx * maxx + offs + i) v with
      | none => none
      | some b => spliceLoop maxx yidx offs (i + 1) vs b

/-- `splice(b, yidx, offs, val)`: the buffer after the call. -/
def splice (b : List Rune) (yidx offs : Int) (val : List Rune) : Option (List Rune) :=
  let maxx : Int := (_f b (rune '\n') : Int) + 1
  spliceLoop maxx yidx offs 0 val b

/-- `normalizeDegrees(degree)`. -/
def normalizeDegrees {K : Type} [LinearOrderedField K] [FloorRing K] (degree : K) : K :=
  let periods := truncInt (degree / 360)
  degree - ((periods * 360 : Int) : K)

def FBSZ : Nat := 80 * 22

/-! ## The rasterizer -/

/-- The expression whose eightfold is truncated to the light coefficient `N`, in the sines
and cosines of theta (`st`, `ct`), phi (`sp`, `cp`), `A` and `B`. -/
def luminance {K : Type} [Field K] (st ct sp cp sA cA sB cB : K) : K :=
  (st * sA - sp * ct * cA) * cB - sp * ct * sA - st * cA - cp * ct * sB

/-- The light coefficient `N`. -/
def lumN {K : Type} [LinearOrderedField K] [FloorRing K]
    (st ct sp cp sA cA sB cB : K) : Int :=
  truncInt (8 * luminance st ct sp cp sA cA sB cB)

/-- The index `n`: `N` when positive, else 0. -/
def lumIndex (N : Int) : Int := if N > 0 then N else 0

def ramp : List Rune := runes ".,-~:;=!*#$@"

/-- The character `[]rune(".,-~:;=!*#$@")[n]` drawn for the light coefficient `N`. -/
def shade (N : Int) : Option Rune := index ramp (lumIndex N)

/-- The character buffer `b` and the depth buffer `z`. -/
structure Canvas (K : Type) where
  b : List Rune
  z : List K

/-- One sample of the sweep: the projected coordinates, the depth proxy and the light
coefficient. -/
structure Sample (K : Type) where
  x : Int
  y : Int
  D : K
  N : Int

/-- The window check `y < 22 && y >= 0 && x >= 0 && x < 79`. -/
def inWindow (x y : Int) : Bool :=
  decide (y < 22) && decide (y ≥ 0) && decide (x ≥ 0) && decide (x < 79)

/-- The frame pixel index `o`. -/
def pixel (x y : Int) : Int := x + 80 * y

/-- The draw step of one sample: the test `... && D > z[o]` and the fill. -/
def plot {K : Type} [LinearOrderedField K] (c : Canvas K) (s : Sample K) :
    Option (Canvas K) :=
  let o := pixel s.x s.y
  if inWindow s.x s.y then
    match index c.z o with
    | none => none
    | some zo =>
      if s.D > zo then
        match setIdx c.z o s.D with
        | none => none
        | some z =>
          match shade s.N with
          | none => none
          | some ch =>
            match setIdx c.b o ch with
            | none => none
            | some b => some ⟨b, z⟩
      else some c
  else some c

/-- The raster pass over the samples of a tick, in sweep order. -/
def raster {K : Type} [LinearOrderedField K] : Canvas K → List (Sample K) → Option (Canvas K)
  | c, [] => some c
  | c, s :: ss =>
    match plot c s with
    | none => none
    | some c => raster c ss

/-- Whether the sample passes the whole test and so is drawn. -/
def drawn {K : Type} [LinearOrderedField K] (c : Canvas K) (s : Sample K) : Bool :=
  inWindow s.x s.y &&
    match index c.z (pixel s.x s.y) with
    | none => false
    | some zo => decide (s.D > zo)

/-- The pixel indices written by the raster pass, in order. -/
def written {K : Type} [LinearOrderedField K] : Canvas K → List (Sample K) → List Int
  | _, [] => []
  | c, s :: ss =>
    match plot c s with
    | none => []
    | some c' => (if drawn c s then [pixel s.x s.y] else []) ++ written c' ss

/-! ## Formatting: the verbs of `fmt.Sprintf` the stats lines use -/

/-- The decimal digits of `n`, most significant first. -/
def decimal (n : Nat) : List Rune :=
  if n = 0 then [rune '0']
  else List.map (fun d : Nat => rune '0' + (d : Int)) (Nat.digits 10 n).reverse

/-- Padding with spaces on the left to a minimal width. -/
def padLeft (w : Nat) (s : List Rune) : List Rune :=
  List.replicate (w - s.length) (rune ' ') ++ s

/-- The library call `fmt.Sprintf("%5d", n)` for `n ≥ 0`. -/
def fmt5d (n : Nat) : List Rune := padLeft 5 (decimal n)

/-- Rounding of a value that is not negative to the nearest integer, a tie to even. -/
def roundHalfEven {K : Type} [LinearOrderedField K] [FloorRing K] (x : K) : Int :=
  let f := Int.floor x
  if x - f < 1 / 2 then f
  else if 1 / 2 < x - f then f + 1
  else if f % 2 = 0 then f else f + 1

/-- The library call `fmt.Sprintf("%5.1f", x)` for a finite `x`: sign, integer digits, a
point and one correctly rounded decimal, at least five runes wide. -/
def fmt51 {K : Type} [LinearOrderedField K] [FloorRing K] (x : K) : List Rune :=
  let t := (roundHalfEven (|x| * 10)).toNat
  padLeft 5
    ((if x < 0 then [rune '-'] else []) ++ decimal (t / 10) ++ rune '.' :: decimal (t % 10))

/-! ## The producer loop -/

/-- The float64 nearest to `x`, a tie going to the even significand, for `x` in the range
of the normal float64 values: `x` is rounded to 53 significant bits. -/
def round64 {K : Type} [LinearOrderedField K] [FloorRing K] (x : K) : K :=
  if x = 0 then 0
  else
    let e := Int.log 2 |x|
    (roundHalfEven (x / 2 ^ (e - 52)) : K) * 2 ^ (e - 52)

/-- The float64 addition `x + y` of Go, where no overflow and no subnormal value occurs:
the operands are float64 values (a constant is converted first) and the exact sum is
rounded. -/
def fadd64 {K : Type} [LinearOrderedField K] [FloorRing K] (x y : K) : K :=
  round64 (round64 x + round64 y)

/-- The number of bits of `s` above 53 bits, for `s < 2 ^ (53 + fuel)`. -/
def shiftOf : Nat → Nat → Nat
  | 0, _ => 0
  | fuel + 1, s => if s < 2 ^ 53 then 0 else shiftOf fuel (s / 2) + 1

/-- The quotient `s / 2 ^ t` rounded to the nearest integer, a tie to even. -/
def roundNat (s t : Nat) : Nat :=
  if 2 * (s % 2 ^ t) < 2 ^ t then s / 2 ^ t
  else if 2 ^ t < 2 * (s % 2 ^ t) then s / 2 ^ t + 1
  else if (s / 2 ^ t) % 2 = 0 then s / 2 ^ t else s / 2 ^ t + 1

/-- The natural number `s` rounded to 53 significant bits, a tie to even: `round64` on
the numerators of the multiples of `2 ^ -58`. -/
def round53 (s : Nat) : Nat :=
  roundNat s (shiftOf s s) * 2 ^ shiftOf s s

/-- The loop `for j := j0; j < 6.28; j += step` with the float64 addition, on the
numerators of the multiples of `2 ^ -58`: `c` is the numerator of the float64 `step`. -/
def sweepNat (c : Nat) : Nat → Nat → List Nat
  | 0, _ => []
  | fuel + 1, n =>
    if n * 100 < 628 * 2 ^ 58 then n :: sweepNat c fuel (round53 (round53 n + c)) else []

/-- The values `j` of a loop `for j := j0; j < hi; j += step`, at most `fuel` of them.
`fadd` is the float64 addition of `j += step`: its rounding decides the number of
iterations (with the exact sum the loop to 6.28 in steps of 0.02 has 314 iterations, in
float64 it has 315, the counter reaching 6.279999999999954). -/
def sweepFrom {K : Type} [LinearOrderedField K] (fadd : K → K → K) (hi step : K) :
    Nat → K → List K
  | 0, _ => []
  | fuel + 1, j => if j < hi then j :: sweepFrom fadd hi step fuel (fadd j step) else []

/-- The sample at the angles with sines and cosines `st`, `ct` (theta) and `sp`, `cp`
(phi), for the rotation with sines and cosines `sA`, `cA`, `sB`, `cB`.  The denominator of
`D` is at least 1 for sines and cosines, so the division is one of the field. -/
def sample {K : Type} [LinearOrderedField K] [FloorRing K]
    (sA cA sB cB st ct sp cp : K) : Sample K :=
  let h := ct + 2
  let D := 1 / (sp * h * sA + st * cA + 5)
  let t := sp * h * cA - st * sA
  let x := truncInt (40 + 30 * D * (cp * h * cB - t * sB))
  let y := truncInt (12 + 15 * D * (cp * h * sB + t * cB))
  let N := lumN st ct sp cp sA cA sB cB
  ⟨x, y, D, N⟩

/-- The samples of a tick in sweep order: theta in the outer loop, phi in the inner one;
`sincos` is the library function `math.Sincos` and `fadd` the float64 addition of the
loop counters.  The fuel 1000 is above the number of iterations of either loop with the
float64 addition `fadd64`, 90 and 315. -/
def sweep {K : Type} [LinearOrderedField K] [FloorRing K] (fadd : K → K → K)
    (sincos : K → K × K) (sA cA sB cB : K) : List (Sample K) :=
  (sweepFrom fadd 6.28 0.07 1000 0).flatMap fun j =>
    (sweepFrom fadd 6.28 0.02 1000 0).map fun i =>
      sample sA cA sB cB (sincos j).1 (sincos j).2 (sincos i).1 (sincos i).2

/-- The body of the blank-frame loop at the index `k`. -/
def blankStep {K : Type} [LinearOrderedField K] (c : Canvas K) (k : Nat) :
    Option (Canvas K) :=
  match setIdx c.b k (if k % 80 = 79 then rune '\n' else rune ' ') with
  | none => none
  | some b =>
    match setIdx c.z k 0 with
    | none => none
    | some z => some ⟨b, z⟩

/-- The blank-frame loop from the index `k` on, with `n` iterations left. -/
def blankLoop {K : Type} [LinearOrderedField K] : Nat → Nat → Canvas K → Option (Canvas K)
  | 0, _, c => some c
  | n + 1, k, c =>
    match blankStep c k with
    | none => none
    | some c => blankLoop n (k + 1) c

/-- The blank-frame loop `for k := 0; k < len(b); k++`. -/
def blank {K : Type} [LinearOrderedField K] (c : Canvas K) : Option (Canvas K) :=
  blankLoop c.b.length 0 c

/-- The stats lines of a tick and the five calls of `splice`. -/
def overlay {K : Type} [LinearOrderedField K] [FloorRing K] (b : List Rune) (frameN : Nat)
    (fps rollDeg yawDeg : K) : Option (List Rune) :=
  let frame := runes "│ Frame: " ++ fmt5d frameN
  let rate := runes "│   FPS: " ++ fmt51 fps
  let roll := runes "│  Roll: " ++ fmt51 rollDeg ++ runes "˚"
  let yaw := runes "│   Yaw: " ++ fmt51 yawDeg ++ runes "˚"
  let bttm := runes "└———————————————"
  let offs : Int := 77 - (frame.length : Int)
  (splice b 0 offs frame).bind fun b =>
    (splice b 1 offs rate).bind fun b =>
      (splice b 2 offs roll).bind fun b =>
        (splice b 3 offs yaw).bind fun b =>
          splice b 4 offs bttm

/-- The text `fmt.Sprintf("%5.1f", fps)` of the rate `fps = float64(frameN) / elapsed` for
a frame count `frameN ≥ 1`: when no time has elapsed the float64 quotient is +Inf, whose
text is "+Inf", padded to five runes.  `elapsed` is `time.Since(t0).Seconds()`, a count
of nanoseconds in seconds, so the quotient is finite when `elapsed` is not zero. -/
def rateText {K : Type} [LinearOrderedField K] [FloorRing K] (frameN : Nat) (elapsed : K) :
    List Rune :=
  if elapsed = 0 then runes " +Inf" else fmt51 ((frameN : K) / elapsed)

/-- The stats lines of a tick and the five calls of `splice`, as `overlay`, with the text
of the rate given: `overlay b frameN fps rollDeg yawDeg` is
`overlayText b frameN (fmt51 fps) rollDeg yawDeg`. -/
def overlayText {K : Type} [LinearOrderedField K] [FloorRing K] (b : List Rune)
    (frameN : Nat) (rateTxt : List Rune) (rollDeg yawDeg : K) : Option (List Rune) :=
  let frame := runes "│ Frame: " ++ fmt5d frameN
  let rate := runes "│   FPS: " ++ rateTxt
  let roll := runes "│  Roll: " ++ fmt51 rollDeg ++ runes "˚"
  let yaw := runes "│   Yaw: " ++ fmt51 yawDeg ++ runes "˚"
  let bttm := runes "└———————————————"
  let offs : Int := 77 - (frame.length : Int)
  (splice b 0 offs frame).bind fun b =>
    (splice b 1 offs rate).bind fun b =>
      (splice b 2 offs roll).bind fun b =>
        (splice b 3 offs yaw).bind fun b =>
          splice b 4 offs bttm

/-- The variables of the producer loop: the angles, the frame count, the character buffer
handed to `donut` and the depth buffer. -/
structure State (K : Type) where
  A : K
  B : K
  frameN : Nat
  b : List Rune
  z : List K

/-- One iteration of the loop of `donut`: the state after it and the frame it sends.
`fadd` is the float64 addition of the statements `x += c`, `sincos` is `math.Sincos`,
`radToDegree` the constant `180 / math.Pi`, and `elapsed` the reading
`time.Since(t0).Seconds()` of the clock in this iteration. -/
def tick {K : Type} [LinearOrderedField K] [FloorRing K] (fadd : K → K → K)
    (sincos : K → K × K) (radToDegree : K) (elapsed : K) (s : State K) :
    Option (State K × Frame) :=
  let A := fadd s.A 0.07
  let B := fadd s.B 0.03
  (blank ⟨s.b, s.z⟩).bind fun c =>
    (raster c
        (sweep fadd sincos (sincos A).1 (sincos A).2 (sincos B).1 (sincos B).2)).bind
      fun c =>
        let frameN := s.frameN + 1
        (overlayText c.b frameN (rateText frameN elapsed)
            (normalizeDegrees (B * radToDegree))
            (normalizeDegrees (A * radToDegree))).bind fun b =>
          (MakeFrame b).bind fun f => some (⟨A, B, frameN, b, c.z⟩, f)

/-- The frames of the first `n` iterations of the loop from the state `s`; `clock k` is
the reading of the clock in the iteration that starts with `k` frames counted. -/
def run {K : Type} [LinearOrderedField K] [FloorRing K] (fadd : K → K → K)
    (sincos : K → K × K) (radToDegree : K) (clock : Nat → K) :
    Nat → State K → Option (List Frame)
  | 0, _ => some []
  | n + 1, s =>
    match tick fadd sincos radToDegree (clock s.frameN) s with
    | none => none
    | some (s, f) =>
      match run fadd sincos radToDegree clock n s with
      | none => none
      | some fs => some (f :: fs)

/-- The state `genFrameStream` starts `donut` in: yaw 0 and roll 0, no frame counted, a
zero-initialised frame buffer and depth buffer. -/
def start {K : Type} [LinearOrderedField K] : State K :=
  ⟨0, 0, 0, List.replicate FBSZ 0, List.replicate FBSZ 0⟩

/-- The row structure of the character buffer: `FBSZ` runes, a newline exactly at the
indices that are 79 modulo 80. -/
def Rowed (b : List Rune) : Prop :=
  b.length = FBSZ ∧ ∀ k : Nat, k < FBSZ → (b[k]? = some (rune '\n') ↔ k % 80 = 79)

/-! ## The luminance index -/

theorem luminance_lt {K : Type} [LinearOrderedField K] (st ct sp cp sA cA sB cB : K)
    (h2 : sp ^ 2 + cp ^ 2 = 1) (h1 : st ^ 2 + ct ^ 2 = 1) (h3 : sA ^ 2 + cA ^ 2 = 1)
    (h4 : sB ^ 2 + cB ^ 2 = 1) : luminance st ct sp cp sA cA sB cB < 3 / 2 := by
  unfold luminance
  set a := st * sA - sp * ct * cA with ha
  set b := sp * ct * sA + st * cA with hb
  set c := cp * ct with hc
  have habc : a ^ 2 + b ^ 2 + c ^ 2 = 1 := by
    have : a ^ 2 + b ^ 2 + c ^ 2
        = (st ^ 2 + ct ^ 2 * (sp ^ 2 + cp ^ 2)) * (sA ^ 2 + cA ^ 2)
          - ct ^ 2 * cp ^ 2 * (sA ^ 2 + cA ^ 2 - 1) := by
      simp only [ha, hb, hc]; ring
    rw [this, h2, h3]; linarith
  have hu : (a * cB - c * sB) ^ 2 + (a * sB + c * cB) ^ 2 = a ^ 2 + c ^ 2 := by
    have : (a * cB - c * sB) ^ 2 + (a * sB + c * cB) ^ 2
        = (a ^ 2 + c ^ 2) * (sB ^ 2 + cB ^ 2) := by
      ring
    rw [this, h4, mul_one]
  have hgoal : (st * sA - sp * ct * cA) * cB - sp * ct * sA - st * cA - cp * ct * sB
      = (a * cB - c * sB) - b := by
    simp only [ha, hb, hc]; ring
  rw [hgoal]
  generalize a * cB - c * sB = u at hu
  generalize a * sB + c * cB = w at hu
  have hsq : (u - b) ^ 2 ≤ 2 := by
    nlinarith [sq_nonneg (u + b), sq_nonneg w]
  by_contra hcon
  have hge : 3 / 2 ≤ u - b := not_lt.mp hcon
  nlinarith [mul_self_le_mul_self (by norm_num : (0 : K) ≤ 3 / 2) hge]

theorem truncInt_le_of_lt {K : Type} [LinearOrderedField K] [FloorRing K] (x : K) (m : Int)
    (hm : 0 ≤ m) (h : x < (m : K) + 1) : truncInt x ≤ m := by
  unfold truncInt
  split
  · have : Int.floor x < m + 1 := by
      rw [Int.floor_lt]; push_cast; exact h
    omega
  · rename_i hx
    have hx0 : x ≤ ((0 : Int) : K) := by
      push_cast; exact le_of_lt (not_le.mp hx)
    have : Int.ceil x ≤ 0 := Int.ceil_le.mpr hx0
    omega

theorem truncInt_nonpos_of_neg {K : Type} [LinearOrderedField K] [FloorRing K] (x : K)
    (h : x < 0) : truncInt x ≤ 0 := by
  have := truncInt_le_of_lt x 0 le_rfl (by push_cast; linarith)
  exact this

theorem ramp_eq : ramp = [46, 44, 45, 126, 58, 59, 61, 33, 42, 35, 36, 64] := by
  decide

theorem shade_of_le (N : Int) (h : N ≤ 11) : ∃ ch, shade N = some ch := by
  unfold shade lumIndex index
  rw [ramp_eq]
  split
  · have h0 : 0 ≤ N := by omega
    obtain ⟨n, rfl⟩ := Int.eq_ofNat_of_zero_le h0
    have hn : n ≤ 11 := by omega
    interval_cases n <;> simp
  · simp

theorem shade_of_nonpos (N : Int) (h : N ≤ 0) : shade N = some (rune '.') := by
  unfold shade lumIndex index
  rw [ramp_eq]
  have : ¬ N > 0 := by omega
  simp [this]
  decide

/-- C1: for all real angles theta, phi, A and B the light coefficient N = trunc(8 L) is at
most 11, so the index n (N when positive, else 0) lies in [0, 11] and the lookup into the
12-character ramp is in range; when the raw luminance is negative the index is 0 and the
character is the dot. -/
theorem luminance_index_in_ramp (θ φ A B : ℝ) :
    lumN (Real.sin θ) (Real.cos θ) (Real.sin φ) (Real.cos φ)
        (Real.sin A) (Real.cos A) (Real.sin B) (Real.cos B) ≤ 11 ∧
    0 ≤ lumIndex (lumN (Real.sin θ) (Real.cos θ) (Real.sin φ) (Real.cos φ)
        (Real.sin A) (Real.cos A) (Real.sin B) (Real.cos B)) ∧
    lumIndex (lumN (Real.sin θ) (Real.cos θ) (Real.sin φ) (Real.cos φ)
        (Real.sin A) (Real.cos A) (Real.sin B) (Real.cos B)) ≤ 11 ∧
    ramp.length = 12 ∧
    (∃ ch, shade (lumN (Real.sin θ) (Real.cos θ) (Real.sin φ) (Real.cos φ)
        (Real.sin A) (Real.cos A) (Real.sin B) (Real.cos B)) = some ch) ∧
    (luminance (Real.sin θ) (Real.cos θ) (Real.sin φ) (Real.cos φ)
        (Real.sin A) (Real.cos A) (Real.sin B) (Real.cos B) < 0 →
      lumIndex (lumN (Real.sin θ) (Real.cos θ) (Real.sin φ) (Real.cos φ)
        (Real.sin A) (Real.cos A) (Real.sin B) (Real.cos B)) = 0 ∧
      shade (lumN (Real.sin θ) (Real.cos θ) (Real.sin φ) (Real.cos φ)
        (Real.sin A) (Real.cos A) (Real.sin B) (Real.cos B)) = some (rune '.')) := by
  have hL := luminance_lt (Real.sin θ) (Real.cos θ) (Real.sin φ) (Real.cos φ)
    (Real.sin A) (Real.cos A) (Real.sin B) (Real.cos B)
    (Real.sin_sq_add_cos_sq φ) (Real.sin_sq_add_cos_sq θ) (Real.sin_sq_add_cos_sq A)
    (Real.sin_sq_add_cos_sq B)
  have hN : lumN (Real.sin θ) (Real.cos θ) (Real.sin φ) (Real.cos φ)
      (Real.sin A) (Real.cos A) (Real.sin B) (Real.cos B) ≤ 11 := by
    unfold lumN
    apply truncInt_le_of_lt _ 11 (by norm_num)
    push_cast
    linarith
  refine ⟨hN, ?_, ?_, ?_, shade_of_le _ hN, ?_⟩
  · unfold lumIndex; split <;> omega
  · unfold lumIndex; split <;> omega
  · rw [ramp_eq]; rfl
  · intro hneg
    have hN0 : lumN (Real.sin θ) (Real.cos θ) (Real.sin φ) (Real.cos φ)
        (Real.sin A) (Real.cos A) (Real.sin B) (Real.cos B) ≤ 0 := by
      unfold lumN
      apply truncInt_nonpos_of_neg
      linarith
    refine ⟨?_, shade_of_nonpos _ hN0⟩
    unfold lumIndex
    split
    · omega
    · rfl

/-! ## Slice reads and writes -/

theorem index_isSome {α : Type} (l : List α) (i : Int) (h0 : 0 ≤ i) (h1 : i < l.length) :
    ∃ v, index l i = some v := by
  unfold index
  rw [if_pos ⟨h0, h1⟩]
  have : i.toNat < l.length := by omega
  exact ⟨l[i.toNat], List.getElem?_eq_getElem this⟩

theorem index_some_bounds {α : Type} {l : List α} {i : Int} {v : α}
    (h : index l i = some v) : 0 ≤ i ∧ i < l.length := by
  unfold index at h
  split at h
  · assumption
  · cases h

theorem setIdx_isSome {α : Type} (l : List α) (i : Int) (v : α) (h0 : 0 ≤ i)
    (h1 : i < l.length) : setIdx l i v = some (l.set i.toNat v) := by
  unfold setIdx
  rw [if_pos ⟨h0, h1⟩]

theorem setIdx_some {α : Type} {l l' : List α} {i : Int} {v : α}
    (h : setIdx l i v = some l') : 0 ≤ i ∧ i < l.length ∧ l' = l.set i.toNat v := by
  unfold setIdx at h
  split at h
  · rename_i hb
    exact ⟨hb.1, hb.2, (Option.some.inj h).symm⟩
  · cases h

theorem setIdx_length {α : Type} {l l' : List α} {i : Int} {v : α}
    (h : setIdx l i v = some l') : l'.length = l.length := by
  obtain ⟨_, _, rfl⟩ := setIdx_some h
  simp

theorem index_setIdx_same {α : Type} {l l' : List α} {i : Int} {v : α}
    (h : setIdx l i v = some l') : index l' i = some v := by
  obtain ⟨h0, h1, rfl⟩ := setIdx_some h
  unfold index
  have hlen : i < ((l.set i.toNat v).length : Int) := by simpa using h1
  rw [if_pos ⟨h0, hlen⟩]
  have : i.toNat < l.length := by omega
  simp [List.getElem?_set, this]

theorem index_setIdx_ne {α : Type} {l l' : List α} {i j : Int} {v : α}
    (h : setIdx l i v = some l') (hij : j ≠ i) : index l' j = index l j := by
  obtain ⟨h0, h1, rfl⟩ := setIdx_some h
  unfold index
  simp only [List.length_set]
  split
  · rename_i hb
    have : i.toNat ≠ j.toNat := by omega
    simp [List.getElem?_set, this]
  · rfl

/-! ## The raster pass -/

theorem inWindow_iff (x y : Int) :
    inWindow x y = true ↔ 0 ≤ x ∧ x < 79 ∧ 0 ≤ y ∧ y < 22 := by
  unfold inWindow
  simp only [Bool.and_eq_true, decide_eq_true_eq]
  constructor
  · rintro ⟨⟨⟨a, b⟩, c⟩, d⟩; exact ⟨c, d, b, a⟩
  · rintro ⟨a, b, c, d⟩; exact ⟨⟨⟨d, c⟩, a⟩, b⟩

theorem pixel_bounds {x y : Int} (h : inWindow x y = true) :
    0 ≤ pixel x y ∧ pixel x y < (FBSZ : Int) := by
  rw [inWindow_iff] at h
  unfold pixel FBSZ
  constructor <;> push_cast <;> omega

theorem plot_of_not_inWindow {K : Type} [LinearOrderedField K] (c : Canvas K) (s : Sample K)
    (h : inWindow s.x s.y = false) : plot c s = some c := by
  unfold plot
  simp [h]

/-- C3: when the window check passes, the flat index o = x + 80 y lies in [0, FBSZ) with
FBSZ = 1760, so a read and a write at o of a buffer of FBSZ elements are in range and the
draw step of donut completes; when the check fails the draw step leaves every canvas as it
is, whatever the lengths of its buffers, so neither buffer is accessed at o. -/
theorem window_check_index_in_bounds (x y : Int) :
    (inWindow x y = true →
      0 ≤ pixel x y ∧ pixel x y < (FBSZ : Int) ∧ FBSZ = 1760 ∧
      (∀ (α : Type) (l : List α) (v : α), l.length = FBSZ →
        (∃ w, index l (pixel x y) = some w) ∧ ∃ l', setIdx l (pixel x y) v = some l') ∧
      (∀ (c : Canvas ℚ) (D : ℚ) (N : Int), c.z.length = FBSZ → c.b.length = FBSZ → N ≤ 11 →
        ∃ c', plot c ⟨x, y, D, N⟩ = some c')) ∧
    (inWindow x y = false →
      ∀ (c : Canvas ℚ) (D : ℚ) (N : Int), plot c ⟨x, y, D, N⟩ = some c) := by
  refine ⟨fun h => ?_, fun h c D N => plot_of_not_inWindow c ⟨x, y, D, N⟩ h⟩
  obtain ⟨h0, h1⟩ := pixel_bounds h
  refine ⟨h0, h1, rfl, ?_, ?_⟩
  · intro α l v hl
    have h1' : pixel x y < (l.length : Int) := by rw [hl]; exact h1
    exact ⟨index_isSome l _ h0 h1', _, setIdx_isSome l _ v h0 h1'⟩
  · intro c D N hz hb hN
    have hz' : pixel x y < (c.z.length : Int) := by rw [hz]; exact h1
    have hb' : pixel x y < (c.b.length : Int) := by rw [hb]; exact h1
    obtain ⟨zo, hzo⟩ := index_isSome c.z _ h0 hz'
    obtain ⟨ch, hch⟩ := shade_of_le N hN
    unfold plot
    simp only [h, if_true, hzo, setIdx_isSome c.z _ D h0 hz', hch,
      setIdx_isSome c.b _ ch h0 hb']
    split <;> exact ⟨_, rfl⟩

theorem plot_cases {K : Type} [LinearOrderedField K] {c c' : Canvas K} {s : Sample K}
    (h : plot c s = some c') :
    (drawn c s = false ∧ c' = c) ∨
    (drawn c s = true ∧ inWindow s.x s.y = true ∧
      (∃ zo, index c.z (pixel s.x s.y) = some zo ∧ zo < s.D) ∧
      setIdx c.z (pixel s.x s.y) s.D = some c'.z ∧
      ∃ ch, shade s.N = some ch ∧ setIdx c.b (pixel s.x s.y) ch = some c'.b) := by
  unfold plot at h
  unfold drawn
  cases hw : inWindow s.x s.y with
  | false =>
    left
    simp only [hw, Bool.false_eq_true, if_false, Option.some.injEq] at h
    exact ⟨by simp, h.symm⟩
  | true =>
    simp only [hw, if_true] at h
    cases hz : index c.z (pixel s.x s.y) with
    | none => simp [hz] at h
    | some zo =>
      simp only [hz] at h
      by_cases hD : s.D > zo
      · right
        simp only [hD, if_true] at h
        cases hs : setIdx c.z (pixel s.x s.y) s.D with
        | none => simp [hs] at h
        | some z1 =>
          simp only [hs] at h
          cases hc : shade s.N with
          | none => simp [hc] at h
          | some ch =>
            simp only [hc] at h
            cases hb : setIdx c.b (pixel s.x s.y) ch with
            | none => simp [hb] at h
            | some b1 =>
              simp only [hb, Option.some.injEq] at h
              subst h
              exact ⟨by simp [hD], rfl, ⟨zo, rfl, hD⟩, rfl, ch, rfl, hb⟩
      · left
        simp only [hD, if_false, Option.some.injEq] at h
        exact ⟨by simp [hD], h.symm⟩

theorem plot_lengths {K : Type} [LinearOrderedField K] {c c' : Canvas K} {s : Sample K}
    (h : plot c s = some c') : c'.z.length = c.z.length ∧ c'.b.length = c.b.length := by
  rcases plot_cases h with ⟨_, rfl⟩ | ⟨_, _, _, hz, ch, _, hb⟩
  · exact ⟨rfl, rfl⟩
  · exact ⟨setIdx_length hz, setIdx_length hb⟩

theorem plot_isSome {K : Type} [LinearOrderedField K] (c : Canvas K) (s : Sample K)
    (hz : c.z.length = FBSZ) (hb : c.b.length = FBSZ) (hN : s.N ≤ 11) :
    ∃ c', plot c s = some c' := by
  cases hw : inWindow s.x s.y with
  | false => exact ⟨c, plot_of_not_inWindow c s hw⟩
  | true =>
    obtain ⟨h0, h1⟩ := pixel_bounds hw
    have hz' : pixel s.x s.y < (c.z.length : Int) := by rw [hz]; exact h1
    have hb' : pixel s.x s.y < (c.b.length : Int) := by rw [hb]; exact h1
    obtain ⟨zo, hzo⟩ := index_isSome c.z _ h0 hz'
    obtain ⟨ch, hch⟩ := shade_of_le s.N hN
    unfold plot
    simp only [hw, if_true, hzo, setIdx_isSome c.z _ s.D h0 hz', hch,
      setIdx_isSome c.b _ ch h0 hb']
    split <;> exact ⟨_, rfl⟩

theorem raster_isSome {K : Type} [LinearOrderedField K] (ss : List (Sample K)) :
    ∀ c : Canvas K, c.z.length = FBSZ → c.b.length = FBSZ → (∀ s ∈ ss, s.N ≤ 11) →
      ∃ c', raster c ss = some c' := by
  induction ss with
  | nil => intro c _ _ _; exact ⟨c, rfl⟩
  | cons s ss ih =>
    intro c hz hb hN
    obtain ⟨c1, h1⟩ := plot_isSome c s hz hb (hN s (List.mem_cons_self _ _))
    obtain ⟨hz1, hb1⟩ := plot_lengths h1
    obtain ⟨c', h'⟩ := ih c1 (hz1.trans hz) (hb1.trans hb)
      (fun t ht => hN t (List.mem_cons_of_mem _ ht))
    exact ⟨c', by simp only [raster, h1, h']⟩

/-- The depth stored at a pixel after the raster pass: it is no smaller than the depth
stored before and than the depth of any in-window sample at the pixel, it is the depth
stored before or that of such a sample, and it has grown when the pixel was written. -/
theorem raster_depth {K : Type} [LinearOrderedField K] (ss : List (Sample K)) :
    ∀ (c c' : Canvas K), raster c ss = some c' →
      ∀ (o : Int) (zo : K), index c.z o = some zo →
        ∃ zo', index c'.z o = some zo' ∧ zo ≤ zo' ∧
          (∀ s ∈ ss, inWindow s.x s.y = true → pixel s.x s.y = o → s.D ≤ zo') ∧
          (zo' = zo ∨ ∃ s ∈ ss, inWindow s.x s.y = true ∧ pixel s.x s.y = o ∧ s.D = zo') ∧
          (o ∈ written c ss → zo < zo') := by
  induction ss with
  | nil =>
    intro c c' h o zo hzo
    simp only [raster, Option.some.injEq] at h
    subst h
    exact ⟨zo, hzo, le_rfl, by simp, Or.inl rfl, by simp [written]⟩
  | cons s ss ih =>
    intro c c' h o zo hzo
    cases h1 : plot c s with
    | none => simp [raster, h1] at h
    | some c1 =>
      simp only [raster, h1] at h
      rcases plot_cases h1 with ⟨hd, rfl⟩ | ⟨hd, hw, ⟨zp, hzp, hlt⟩, hset, _⟩
      · obtain ⟨zo', h1', h2, h3, h4, h5⟩ := ih c1 c' h o zo hzo
        refine ⟨zo', h1', h2, ?_, ?_, ?_⟩
        · intro t ht hwt hpt
          rcases List.mem_cons.mp ht with rfl | ht
          · unfold drawn at hd
            rw [hwt, hpt, hzo] at hd
            simp only [Bool.true_and, decide_eq_false_iff_not, not_lt] at hd
            exact hd.trans h2
          · exact h3 t ht hwt hpt
        · rcases h4 with h4 | ⟨t, ht, h4⟩
          · exact Or.inl h4
          · exact Or.inr ⟨t, List.mem_cons_of_mem _ ht, h4⟩
        · intro hmem
          simp only [written, h1, hd, Bool.false_eq_true, if_false, List.nil_append] at hmem
          exact h5 hmem
      · by_cases hop : o = pixel s.x s.y
        · subst hop
          rw [hzp] at hzo
          cases hzo
          obtain ⟨zo', h1', h2, h3, h4, _⟩ := ih c1 c' h _ s.D (index_setIdx_same hset)
          refine ⟨zo', h1', le_of_lt (lt_of_lt_of_le hlt h2), ?_, ?_,
            fun _ => lt_of_lt_of_le hlt h2⟩
          · intro t ht hwt hpt
            rcases List.mem_cons.mp ht with rfl | ht
            · exact h2
            · exact h3 t ht hwt hpt
          · rcases h4 with h4 | ⟨t, ht, h4⟩
            · exact Or.inr ⟨s, List.mem_cons_self _ _, hw, rfl, h4.symm⟩
            · exact Or.inr ⟨t, List.mem_cons_of_mem _ ht, h4⟩
        · have hzo1 : index c1.z o = some zo := by
            rw [index_setIdx_ne hset hop]; exact hzo
          obtain ⟨zo', h1', h2, h3, h4, h5⟩ := ih c1 c' h o zo hzo1
          refine ⟨zo', h1', h2, ?_, ?_, ?_⟩
          · intro t ht hwt hpt
            rcases List.mem_cons.mp ht with rfl | ht
            · exact absurd hpt.symm hop
            · exact h3 t ht hwt hpt
          · rcases h4 with h4 | ⟨t, ht, h4⟩
            · exact Or.inl h4
            · exact Or.inr ⟨t, List.mem_cons_of_mem _ ht, h4⟩
          · intro hmem
            simp only [written, h1, hd, if_true, List.singleton_append,
              List.mem_cons] at hmem
            rcases hmem with hmem | hmem
            · exact absurd hmem hop
            · exact h5 hmem

theorem written_bounds {K : Type} [LinearOrderedField K] (ss : List (Sample K)) :
    ∀ (c : Canvas K) (o : Int), o ∈ written c ss → 0 ≤ o ∧ o < (FBSZ : Int) := by
  induction ss with
  | nil => intro c o h; simp [written] at h
  | cons s ss ih =>
    intro c o h
    cases h1 : plot c s with
    | none => simp [written, h1] at h
    | some c1 =>
      simp only [written, h1, List.mem_append] at h
      rcases h with h | h
      · cases hd : drawn c s with
        | false => simp [hd] at h
        | true =>
          simp only [hd, if_true, List.mem_singleton] at h
          subst h
          unfold drawn at hd
          simp only [Bool.and_eq_true] at hd
          exact pixel_bounds hd.1
      · exact ih c1 o h

/-- C2: the raster pass of a tick, a fold in sweep order over any finite sequence of
samples applied to a canvas whose depth buffer was cleared to zero, completes, and for
every pixel o written at least once during the pass the depth finally stored at o is the
depth of an in-window sample mapped to o and is no smaller than the depth of any in-window
sample mapped to o: it is their maximum. -/
theorem raster_depth_is_maximum {K : Type} [LinearOrderedField K] (c : Canvas K)
    (ss : List (Sample K)) (hz : c.z = List.replicate FBSZ 0) (hb : c.b.length = FBSZ)
    (hN : ∀ s ∈ ss, s.N ≤ 11) :
    ∃ c', raster c ss = some c' ∧
      ∀ o ∈ written c ss, ∃ zo, index c'.z o = some zo ∧
        (∃ s ∈ ss, inWindow s.x s.y = true ∧ pixel s.x s.y = o ∧ s.D = zo) ∧
        (∀ s ∈ ss, inWindow s.x s.y = true → pixel s.x s.y = o → s.D ≤ zo) := by
  have hzl : c.z.length = FBSZ := by rw [hz]; simp
  obtain ⟨c', hc'⟩ := raster_isSome ss c hzl hb hN
  refine ⟨c', hc', ?_⟩
  intro o ho
  obtain ⟨h0, h1⟩ := written_bounds ss c o ho
  obtain ⟨z0, hz0⟩ := index_isSome c.z o h0 (by rw [hzl]; exact h1)
  obtain ⟨zo, hzo, _, hmax, hatt, hgt⟩ := raster_depth ss c c' hc' o z0 hz0
  refine ⟨zo, hzo, ?_, hmax⟩
  rcases hatt with hatt | hatt
  · exact absurd hatt (ne_of_gt (hgt ho))
  · exact hatt

theorem raster_depth_is_maximum_witness :
    (Canvas.mk (List.replicate FBSZ 32) (List.replicate FBSZ (0 : ℚ))).z
      = List.replicate FBSZ 0 ∧
    (Canvas.mk (List.replicate FBSZ 32) (List.replicate FBSZ (0 : ℚ))).b.length = FBSZ ∧
    (∀ s ∈ [Sample.mk 1 0 (1 / 4 : ℚ) 3, Sample.mk 1 0 (1 / 2 : ℚ) 5], s.N ≤ 11) ∧
    ∃ c', raster (Canvas.mk (List.replicate FBSZ 32) (List.replicate FBSZ (0 : ℚ)))
        [Sample.mk 1 0 (1 / 4 : ℚ) 3, Sample.mk 1 0 (1 / 2 : ℚ) 5] = some c' ∧
      ∀ o ∈ written (Canvas.mk (List.replicate FBSZ 32) (List.replicate FBSZ (0 : ℚ)))
          [Sample.mk 1 0 (1 / 4 : ℚ) 3, Sample.mk 1 0 (1 / 2 : ℚ) 5],
        ∃ zo, index c'.z o = some zo ∧
          (∃ s ∈ [Sample.mk 1 0 (1 / 4 : ℚ) 3, Sample.mk 1 0 (1 / 2 : ℚ) 5],
            inWindow s.x s.y = true ∧ pixel s.x s.y = o ∧ s.D = zo) ∧
          (∀ s ∈ [Sample.mk 1 0 (1 / 4 : ℚ) 3, Sample.mk 1 0 (1 / 2 : ℚ) 5],
            inWindow s.x s.y = true → pixel s.x s.y = o → s.D ≤ zo) :=
  ⟨rfl, by simp, by simp,
    raster_depth_is_maximum _ _ rfl (by simp) (by simp)⟩

/-! ## The statistics overlay: `splice` at the row boundary -/

/-- C4 (the code at the failing inputs): on the two-row buffer "ab\ncd\n", whose rows are
three runes wide, splicing "XYZ" into row 0 at column 1 overwrites the newline of row 0
and the first rune of row 1, and splicing it into row 1 at column 1 indexes past the end
of the buffer; on the blank buffer of 22 rows of 80 runes, splicing a rate line of 18
runes into row 1 at column 63, as donut does, puts its last two runes on the newline of
row 1 (index 159) and on the first rune of row 2 (index 160). -/
theorem splice_writes_past_newline :
    splice (runes "ab\ncd\n") 0 1 (runes "XYZ") = some (runes "aXYZd\n") ∧
    splice (runes "ab\ncd\n") 1 1 (runes "XYZ") = none ∧
    (splice ((List.range FBSZ).map (fun k => if k % 80 = 79 then rune '\n' else rune ' '))
        1 63 (runes "│   FPS: 1000000.0")).bind (fun b => (b.drop 143).take 19)
      = some (runes "│   FPS: 1000000.0 ") := by
  refine ⟨by decide, by decide, ?_⟩
  set_option maxRecDepth 1000000 in decide

/-! ## The frame formatter -/

theorem rune_newline : rune '\n' = 10 := by decide

theorem rune_space : rune ' ' = 32 := by decide

theorem rune_tee : rune '┤' = 9508 := by decide

theorem side_eq : side = 9474 := by decide

theorem top_length : top.length = 80 := by decide

theorem bttm_length : bttm.length = 80 := by decide

theorem top_no_newline : (10 : Rune) ∉ top := by decide

theorem bttm_no_newline : (10 : Rune) ∉ bttm := by decide

theorem toValid_eq_newline {r : Rune} (h : toValid r = 10) : r = 10 := by
  unfold toValid at h
  split at h
  · exact h
  · norm_num at h

theorem toValid_of_valid {r : Rune} (h : validRune r = true) : toValid r = r := by
  unfold toValid
  rw [if_pos h]

theorem stringOfRunes_length (t : List Rune) : (stringOfRunes t).length = t.length := by
  simp [stringOfRunes]

theorem stringOfRunes_getElem? (t : List Rune) (k : Nat) :
    (stringOfRunes t)[k]? = t[k]?.map toValid := by
  simp [stringOfRunes]

theorem newline_not_mem_stringOfRunes {t : List Rune} (h : (10 : Rune) ∉ t) :
    (10 : Rune) ∉ stringOfRunes t := by
  intro hm
  unfold stringOfRunes at hm
  obtain ⟨r, hr, hr10⟩ := List.mem_map.mp hm
  rw [toValid_eq_newline hr10] at hr
  exact h hr

theorem newline_not_mem_set {t : List Rune} {i : Nat} {v : Rune} (h : (10 : Rune) ∉ t)
    (hv : v ≠ 10) : (10 : Rune) ∉ t.set i v := by
  intro hm
  rcases List.mem_or_eq_of_mem_set hm with hm | hm
  · exact h hm
  · exact hv hm.symm

theorem split_ne_nil (s : List Rune) (sep : Rune) : split s sep ≠ [] := by
  induction s with
  | nil => simp [split]
  | cons c cs ih =>
    unfold split
    split
    · simp
    · split <;> simp

theorem split_no_sep (s : List Rune) (sep : Rune) : ∀ l ∈ split s sep, sep ∉ l := by
  induction s with
  | nil => intro l hl; simp [split] at hl; subst hl; simp
  | cons c cs ih =>
    intro l hl
    unfold split at hl
    split at hl
    · rcases List.mem_cons.mp hl with rfl | hl
      · simp
      · exact ih l hl
    · rename_i hc
      split at hl
      · rename_i hnil
        exact absurd hnil (split_ne_nil cs sep)
      · rename_i l0 ls heq
        rcases List.mem_cons.mp hl with rfl | hl
        · intro hm
          rcases List.mem_cons.mp hm with hm | hm
          · exact hc hm.symm
          · exact ih l0 (by rw [heq]; exact List.mem_cons_self _ _) hm
        · exact ih l (by rw [heq]; exact List.mem_cons_of_mem _ hl)

theorem split_length (s : List Rune) (sep : Rune) :
    (split s sep).length = s.count sep + 1 := by
  induction s with
  | nil => simp [split]
  | cons c cs ih =>
    unfold split
    split
    · rename_i hc
      subst hc
      simp [ih]
    · rename_i hc
      have hcount : (c :: cs).count sep = cs.count sep := by
        rw [List.count_cons_of_ne]
        exact fun e => hc e.symm
      rw [hcount, ← ih]
      split
      · rename_i hnil
        exact absurd hnil (split_ne_nil cs sep)
      · rename_i l0 ls heq
        rw [heq]
        simp

theorem split_append_sep (l rest : List Rune) (sep : Rune) (h : sep ∉ l) :
    split (l ++ sep :: rest) sep = l :: split rest sep := by
  induction l with
  | nil => simp [split]
  | cons c cs ih =>
    have hc : c ≠ sep := fun e => h (by rw [e]; exact List.mem_cons_self _ _)
    have hcs : sep ∉ cs := fun hm => h (List.mem_cons_of_mem _ hm)
    rw [List.cons_append, split, if_neg hc, ih hcs]

theorem split_of_not_mem (l : List Rune) (sep : Rune) (h : sep ∉ l) : split l sep = [l] := by
  induction l with
  | nil => simp [split]
  | cons c cs ih =>
    have hc : c ≠ sep := fun e => h (by rw [e]; exact List.mem_cons_self _ _)
    have hcs : sep ∉ cs := fun hm => h (List.mem_cons_of_mem _ hm)
    rw [split, if_neg hc, ih hcs]

theorem split_join (lines : List (List Rune)) (sep : Rune) (hne : lines ≠ [])
    (h : ∀ l ∈ lines, sep ∉ l) : split (join lines sep) sep = lines := by
  induction lines with
  | nil => exact absurd rfl hne
  | cons l ls ih =>
    cases ls with
    | nil =>
      simp only [join]
      exact split_of_not_mem l sep (h l (List.mem_cons_self _ _))
    | cons l' ls' =>
      simp only [join]
      rw [split_append_sep l _ sep (h l (List.mem_cons_self _ _)),
        ih (by simp) (fun m hm => h m (List.mem_cons_of_mem _ hm))]

theorem toValid_side : toValid side = side := by decide

theorem toValid_tee : toValid (rune '┤') = rune '┤' := by decide

theorem trimAt_length (s : List Rune) (w : Nat) : (trimAt s w).length = w := by
  unfold trimAt
  simp only
  split
  · rw [stringOfRunes_length, List.length_take]; omega
  · rw [List.length_append, List.length_replicate]; omega

theorem trimAt_no_newline {s : List Rune} (w : Nat) (h : (10 : Rune) ∉ s) :
    (10 : Rune) ∉ trimAt s w := by
  unfold trimAt
  simp only
  split
  · exact newline_not_mem_stringOfRunes (fun hm => h (List.mem_of_mem_take hm))
  · intro hm
    rcases List.mem_append.mp hm with hm | hm
    · exact h hm
    · have := (List.mem_replicate.mp hm).2
      rw [rune_space] at this
      norm_num at this

theorem frameLine_eq (s : List Rune) (chr : Rune) (h : 0 < s.length) :
    frameLine s chr = some (stringOfRunes ((s.set 0 chr).set (s.length - 1) chr)) := by
  unfold frameLine
  rw [setIdx_isSome s 0 chr le_rfl (by exact_mod_cast h)]
  simp only [List.length_set, Int.toNat_zero]
  rw [setIdx_isSome _ _ chr (by omega) (by simp)]
  have : ((s.length : Int) - 1).toNat = s.length - 1 := by omega
  rw [this]

/-- The body of the loop of `MakeFrame` at the width of `top`: it completes, and the
framed row has 80 runes, the side glyph first, and last the side glyph or, for the line of
index 4, the junction glyph. -/
theorem frameRow_spec (i : Nat) (line : List Rune) :
    ∃ r, frameRow 80 i line = some r ∧ r.length = 80 ∧
      ((10 : Rune) ∉ line → (10 : Rune) ∉ r) ∧
      r[0]? = some side ∧ r[79]? = some (if i = 4 then rune '┤' else side) := by
  have hlen := trimAt_length line 80
  have hfl := frameLine_eq (trimAt line 80) side (by rw [hlen]; norm_num)
  rw [hlen] at hfl
  have hr0len : (stringOfRunes (((trimAt line 80).set 0 side).set (80 - 1) side)).length
      = 80 := by
    simp [stringOfRunes_length, hlen]
  have hr0nl : (10 : Rune) ∉ line →
      (10 : Rune) ∉ stringOfRunes (((trimAt line 80).set 0 side).set (80 - 1) side) := by
    intro h
    apply newline_not_mem_stringOfRunes
    apply newline_not_mem_set _ (by rw [side_eq]; norm_num)
    apply newline_not_mem_set _ (by rw [side_eq]; norm_num)
    exact trimAt_no_newline 80 h
  have hr00 : (stringOfRunes (((trimAt line 80).set 0 side).set (80 - 1) side))[0]?
      = some side := by
    rw [stringOfRunes_getElem?]
    simp [List.getElem?_set, hlen, toValid_side]
  unfold frameRow
  rw [hfl]
  simp only
  by_cases hi : i = 4
  · rw [if_pos hi, if_pos hi]
    rw [setIdx_isSome _ 79 _ (by norm_num) (by rw [hr0len]; norm_num)]
    refine ⟨_, rfl, ?_, ?_, ?_, ?_⟩
    · simp [stringOfRunes_length, hlen]
    · intro h
      apply newline_not_mem_stringOfRunes
      apply newline_not_mem_set (hr0nl h)
      rw [rune_tee]; norm_num
    · rw [stringOfRunes_getElem?]
      have h79 : (79 : Int).toNat = 79 := rfl
      rw [h79, List.getElem?_set_ne (by norm_num), hr00]
      simp [toValid_side]
    · rw [stringOfRunes_getElem?]
      have h79 : (79 : Int).toNat = 79 := rfl
      rw [h79, List.getElem?_set_self (by rw [hr0len]; norm_num)]
      simp [toValid_tee]
  · rw [if_neg hi, if_neg hi]
    refine ⟨_, rfl, hr0len, hr0nl, hr00, ?_⟩
    rw [stringOfRunes_getElem?]
    simp [List.getElem?_set, hlen, toValid_side]

theorem frameLoop_spec (lines : List (List Rune)) :
    ∀ i : Nat, ∃ rows, frameLoop 80 i lines = some rows ∧ rows.length = lines.length ∧
      ((∀ l ∈ lines, (10 : Rune) ∉ l) → ∀ r ∈ rows, (10 : Rune) ∉ r) ∧
      ∀ (k : Nat) (r : List Rune), rows[k]? = some r →
        r.length = 80 ∧ r[0]? = some side ∧
        r[79]? = some (if i + k = 4 then rune '┤' else side) := by
  induction lines with
  | nil => intro i; exact ⟨[], rfl, rfl, by simp, by simp⟩
  | cons l ls ih =>
    intro i
    obtain ⟨r, hr, hrlen, hrnl, hr0, hr79⟩ := frameRow_spec i l
    obtain ⟨rs, hrs, hrslen, hrsnl, hrsall⟩ := ih (i + 1)
    refine ⟨r :: rs, by simp only [frameLoop, hr, hrs], by simp [hrslen], ?_, ?_⟩
    · intro hno m hm
      rcases List.mem_cons.mp hm with rfl | hm
      · exact hrnl (hno l (List.mem_cons_self _ _))
      · exact hrsnl (fun l' hl' => hno l' (List.mem_cons_of_mem _ hl')) m hm
    · intro k m hk
      cases k with
      | zero =>
        simp only [List.getElem?_cons_zero, Option.some.injEq] at hk
        subst hk
        exact ⟨hrlen, hr0, by simpa using hr79⟩
      | succ k =>
        simp only [List.getElem?_cons_succ] at hk
        have := hrsall k m hk
        have hik : i + 1 + k = i + (k + 1) := by omega
        rw [hik] at this
        exact this

/-- `MakeFrame` completes on every buffer; its output splits at the newlines into the top
border, the framed rows (one more than the buffer has newlines) and the bottom border. -/
theorem MakeFrame_spec (pic : List Rune) :
    ∃ rows, frameRows pic = some rows ∧
      MakeFrame pic = some (join (top :: rows ++ [bttm]) (rune '\n')) ∧
      split (join (top :: rows ++ [bttm]) (rune '\n')) (rune '\n') = top :: rows ++ [bttm] ∧
      rows.length = pic.count (rune '\n') + 1 ∧
      ∀ (k : Nat) (r : List Rune), rows[k]? = some r →
        r.length = 80 ∧ r[0]? = some side ∧
        r[79]? = some (if k = 4 then rune '┤' else side) := by
  obtain ⟨rows, hrows, hlen, hnl, hall⟩ :=
    frameLoop_spec (split (stringOfRunes pic) (rune '\n')) 0
  have hfr : frameRows pic = some rows := by
    unfold frameRows
    rw [top_length]
    exact hrows
  refine ⟨rows, hfr, by simp only [MakeFrame, hfr], ?_, ?_, ?_⟩
  · apply split_join _ _ (by simp)
    intro l hl
    rw [rune_newline]
    rcases List.mem_cons.mp hl with rfl | hl
    · exact top_no_newline
    · rcases List.mem_append.mp hl with hl | hl
      · apply hnl _ l hl
        intro m hm
        have := split_no_sep _ _ m hm
        rwa [rune_newline] at this
      · rw [List.mem_singleton] at hl
        subst hl
        exact bttm_no_newline
  · rw [hlen, split_length]
    congr 1
    unfold stringOfRunes
    rw [List.count_eq_countP, List.count_eq_countP, List.countP_map]
    apply List.countP_congr
    intro r _
    simp only [Function.comp, beq_iff_eq, rune_newline]
    constructor
    · exact toValid_eq_newline
    · intro h; subst h; decide
  · intro k r hk
    have := hall k r hk
    simpa using this

theorem tee_ne_side : rune '┤' ≠ side := by decide

theorem stringOfRunes_of_valid {t : List Rune} (h : ∀ r ∈ t, validRune r = true) :
    stringOfRunes t = t := by
  unfold stringOfRunes
  conv_rhs => rw [← List.map_id t]
  apply List.map_congr_left
  intro r hr
  exact toValid_of_valid (h r hr)

/-- C5 (the claim fails at the row of index 4): for the buffer of four newlines, the
output line 5 of MakeFrame, which is the formatted row of index 4, has the junction glyph
and not the side glyph at index 79. -/
theorem row_four_last_is_not_side :
    ∃ f, MakeFrame (runes "\n\n\n\n") = some f ∧
      ∃ l, (split f (rune '\n'))[5]? = some l ∧ l[79]? = some (rune '┤') ∧
        l[79]? ≠ some side := by
  refine ⟨_, rfl, _, rfl, rfl, ?_⟩
  decide

/-- C5 (amended): for every rune buffer pic, MakeFrame completes and its output lines are
the top border, the formatted rows and the bottom border; every formatted row has the side
glyph at index 0, and at index 79 it has the side glyph unless it is the row of index 4,
which has the junction glyph there. -/
theorem framed_rows_side_glyphs (pic : List Rune) :
    ∃ rows f, frameRows pic = some rows ∧ MakeFrame pic = some f ∧
      split f (rune '\n') = top :: rows ++ [bttm] ∧
      ∀ (k : Nat) (r : List Rune), rows[k]? = some r →
        r[0]? = some side ∧ (k ≠ 4 → r[79]? = some side) ∧
        (k = 4 → r[79]? = some (rune '┤')) := by
  obtain ⟨rows, hrows, hf, hsplit, _, hall⟩ := MakeFrame_spec pic
  refine ⟨rows, _, hrows, hf, hsplit, ?_⟩
  intro k r hk
  obtain ⟨_, h0, h79⟩ := hall k r hk
  refine ⟨h0, fun hne => ?_, fun heq => ?_⟩
  · rw [h79, if_neg hne]
  · rw [h79, if_pos heq]

/-- C6: for every rune buffer pic with at least four newlines, MakeFrame completes, the
formatted row of index 4 exists and is output line 5, it has the junction glyph at column
79, and every other formatted row has the side glyph, not the junction glyph, there. -/
theorem row_four_junction (pic : List Rune) (h : 4 ≤ pic.count (rune '\n')) :
    ∃ rows f, frameRows pic = some rows ∧ MakeFrame pic = some f ∧
      split f (rune '\n') = top :: rows ++ [bttm] ∧
      (∃ r, rows[4]? = some r ∧ (split f (rune '\n'))[5]? = some r ∧
        r[79]? = some (rune '┤')) ∧
      ∀ (k : Nat) (r : List Rune), k ≠ 4 → rows[k]? = some r →
        r[79]? = some side ∧ r[79]? ≠ some (rune '┤') := by
  obtain ⟨rows, hrows, hf, hsplit, hlen, hall⟩ := MakeFrame_spec pic
  refine ⟨rows, _, hrows, hf, hsplit, ?_, ?_⟩
  · have h4 : 4 < rows.length := by omega
    refine ⟨rows[4], List.getElem?_eq_getElem h4, ?_, ?_⟩
    · rw [hsplit]
      simp [List.getElem?_append_left, h4]
    · have := (hall 4 rows[4] (List.getElem?_eq_getElem h4)).2.2
      simpa using this
  · intro k r hk hr
    have h79 := (hall k r hr).2.2
    rw [if_neg hk] at h79
    refine ⟨h79, ?_⟩
    rw [h79]
    intro he
    exact tee_ne_side (Option.some.inj he).symm

theorem row_four_junction_witness :
    4 ≤ (runes "\n\n\n\n").count (rune '\n') ∧
    ∃ rows f, frameRows (runes "\n\n\n\n") = some rows ∧
      MakeFrame (runes "\n\n\n\n") = some f ∧
      split f (rune '\n') = top :: rows ++ [bttm] ∧
      (∃ r, rows[4]? = some r ∧ (split f (rune '\n'))[5]? = some r ∧
        r[79]? = some (rune '┤')) ∧
      ∀ (k : Nat) (r : List Rune), k ≠ 4 → rows[k]? = some r →
        r[79]? = some side ∧ r[79]? ≠ some (rune '┤') :=
  ⟨by decide, row_four_junction (runes "\n\n\n\n") (by decide)⟩

/-- C7: for every string s (a sequence of scalar values) and every width w, trimAt(s, w)
has exactly w runes: it is the first w runes of s when s has more than w runes, and
otherwise s followed by w - runeCount(s) spaces, so it is s when s has exactly w runes. -/
theorem trimAt_pads_or_truncates (s : List Rune) (w : Nat)
    (hs : ∀ r ∈ s, validRune r = true) :
    (trimAt s w).length = w ∧
    (s.length > w → trimAt s w = s.take w) ∧
    (s.length ≤ w → trimAt s w = s ++ List.replicate (w - s.length) (rune ' ')) ∧
    (s.length = w → trimAt s w = s) := by
  refine ⟨trimAt_length s w, fun h => ?_, fun h => ?_, fun h => ?_⟩
  · unfold trimAt
    simp only
    rw [if_pos h]
    exact stringOfRunes_of_valid (fun r hr => hs r (List.mem_of_mem_take hr))
  · unfold trimAt
    simp only
    rw [if_neg (by omega)]
  · unfold trimAt
    simp only
    rw [if_neg (by omega), h]
    simp

theorem trimAt_pads_or_truncates_witness :
    (∀ r ∈ runes "donut", validRune r = true) ∧
    (trimAt (runes "donut") 3).length = 3 ∧
    ((runes "donut").length > 3 → trimAt (runes "donut") 3 = (runes "donut").take 3) ∧
    ((runes "donut").length ≤ 3 →
      trimAt (runes "donut") 3
        = runes "donut" ++ List.replicate (3 - (runes "donut").length) (rune ' ')) ∧
    ((runes "donut").length = 3 → trimAt (runes "donut") 3 = runes "donut") :=
  ⟨by decide, trimAt_pads_or_truncates (runes "donut") 3 (by decide)⟩

/-- C8: for every rune buffer pic, MakeFrame completes without an index out of range,
and every newline-separated line of its output, the top and the bottom border lines
included, has exactly 80 runes. -/
theorem MakeFrame_lines_have_80_runes (pic : List Rune) :
    ∃ f, MakeFrame pic = some f ∧ ∀ l ∈ split f (rune '\n'), l.length = 80 := by
  obtain ⟨rows, _, hf, hsplit, _, hall⟩ := MakeFrame_spec pic
  refine ⟨_, hf, ?_⟩
  rw [hsplit]
  intro l hl
  rcases List.mem_cons.mp hl with rfl | hl
  · exact top_length
  · rcases List.mem_append.mp hl with hl | hl
    · obtain ⟨k, hk⟩ := List.getElem?_of_mem hl
      exact (hall k l hk).1
    · rw [List.mem_singleton] at hl
      subst hl
      exact bttm_length

/-! ## Degree normalization -/

theorem normalizeDegrees_of_nonneg {K : Type} [LinearOrderedField K] [FloorRing K] (d : K)
    (h : 0 ≤ d) : 0 ≤ normalizeDegrees d ∧ normalizeDegrees d < 360 := by
  unfold normalizeDegrees truncInt
  simp only
  rw [if_pos (div_nonneg h (by norm_num))]
  have h1 : ((Int.floor (d / 360) : Int) : K) ≤ d / 360 := Int.floor_le _
  have h2 : d / 360 < ((Int.floor (d / 360) : Int) : K) + 1 := Int.lt_floor_add_one _
  rw [le_div_iff₀ (by norm_num)] at h1
  rw [div_lt_iff₀ (by norm_num)] at h2
  push_cast
  constructor <;> linarith

theorem degrees_of_four_pi : 4 * Real.pi * (180 / Real.pi) = 720 := by
  have hpi : Real.pi ≠ 0 := Real.pi_ne_zero
  field_simp
  ring

theorem normalizeDegrees_720 : normalizeDegrees (720 : ℝ) = 0 := by
  unfold normalizeDegrees truncInt
  simp only
  have h : (720 : ℝ) / 360 = ((2 : Int) : ℝ) := by norm_num
  rw [h, if_pos (by norm_num), Int.floor_intCast]
  norm_num

/-- C9 (the claim fails at a negative angle): the angle of minus a quarter turn, -pi/2
radians, is displayed as -90 degrees, which is not in [0, 360). -/
theorem normalizeDegrees_negative_angle :
    normalizeDegrees (-(Real.pi / 2) * (180 / Real.pi)) = -90 ∧
    ¬ (0 ≤ normalizeDegrees (-(Real.pi / 2) * (180 / Real.pi))) := by
  have hpi : Real.pi ≠ 0 := Real.pi_ne_zero
  have harg : -(Real.pi / 2) * (180 / Real.pi) = -90 := by
    field_simp
    ring
  have hval : normalizeDegrees (-90 : ℝ) = -90 := by
    unfold normalizeDegrees truncInt
    simp only
    have hneg : ¬ (0 : ℝ) ≤ -90 / 360 := by norm_num
    have hceil : Int.ceil ((-90 : ℝ) / 360) = 0 := by
      rw [Int.ceil_eq_iff]
      constructor <;> norm_num
    rw [if_neg hneg, hceil]
    norm_num
  rw [harg, hval]
  constructor
  · rfl
  · norm_num

/-- C9 (amended): for every angle that is not negative, in exact arithmetic with int() as
truncation toward zero, the displayed degree value normalizeDegrees(angle * 180/pi) lies
in [0, 360); an angle of 4 pi radians normalizes to 0. -/
theorem normalizeDegrees_range (angle : ℝ) (h : 0 ≤ angle) :
    0 ≤ normalizeDegrees (angle * (180 / Real.pi)) ∧
    normalizeDegrees (angle * (180 / Real.pi)) < 360 ∧
    normalizeDegrees (4 * Real.pi * (180 / Real.pi)) = 0 := by
  have hd : 0 ≤ angle * (180 / Real.pi) :=
    mul_nonneg h (div_nonneg (by norm_num) Real.pi_pos.le)
  obtain ⟨h0, h1⟩ := normalizeDegrees_of_nonneg _ hd
  refine ⟨h0, h1, ?_⟩
  rw [degrees_of_four_pi, normalizeDegrees_720]

theorem normalizeDegrees_range_witness :
    0 ≤ 4 * Real.pi ∧
    0 ≤ normalizeDegrees (4 * Real.pi * (180 / Real.pi)) ∧
    normalizeDegrees (4 * Real.pi * (180 / Real.pi)) < 360 ∧
    normalizeDegrees (4 * Real.pi * (180 / Real.pi)) = 0 :=
  ⟨mul_nonneg (by norm_num) Real.pi_pos.le,
    normalizeDegrees_range (4 * Real.pi) (mul_nonneg (by norm_num) Real.pi_pos.le)⟩

/-! ## The producer loop: blanking and drawing keep the row structure -/

theorem blankStep_eq {K : Type} [LinearOrderedField K] (c : Canvas K) (k : Nat)
    (hb : k < c.b.length) (hz : k < c.z.length) :
    blankStep c k
      = some ⟨c.b.set k (if k % 80 = 79 then rune '\n' else rune ' '), c.z.set k 0⟩ := by
  unfold blankStep
  rw [setIdx_isSome c.b k _ (by omega) (by exact_mod_cast hb),
    setIdx_isSome c.z k _ (by omega) (by exact_mod_cast hz)]
  simp

/-- The blank-frame loop completes when the depth buffer is as long as the character
buffer, and sets every index it visits. -/
theorem blankLoop_spec {K : Type} [LinearOrderedField K] (n : Nat) :
    ∀ (k : Nat) (c : Canvas K), k + n = c.b.length → c.b.length ≤ c.z.length →
      ∃ c', blankLoop n k c = some c' ∧ c'.b.length = c.b.length ∧
        c'.z.length = c.z.length ∧
        ∀ i : Nat,
          c'.b[i]? = (if k ≤ i ∧ i < k + n
            then some (if i % 80 = 79 then rune '\n' else rune ' ') else c.b[i]?) ∧
          c'.z[i]? = (if k ≤ i ∧ i < k + n then some 0 else c.z[i]?) := by
  induction n with
  | zero =>
    intro k c _ _
    refine ⟨c, rfl, rfl, rfl, fun i => ?_⟩
    have : ¬ (k ≤ i ∧ i < k + 0) := by omega
    rw [if_neg this, if_neg this]
    exact ⟨rfl, rfl⟩
  | succ n ih =>
    intro k c hk hz
    have hstep := blankStep_eq c k (by omega) (by omega)
    obtain ⟨c', hc', hbl, hzl, hall⟩ := ih (k + 1)
      ⟨c.b.set k (if k % 80 = 79 then rune '\n' else rune ' '), c.z.set k 0⟩
      (by simp; omega) (by simpa using hz)
    refine ⟨c', by simp only [blankLoop, hstep, hc'], by simpa using hbl,
      by simpa using hzl, fun i => ?_⟩
    obtain ⟨h1, h2⟩ := hall i
    rw [h1, h2]
    simp only [List.getElem?_set]
    by_cases hik : k = i
    · subst hik
      have hn1 : ¬ (k + 1 ≤ k ∧ k < k + 1 + n) := by omega
      have hn2 : k ≤ k ∧ k < k + (n + 1) := by omega
      have hb' : k < c.b.length := by omega
      have hz' : k < c.z.length := by omega
      simp [hn1, hn2, hb', hz']
    · by_cases hin : k + 1 ≤ i ∧ i < k + 1 + n
      · have hn2 : k ≤ i ∧ i < k + (n + 1) := by omega
        simp [hin, hn2]
      · have hn2 : ¬ (k ≤ i ∧ i < k + (n + 1)) := by omega
        simp [hin, hn2, hik]

theorem blank_spec {K : Type} [LinearOrderedField K] (c : Canvas K)
    (hz : c.b.length ≤ c.z.length) :
    ∃ c', blank c = some c' ∧ c'.b.length = c.b.length ∧ c'.z.length = c.z.length ∧
      ∀ i : Nat, i < c.b.length →
        c'.b[i]? = some (if i % 80 = 79 then rune '\n' else rune ' ') ∧
        c'.z[i]? = some 0 := by
  obtain ⟨c', hc', hbl, hzl, hall⟩ := blankLoop_spec c.b.length 0 c (by simp) hz
  refine ⟨c', hc', hbl, hzl, fun i hi => ?_⟩
  obtain ⟨h1, h2⟩ := hall i
  have hcond : 0 ≤ i ∧ i < 0 + c.b.length := by omega
  rw [if_pos hcond] at h1 h2
  exact ⟨h1, h2⟩

theorem blank_rowed {K : Type} [LinearOrderedField K] (c : Canvas K)
    (hb : c.b.length = FBSZ) (hz : c.z.length = FBSZ) :
    ∃ c', blank c = some c' ∧ Rowed c'.b ∧ c'.z.length = FBSZ := by
  obtain ⟨c', hc', hbl, hzl, hall⟩ := blank_spec c (by omega)
  refine ⟨c', hc', ⟨hbl.trans hb, fun k hk => ?_⟩, hzl.trans hz⟩
  rw [(hall k (by omega)).1]
  by_cases h79 : k % 80 = 79
  · simp [h79]
  · simp only [h79, if_false, Option.some.injEq, iff_false]
    decide

theorem ramp_no_newline : ∀ ch ∈ ramp, ch ≠ rune '\n' := by decide

theorem shade_ne_newline {N : Int} {ch : Rune} (h : shade N = some ch) :
    ch ≠ rune '\n' := by
  unfold shade index at h
  split at h
  · exact ramp_no_newline ch (List.getElem?_mem h)
  · cases h

theorem plot_rowed {K : Type} [LinearOrderedField K] {c c' : Canvas K} {s : Sample K}
    (h : plot c s = some c') (hr : Rowed c.b) : Rowed c'.b := by
  rcases plot_cases h with ⟨_, rfl⟩ | ⟨_, hw, _, _, ch, hch, hb⟩
  · exact hr
  · obtain ⟨h0, _, hb'⟩ := setIdx_some hb
    rw [inWindow_iff] at hw
    refine ⟨by rw [hb']; simpa using hr.1, fun k hk => ?_⟩
    rw [hb', List.getElem?_set]
    by_cases hk' : (pixel s.x s.y).toNat = k
    · have hmod : k % 80 ≠ 79 := by
        unfold pixel at hk'
        omega
      have hlt : (pixel s.x s.y).toNat < c.b.length := by
        rw [hr.1]; omega
      rw [if_pos hk', if_pos hlt]
      simp only [Option.some.injEq, hmod, iff_false]
      exact shade_ne_newline hch
    · rw [if_neg hk']
      exact hr.2 k hk

theorem raster_rowed {K : Type} [LinearOrderedField K] (ss : List (Sample K)) :
    ∀ (c c' : Canvas K), raster c ss = some c' → Rowed c.b → Rowed c'.b := by
  induction ss with
  | nil =>
    intro c c' h hr
    simp only [raster, Option.some.injEq] at h
    subst h
    exact hr
  | cons s ss ih =>
    intro c c' h hr
    cases h1 : plot c s with
    | none => simp [raster, h1] at h
    | some c1 =>
      simp only [raster, h1] at h
      exact ih c1 c' h (plot_rowed h1 hr)

theorem lumN_le {K : Type} [LinearOrderedField K] [FloorRing K]
    (st ct sp cp sA cA sB cB : K)
    (h1 : st ^ 2 + ct ^ 2 = 1) (h2 : sp ^ 2 + cp ^ 2 = 1) (h3 : sA ^ 2 + cA ^ 2 = 1)
    (h4 : sB ^ 2 + cB ^ 2 = 1) : lumN st ct sp cp sA cA sB cB ≤ 11 := by
  have hL := luminance_lt st ct sp cp sA cA sB cB h2 h1 h3 h4
  unfold lumN
  apply truncInt_le_of_lt _ 11 (by norm_num)
  push_cast
  linarith

/-- With a `sincos` whose values are a sine and a cosine (their squares add to one),
every sample of the sweep has a light coefficient of at most 11. -/
theorem sweep_N_le {K : Type} [LinearOrderedField K] [FloorRing K] (fadd : K → K → K)
    (sincos : K → K × K) (hsc : ∀ x, (sincos x).1 ^ 2 + (sincos x).2 ^ 2 = 1) (A B : K) :
    ∀ s ∈ sweep fadd sincos (sincos A).1 (sincos A).2 (sincos B).1 (sincos B).2,
      s.N ≤ 11 := by
  intro s hs
  unfold sweep at hs
  obtain ⟨j, _, hs⟩ := List.mem_flatMap.mp hs
  obtain ⟨i, _, rfl⟩ := List.mem_map.mp hs
  exact lumN_le _ _ _ _ _ _ _ _ (hsc j) (hsc i) (hsc A) (hsc B)

/-! ## The statistics overlay: what `splice` writes -/

theorem _f_eq (b : List Rune) (ch : Rune) :
    ∀ n : Nat, (∀ k : Nat, k < n → b[k]? ≠ some ch) → b[n]? = some ch → _f b ch = n := by
  induction b with
  | nil => intro n _ h; simp at h
  | cons c cs ih =>
    intro n hlt hn
    cases n with
    | zero =>
      simp only [List.getElem?_cons_zero, Option.some.injEq] at hn
      simp [_f, hn]
    | succ n =>
      have h0 := hlt 0 (by omega)
      simp only [List.getElem?_cons_zero, ne_eq, Option.some.injEq] at h0
      simp only [List.getElem?_cons_succ] at hn
      rw [_f, if_neg h0, ih n (fun k hk => by simpa using hlt (k + 1) (by omega)) hn]

theorem _f_of_rowed {b : List Rune} (h : b[79]? = some (rune '\n'))
    (hno : ∀ k : Nat, k < 79 → b[k]? ≠ some (rune '\n')) : _f b (rune '\n') = 79 :=
  _f_eq b _ 79 hno h

/-- The loop of `splice`: when every index it writes at is in range it completes, and
it has written `vs[j]` at the index `yidx * maxx + offs + i + j` for every `j` with
`i + j + offs ≤ maxx`, and nothing else. -/
theorem spliceLoop_spec (maxx yidx offs : Int) (vs : List Rune) :
    ∀ (i : Nat) (b : List Rune),
      (∀ j : Nat, j < vs.length → (i : Int) + j + offs ≤ maxx →
        0 ≤ yidx * maxx + offs + i + j ∧ yidx * maxx + offs + i + j < b.length) →
      ∃ b', spliceLoop maxx yidx offs i vs b = some b' ∧ b'.length = b.length ∧
        ∀ k : Nat, b'[k]? =
          if yidx * maxx + offs + i ≤ k ∧ (k : Int) < yidx * maxx + offs + i + vs.length ∧
              (k : Int) - yidx * maxx ≤ maxx
          then vs[((k : Int) - (yidx * maxx + offs + i)).toNat]? else b[k]? := by
  induction vs with
  | nil =>
    intro i b _
    refine ⟨b, rfl, rfl, fun k => ?_⟩
    rw [if_neg]
    simp only [List.length_nil, Int.ofNat_zero, add_zero]
    omega
  | cons v vs ih =>
    intro i b hb
    by_cases hstop : (i : Int) + offs > maxx
    · refine ⟨b, by simp only [spliceLoop, if_pos hstop], rfl, fun k => ?_⟩
      rw [if_neg]
      omega
    · obtain ⟨h0, h1⟩ := hb 0 (by simp) (by simpa using not_lt.mp hstop)
      simp only [Int.ofNat_zero, add_zero] at h0 h1
      obtain ⟨b', hb', hlen, hall⟩ := ih (i + 1) (b.set (yidx * maxx + offs + i).toNat v)
        (by
          intro j hj hle
          have := hb (j + 1) (by simp; omega) (by push_cast at hle ⊢; omega)
          simp only [List.length_set]
          push_cast at this ⊢
          constructor <;> omega)
      refine ⟨b', ?_, by simpa using hlen, fun k => ?_⟩
      · simp only [spliceLoop, if_neg hstop, setIdx_isSome b _ v h0 h1, hb']
      · rw [hall k, List.getElem?_set]
        simp only [List.length_cons]
        push_cast
        by_cases hk : (yidx * maxx + offs + i).toNat = k
        · have hk' : (k : Int) = yidx * maxx + offs + i := by omega
          have hc1 : ¬ (yidx * maxx + offs + (i + 1) ≤ k ∧
              (k : Int) < yidx * maxx + offs + (i + 1) + vs.length ∧
              (k : Int) - yidx * maxx ≤ maxx) := by omega
          have hc2 : yidx * maxx + offs + i ≤ k ∧
              (k : Int) < yidx * maxx + offs + i + (vs.length + 1) ∧
              (k : Int) - yidx * maxx ≤ maxx := by omega
          have hlt : (yidx * maxx + offs + i).toNat < b.length := by omega
          rw [if_neg hc1, if_pos hk, if_pos hlt, if_pos hc2]
          have hz : ((k : Int) - (yidx * maxx + offs + i)).toNat = 0 := by omega
          rw [hz, List.getElem?_cons_zero]
        · rw [if_neg hk]
          by_cases hc : yidx * maxx + offs + (i + 1) ≤ k ∧
              (k : Int) < yidx * maxx + offs + (i + 1) + vs.length ∧
              (k : Int) - yidx * maxx ≤ maxx
          · have hc2 : yidx * maxx + offs + i ≤ k ∧
                (k : Int) < yidx * maxx + offs + i + (vs.length + 1) ∧
                (k : Int) - yidx * maxx ≤ maxx := by omega
            rw [if_pos hc, if_pos hc2]
            have hz : ((k : Int) - (yidx * maxx + offs + i)).toNat
                = ((k : Int) - (yidx * maxx + offs + (i + 1))).toNat + 1 := by omega
            rw [hz, List.getElem?_cons_succ]
          · have hc2 : ¬ (yidx * maxx + offs + i ≤ k ∧
                (k : Int) < yidx * maxx + offs + i + (vs.length + 1) ∧
                (k : Int) - yidx * maxx ≤ maxx) := by omega
            rw [if_neg hc, if_neg hc2]

/-- A call of `splice` on a buffer whose first newline is at index 79, for a row and a
column that are not negative: it completes when the row lies in the buffer with one rune
to spare, and it has written the runes of `val` from column `offs` on, up to column 80. -/
theorem splice_spec (b : List Rune) (yidx offs : Nat) (val : List Rune)
    (h79 : b[79]? = some (rune '\n'))
    (hno : ∀ k : Nat, k < 79 → b[k]? ≠ some (rune '\n'))
    (hlen : yidx * 80 + 80 < b.length) :
    ∃ b', splice b yidx offs val = some b' ∧ b'.length = b.length ∧
      ∀ k : Nat, b'[k]? =
        if yidx * 80 + offs ≤ k ∧ k < yidx * 80 + offs + val.length ∧ k ≤ yidx * 80 + 80
        then val[k - (yidx * 80 + offs)]? else b[k]? := by
  have hf := _f_of_rowed h79 hno
  obtain ⟨b', hb', hl, hall⟩ := spliceLoop_spec 80 yidx offs val 0 b (by
    intro j _ hle
    push_cast at hle ⊢
    constructor <;> omega)
  refine ⟨b', ?_, hl, fun k => ?_⟩
  · unfold splice
    simp only [hf]
    exact hb'
  · rw [hall k]
    by_cases hc : yidx * 80 + offs ≤ k ∧ k < yidx * 80 + offs + val.length ∧
        k ≤ yidx * 80 + 80
    · have hc' : (yidx : Int) * 80 + offs + (0 : Nat) ≤ k ∧
          (k : Int) < (yidx : Int) * 80 + offs + (0 : Nat) + val.length ∧
          (k : Int) - (yidx : Int) * 80 ≤ 80 := by
        push_cast
        omega
      rw [if_pos hc, if_pos hc']
      congr 1
      push_cast
      omega
    · have hc' : ¬ ((yidx : Int) * 80 + offs + (0 : Nat) ≤ k ∧
          (k : Int) < (yidx : Int) * 80 + offs + (0 : Nat) + val.length ∧
          (k : Int) - (yidx : Int) * 80 ≤ 80) := by
        push_cast
        omega
      rw [if_neg hc, if_neg hc']

/-- A call of `splice` on a buffer of `FBSZ` runes whose first `m ≥ 80` indices have the
row structure, when the runes it writes below `m` are no newlines and miss the newline
columns: it completes and keeps the structure below `m`. -/
theorem splice_keeps_rows (m : Nat) (hm : 80 ≤ m) (b : List Rune) (yidx offs : Nat)
    (val : List Rune) (hlen : b.length = FBSZ) (hy : yidx ≤ 20)
    (hrow : ∀ k : Nat, k < m → (b[k]? = some (rune '\n') ↔ k % 80 = 79))
    (hval : ∀ k : Nat, k < m → yidx * 80 + offs ≤ k → k < yidx * 80 + offs + val.length →
      k % 80 ≠ 79 ∧ val[k - (yidx * 80 + offs)]? ≠ some (rune '\n')) :
    ∃ b', splice b yidx offs val = some b' ∧ b'.length = FBSZ ∧
      (∀ k : Nat, k < m → (b'[k]? = some (rune '\n') ↔ k % 80 = 79)) ∧
      ∀ k : Nat, b'[k]? =
        if yidx * 80 + offs ≤ k ∧ k < yidx * 80 + offs + val.length ∧ k ≤ yidx * 80 + 80
        then val[k - (yidx * 80 + offs)]? else b[k]? := by
  have h79 : b[79]? = some (rune '\n') := (hrow 79 (by omega)).mpr (by norm_num)
  have hno : ∀ k : Nat, k < 79 → b[k]? ≠ some (rune '\n') := by
    intro k hk h
    have := (hrow k (by omega)).mp h
    omega
  obtain ⟨b', hb', hl, hall⟩ := splice_spec b yidx offs val h79 hno
    (by rw [hlen]; unfold FBSZ; omega)
  refine ⟨b', hb', hl.trans hlen, fun k hk => ?_, hall⟩
  rw [hall k]
  by_cases hc : yidx * 80 + offs ≤ k ∧ k < yidx * 80 + offs + val.length ∧
      k ≤ yidx * 80 + 80
  · rw [if_pos hc]
    obtain ⟨hm, hv⟩ := hval k hk hc.1 hc.2.1
    constructor
    · intro h; exact absurd h hv
    · intro h; exact absurd h hm
  · rw [if_neg hc]
    exact hrow k hk

theorem getElem?_ne_of_not_mem {l : List Rune} {a : Rune} (h : a ∉ l) (i : Nat) :
    l[i]? ≠ some a :=
  fun hi => h (List.getElem?_mem hi)

/-- The five calls of `splice` of a tick, on a buffer of `FBSZ` runes whose first
`m` indices (80 or more, 160 at most) have the row structure, when the frame line fits in
its row and the runes of the rate line written below `m` are no newlines and miss the
newline columns: the overlay completes, keeps the structure below `m` and leaves in the
second row the rate line from the column `offs` on. -/
theorem overlayText_spec {K : Type} [LinearOrderedField K] [FloorRing K] (m : Nat)
    (hm : 80 ≤ m) (hm' : m ≤ 160) (b : List Rune) (frameN : Nat) (txt : List Rune)
    (rollDeg yawDeg : K)
    (hlen : b.length = FBSZ)
    (hrow : ∀ k : Nat, k < m → (b[k]? = some (rune '\n') ↔ k % 80 = 79))
    (hfr : (fmt5d frameN).length ≤ 68) (hfrnl : rune '\n' ∉ fmt5d frameN)
    (hrate : ∀ k : Nat, k < m → 80 + (68 - (fmt5d frameN).length) ≤ k →
      k < 80 + (68 - (fmt5d frameN).length) + (runes "│   FPS: " ++ txt).length →
      k % 80 ≠ 79 ∧
      (runes "│   FPS: " ++ txt)[k - (80 + (68 - (fmt5d frameN).length))]?
        ≠ some (rune '\n')) :
    ∃ b5, overlayText b frameN txt rollDeg yawDeg = some b5 ∧ b5.length = FBSZ ∧
      (∀ k : Nat, k < m → (b5[k]? = some (rune '\n') ↔ k % 80 = 79)) ∧
      ∀ k : Nat, 80 ≤ k → k < 160 → b5[k]? =
        if 80 + (68 - (fmt5d frameN).length) ≤ k ∧
            k < 80 + (68 - (fmt5d frameN).length) + (runes "│   FPS: " ++ txt).length
        then (runes "│   FPS: " ++ txt)[k - (80 + (68 - (fmt5d frameN).length))]?
        else b[k]? := by
  have hpre : (runes "│ Frame: ").length = 9 := by decide
  have hprenl : rune '\n' ∉ runes "│ Frame: " := by decide
  have hflen : (runes "│ Frame: " ++ fmt5d frameN).length = 9 + (fmt5d frameN).length := by
    rw [List.length_append, hpre]
  have hfnl : rune '\n' ∉ runes "│ Frame: " ++ fmt5d frameN := by
    intro h
    rcases List.mem_append.mp h with h | h
    · exact hprenl h
    · exact hfrnl h
  have hoffs : (77 : Int) - ((runes "│ Frame: " ++ fmt5d frameN).length : Int)
      = ((68 - (fmt5d frameN).length : Nat) : Int) := by
    rw [hflen]
    push_cast
    omega
  obtain ⟨b1, hb1, hl1, hr1, ha1⟩ := splice_keeps_rows m hm b 0
    (68 - (fmt5d frameN).length) (runes "│ Frame: " ++ fmt5d frameN) hlen (by norm_num) hrow
    (by
      intro k _ h1 h2
      rw [hflen] at h2
      exact ⟨by omega, getElem?_ne_of_not_mem hfnl _⟩)
  obtain ⟨b2, hb2, hl2, hr2, ha2⟩ := splice_keeps_rows m hm b1 1
    (68 - (fmt5d frameN).length) (runes "│   FPS: " ++ txt) hl1 (by norm_num) hr1
    (by
      intro k hk h1 h2
      exact hrate k hk (by omega) (by omega))
  obtain ⟨b3, hb3, hl3, hr3, ha3⟩ := splice_keeps_rows m hm b2 2
    (68 - (fmt5d frameN).length) (runes "│  Roll: " ++ fmt51 rollDeg ++ runes "˚") hl2
    (by norm_num) hr2 (by intro k hk h1 _; omega)
  obtain ⟨b4, hb4, hl4, hr4, ha4⟩ := splice_keeps_rows m hm b3 3
    (68 - (fmt5d frameN).length) (runes "│   Yaw: " ++ fmt51 yawDeg ++ runes "˚") hl3
    (by norm_num) hr3 (by intro k hk h1 _; omega)
  obtain ⟨b5, hb5, hl5, hr5, ha5⟩ := splice_keeps_rows m hm b4 4
    (68 - (fmt5d frameN).length) (runes "└———————————————") hl4
    (by norm_num) hr4 (by intro k hk h1 _; omega)
  refine ⟨b5, ?_, hl5, hr5, fun k hk1 hk2 => ?_⟩
  · unfold overlayText
    simp only [hoffs]
    simp only [Nat.cast_zero, Nat.cast_one, Nat.cast_ofNat] at hb1 hb2 hb3 hb4 hb5
    rw [hb1, Option.some_bind, hb2, Option.some_bind, hb3, Option.some_bind, hb4,
      Option.some_bind, hb5]
  · have e5 : b5[k]? = b4[k]? := by rw [ha5 k, if_neg (by omega)]
    have e4 : b4[k]? = b3[k]? := by rw [ha4 k, if_neg (by omega)]
    have e3 : b3[k]? = b2[k]? := by rw [ha3 k, if_neg (by omega)]
    have e1 : b1[k]? = b[k]? := by rw [ha1 k, if_neg (by rw [hflen]; omega)]
    rw [e5, e4, e3, ha2 k, e1]
    by_cases hc : 80 + (68 - (fmt5d frameN).length) ≤ k ∧
        k < 80 + (68 - (fmt5d frameN).length) + (runes "│   FPS: " ++ txt).length
    · rw [if_pos hc, if_pos ⟨by omega, by omega, by omega⟩]
    · rw [if_neg hc, if_neg (by omega)]

/-- The five calls of `splice` of a tick, on a buffer of `FBSZ` runes whose first
`m` indices (80 or more, 160 at most) have the row structure, when the frame line fits in
its row and the runes of the rate line written below `m` are no newlines and miss the
newline columns: the overlay completes, keeps the structure below `m` and leaves in the
second row the rate line from the column `offs` on. -/
theorem overlay_spec {K : Type} [LinearOrderedField K] [FloorRing K] (m : Nat)
    (hm : 80 ≤ m) (hm' : m ≤ 160) (b : List Rune) (frameN : Nat) (fps rollDeg yawDeg : K)
    (hlen : b.length = FBSZ)
    (hrow : ∀ k : Nat, k < m → (b[k]? = some (rune '\n') ↔ k % 80 = 79))
    (hfr : (fmt5d frameN).length ≤ 68) (hfrnl : rune '\n' ∉ fmt5d frameN)
    (hrate : ∀ k : Nat, k < m → 80 + (68 - (fmt5d frameN).length) ≤ k →
      k < 80 + (68 - (fmt5d frameN).length) + (runes "│   FPS: " ++ fmt51 fps).length →
      k % 80 ≠ 79 ∧
      (runes "│   FPS: " ++ fmt51 fps)[k - (80 + (68 - (fmt5d frameN).length))]?
        ≠ some (rune '\n')) :
    ∃ b5, overlay b frameN fps rollDeg yawDeg = some b5 ∧ b5.length = FBSZ ∧
      (∀ k : Nat, k < m → (b5[k]? = some (rune '\n') ↔ k % 80 = 79)) ∧
      ∀ k : Nat, 80 ≤ k → k < 160 → b5[k]? =
        if 80 + (68 - (fmt5d frameN).length) ≤ k ∧
            k < 80 + (68 - (fmt5d frameN).length) + (runes "│   FPS: " ++ fmt51 fps).length
        then (runes "│   FPS: " ++ fmt51 fps)[k - (80 + (68 - (fmt5d frameN).length))]?
        else b[k]? :=
  overlayText_spec m hm hm' b frameN (fmt51 fps) rollDeg yawDeg hlen hrow hfr hfrnl hrate

/-! ## The frame formatter: the interior of a framed row -/

theorem validRune_toValid (r : Rune) : validRune (toValid r) = true := by
  unfold toValid
  split
  · assumption
  · decide

theorem toValid_idem (r : Rune) : toValid (toValid r) = toValid r :=
  toValid_of_valid (validRune_toValid r)

theorem toValid_space : toValid (rune ' ') = rune ' ' := by decide

theorem trimAt_getElem? (l : List Rune) (j : Nat) (hj : j < 80) :
    ∃ c, (trimAt l 80)[j]? = some c ∧
      toValid c = ((l[j]?).map toValid).getD (rune ' ') := by
  unfold trimAt
  simp only
  split
  · rename_i hlen
    have hjl : j < l.length := by omega
    refine ⟨toValid l[j], ?_, ?_⟩
    · rw [stringOfRunes_getElem?, List.getElem?_take_of_lt hj, List.getElem?_eq_getElem hjl]
      rfl
    · rw [List.getElem?_eq_getElem hjl]
      simp only [Option.map_some', Option.getD_some]
      exact toValid_idem _
  · rename_i hlen
    by_cases hjl : j < l.length
    · refine ⟨l[j], ?_, ?_⟩
      · rw [List.getElem?_append_left hjl, List.getElem?_eq_getElem hjl]
      · rw [List.getElem?_eq_getElem hjl]
        simp only [Option.map_some', Option.getD_some]
    · refine ⟨rune ' ', ?_, ?_⟩
      · rw [List.getElem?_append_right (by omega), List.getElem?_replicate_of_lt (by omega)]
      · rw [List.getElem?_eq_none (by omega)]
        simp only [Option.map_none', Option.getD_none]
        exact toValid_space

/-- The runes of a framed row between the borders: the rune of the line in that column
as a string holds it, or a space where the line has ended. -/
theorem frameRow_interior (i : Nat) (l r : List Rune) (h : frameRow 80 i l = some r)
    (j : Nat) (h1 : 1 ≤ j) (h78 : j ≤ 78) :
    r[j]? = some (((l[j]?).map toValid).getD (rune ' ')) := by
  have hlen := trimAt_length l 80
  have hfl := frameLine_eq (trimAt l 80) side (by rw [hlen]; norm_num)
  rw [hlen] at hfl
  obtain ⟨c, hc, hcv⟩ := trimAt_getElem? l j (by omega)
  have hr0 : (stringOfRunes (((trimAt l 80).set 0 side).set (80 - 1) side))[j]?
      = some (toValid c) := by
    rw [stringOfRunes_getElem?, List.getElem?_set_ne (by omega),
      List.getElem?_set_ne (by omega), hc]
    rfl
  unfold frameRow at h
  rw [hfl] at h
  simp only at h
  by_cases hi : i = 4
  · rw [if_pos hi, setIdx_isSome _ 79 _ (by norm_num)
      (by rw [stringOfRunes_length]; simp [hlen])] at h
    simp only [Option.some.injEq] at h
    subst h
    have h79 : (79 : Int).toNat = 79 := rfl
    rw [stringOfRunes_getElem?, h79, List.getElem?_set_ne (by omega), hr0]
    simp only [Option.map_some', Option.some.injEq]
    rw [toValid_idem, hcv]
  · rw [if_neg hi] at h
    simp only [Option.some.injEq] at h
    subst h
    rw [hr0, hcv]

theorem split_at_newline (s : List Rune) (n : Nat) (hn : s[n]? = some (rune '\n'))
    (hno : ∀ k : Nat, k < n → s[k]? ≠ some (rune '\n')) :
    split s (rune '\n') = s.take n :: split (s.drop (n + 1)) (rune '\n') := by
  have hlt : n < s.length := (List.getElem?_eq_some.mp hn).1
  have hsn : s[n] = rune '\n' := (List.getElem?_eq_some.mp hn).2
  have hdecomp : s = s.take n ++ rune '\n' :: s.drop (n + 1) := by
    conv_lhs => rw [← List.take_append_drop n s, List.drop_eq_getElem_cons hlt, hsn]
  have hnot : rune '\n' ∉ s.take n := by
    intro hm
    obtain ⟨k, hk⟩ := List.getElem?_of_mem hm
    have hkn : k < n := by
      by_contra hge
      rw [List.getElem?_take_eq_none (by omega)] at hk
      cases hk
    rw [List.getElem?_take_of_lt hkn] at hk
    exact hno k hkn hk
  conv_lhs => rw [hdecomp]
  exact split_append_sep _ _ _ hnot

/-- The framed row of index 1 of a buffer whose first two rows have their row structure:
between the borders it shows the runes of the second row of the buffer. -/
theorem frameRows_row_one (b : List Rune) (hlen : 160 ≤ b.length)
    (hrow : ∀ k : Nat, k < 160 → (b[k]? = some (rune '\n') ↔ k % 80 = 79)) :
    ∃ rows r1, frameRows b = some rows ∧ rows[1]? = some r1 ∧
      ∀ j : Nat, 1 ≤ j → j ≤ 78 → r1[j]? = b[80 + j]?.map toValid := by
  have hs : ∀ k : Nat, k < 160 →
      ((stringOfRunes b)[k]? = some (rune '\n') ↔ k % 80 = 79) := by
    intro k hk
    rw [stringOfRunes_getElem?, ← hrow k hk, List.getElem?_eq_getElem (by omega)]
    simp only [Option.map_some', Option.some.injEq]
    constructor
    · intro h
      rw [rune_newline] at h ⊢
      exact toValid_eq_newline h
    · intro h
      rw [h]
      decide
  have hsplit1 := split_at_newline (stringOfRunes b) 79 ((hs 79 (by norm_num)).mpr rfl)
    (fun k hk h => by have := (hs k (by omega)).mp h; omega)
  have hsplit2 := split_at_newline ((stringOfRunes b).drop 80) 79
    (by rw [List.getElem?_drop]; exact (hs 159 (by norm_num)).mpr rfl)
    (fun k hk h => by
      rw [List.getElem?_drop] at h
      have := (hs (80 + k) (by omega)).mp h
      omega)
  obtain ⟨r0, hr0, _⟩ := frameRow_spec 0 ((stringOfRunes b).take 79)
  obtain ⟨r1, hr1, _⟩ := frameRow_spec 1 (((stringOfRunes b).drop 80).take 79)
  obtain ⟨rs, hrs, _⟩ := frameLoop_spec
    (split (((stringOfRunes b).drop 80).drop (79 + 1)) (rune '\n')) 2
  refine ⟨r0 :: r1 :: rs, r1, ?_, by simp, fun j h1 h78 => ?_⟩
  · unfold frameRows
    rw [top_length, hsplit1, hsplit2]
    simp only [frameLoop, hr0, hr1, hrs]
  · rw [frameRow_interior 1 _ r1 hr1 j h1 h78, List.getElem?_take_of_lt (by omega),
      List.getElem?_drop, stringOfRunes_getElem?, List.getElem?_eq_getElem (by omega)]
    simp only [Option.map_some', Option.some.injEq]
    exact toValid_idem _

/-! ## Formatting -/

theorem rune_zero : rune '0' = 48 := by decide

theorem rune_point : rune '.' = 46 := by decide

theorem decimal_zero : decimal 0 = [48] := by
  simp [decimal, rune_zero]

theorem decimal_one : decimal 1 = [49] := by
  simp [decimal, rune_zero]

theorem decimal_five : decimal 5 = [53] := by
  simp [decimal, rune_zero]

theorem decimal_ge (n : Nat) : ∀ r ∈ decimal n, 48 ≤ r := by
  intro r hr
  unfold decimal at hr
  split at hr
  · simp only [List.mem_singleton] at hr
    rw [hr, rune_zero]
  · obtain ⟨d, _, rfl⟩ := List.mem_map.mp hr
    rw [rune_zero]
    have : (0 : Int) ≤ (d : Int) := Int.ofNat_nonneg d
    linarith

theorem decimal_length_le (n : Nat) (h : n < 2 ^ 63) : (decimal n).length ≤ 20 := by
  unfold decimal
  split
  · simp
  · rename_i hn
    rw [List.length_map, List.length_reverse]
    have h1 := Nat.base_pow_length_digits_le 10 n (by norm_num) hn
    have h2 : 10 ^ (Nat.digits 10 n).length < 10 ^ 21 := by
      calc 10 ^ (Nat.digits 10 n).length ≤ 10 * n := h1
        _ < 10 ^ 21 := by norm_num at h ⊢; omega
    have := (Nat.pow_lt_pow_iff_right (by norm_num : 1 < 10)).mp h2
    omega

theorem fmt5d_length_le (n : Nat) (h : n < 2 ^ 63) : (fmt5d n).length ≤ 68 := by
  have := decimal_length_le n h
  unfold fmt5d padLeft
  rw [List.length_append, List.length_replicate]
  omega

theorem fmt5d_no_newline (n : Nat) : rune '\n' ∉ fmt5d n := by
  intro h
  unfold fmt5d padLeft at h
  rw [rune_newline] at h
  rcases List.mem_append.mp h with h | h
  · have := (List.mem_replicate.mp h).2
    rw [rune_space] at this
    norm_num at this
  · have := decimal_ge n _ h
    norm_num at this

theorem fmt5d_one : fmt5d 1 = [32, 32, 32, 32, 49] := by
  simp [fmt5d, padLeft, decimal_one, rune_space]

theorem roundHalfEven_intCast {K : Type} [LinearOrderedField K] [FloorRing K] (m : Int) :
    roundHalfEven (m : K) = m := by
  unfold roundHalfEven
  simp

theorem fmt51_one {K : Type} [LinearOrderedField K] [FloorRing K] :
    fmt51 (1 : K) = [32, 32, 49, 46, 48] := by
  have h : |(1 : K)| * 10 = ((10 : Int) : K) := by norm_num
  unfold fmt51
  simp only [h, roundHalfEven_intCast]
  have h1 : ¬ (1 : K) < 0 := by norm_num
  have h10 : (10 : Int).toNat / 10 = 1 := by decide
  have h0 : (10 : Int).toNat % 10 = 0 := by decide
  rw [if_neg h1, h10, h0, decimal_one, decimal_zero]
  simp [padLeft, rune_space, rune_point]

theorem fmt51_half {K : Type} [LinearOrderedField K] [FloorRing K] :
    fmt51 (1 / 2 : K) = [32, 32, 48, 46, 53] := by
  have h : |(1 / 2 : K)| * 10 = ((5 : Int) : K) := by
    rw [abs_of_pos (by norm_num)]; norm_num
  unfold fmt51
  simp only [h, roundHalfEven_intCast]
  have h1 : ¬ (1 / 2 : K) < 0 := by norm_num
  have h10 : (5 : Int).toNat / 10 = 0 := by decide
  have h0 : (5 : Int).toNat % 10 = 5 := by decide
  rw [if_neg h1, h10, h0, decimal_five, decimal_zero]
  simp [padLeft, rune_space, rune_point]

theorem fmt51_near_one : fmt51 ((1 : ℝ) / (1001 / 1000)) = [32, 32, 49, 46, 48] := by
  have hx : |(1 : ℝ) / (1001 / 1000)| * 10 = 10000 / 1001 := by
    rw [abs_of_pos (by norm_num)]; norm_num
  have hfl : Int.floor ((10000 : ℝ) / 1001) = 9 := by
    rw [Int.floor_eq_iff]
    constructor <;> norm_num
  have hr : roundHalfEven ((10000 : ℝ) / 1001) = 10 := by
    unfold roundHalfEven
    simp only [hfl]
    rw [if_neg (by norm_num), if_pos (by norm_num)]
    rfl
  unfold fmt51
  simp only [hx, hr]
  have h1 : ¬ (1 : ℝ) / (1001 / 1000) < 0 := by norm_num
  have h10 : (10 : Int).toNat / 10 = 1 := by decide
  have h0 : (10 : Int).toNat % 10 = 0 := by decide
  rw [if_neg h1, h10, h0, decimal_one, decimal_zero]
  simp [padLeft, rune_space, rune_point]

/-! ## The sweep loops terminate within their fuel -/

/-- Fuel beyond the number of iterations of the loop does not change its values, when
each addition advances the counter by `d` at least. -/
theorem sweepFrom_fuel {K : Type} [LinearOrderedField K] (fadd : K → K → K)
    (hi step d : K) (hd : ∀ j, j + d ≤ fadd j step) (n : Nat) :
    ∀ (fuel : Nat) (j : K), hi ≤ j + n * d → n ≤ fuel →
      sweepFrom fadd hi step fuel j = sweepFrom fadd hi step n j := by
  induction n with
  | zero =>
    intro fuel j hj _
    have hnot : ¬ j < hi := by
      simp only [Nat.cast_zero, zero_mul, add_zero] at hj
      exact not_lt.mpr hj
    cases fuel with
    | zero => rfl
    | succ f => simp only [sweepFrom, if_neg hnot]
  | succ n ih =>
    intro fuel j hj hle
    cases fuel with
    | zero => omega
    | succ f =>
      simp only [sweepFrom]
      rw [ih f (fadd j step) (by push_cast at hj; linarith [hd j]) (by omega)]

/-- The theta loop ends within its fuel for every addition whose rounding error is below
half a step: it has at most 180 iterations. -/
theorem theta_sweep_fuel {K : Type} [LinearOrderedField K] (fadd : K → K → K)
    (hd : ∀ j, j + 0.035 ≤ fadd j 0.07) (fuel : Nat) (h : 180 ≤ fuel) :
    sweepFrom fadd (6.28 : K) 0.07 fuel 0 = sweepFrom fadd (6.28 : K) 0.07 1000 0 := by
  rw [sweepFrom_fuel fadd (6.28 : K) 0.07 0.035 hd 180 fuel 0 (by norm_num) h,
    sweepFrom_fuel fadd (6.28 : K) 0.07 0.035 hd 180 1000 0 (by norm_num) (by norm_num)]

/-- The phi loop ends within its fuel for every addition whose rounding error is below
half a step: it has at most 628 iterations. -/
theorem phi_sweep_fuel {K : Type} [LinearOrderedField K] (fadd : K → K → K)
    (hd : ∀ j, j + 0.01 ≤ fadd j 0.02) (fuel : Nat) (h : 628 ≤ fuel) :
    sweepFrom fadd (6.28 : K) 0.02 fuel 0 = sweepFrom fadd (6.28 : K) 0.02 1000 0 := by
  rw [sweepFrom_fuel fadd (6.28 : K) 0.02 0.01 hd 628 fuel 0 (by norm_num) h,
    sweepFrom_fuel fadd (6.28 : K) 0.02 0.01 hd 628 1000 0 (by norm_num) (by norm_num)]

/-! ## The float64 addition and the iterations of the sweep loops -/

theorem shiftOf_spec : ∀ fuel s : Nat, s < 2 ^ (53 + fuel) →
    s < 2 ^ (53 + shiftOf fuel s) ∧
      (shiftOf fuel s = 0 ∨ 2 ^ (52 + shiftOf fuel s) ≤ s) := by
  intro fuel
  induction fuel with
  | zero => intro s h; exact ⟨h, Or.inl rfl⟩
  | succ fuel ih =>
    intro s h
    unfold shiftOf
    by_cases h53 : s < 2 ^ 53
    · rw [if_pos h53]; exact ⟨h53, Or.inl rfl⟩
    · rw [if_neg h53]
      have hhalf : s / 2 < 2 ^ (53 + fuel) := by
        have : 2 ^ (53 + (fuel + 1)) = 2 * 2 ^ (53 + fuel) := by ring
        omega
      obtain ⟨h1, h2⟩ := ih (s / 2) hhalf
      have e1 : 2 ^ (53 + (shiftOf fuel (s / 2) + 1)) = 2 * 2 ^ (53 + shiftOf fuel (s / 2)) := by
        ring
      have e2 : 2 ^ (52 + (shiftOf fuel (s / 2) + 1)) = 2 * 2 ^ (52 + shiftOf fuel (s / 2)) := by
        ring
      refine ⟨by omega, Or.inr ?_⟩
      rcases h2 with h2 | h2
      · rw [h2]; norm_num at h53 ⊢; omega
      · omega

theorem shiftOf_self (s : Nat) :
    s < 2 ^ (53 + shiftOf s s) ∧ (shiftOf s s = 0 ∨ 2 ^ (52 + shiftOf s s) ≤ s) :=
  shiftOf_spec s s (lt_of_lt_of_le (Nat.lt_two_pow s)
    (Nat.pow_le_pow_right (by norm_num) (by omega)))

theorem log_two_eq {K : Type} [LinearOrderedField K] [FloorRing K] (x : K) (a : Int)
    (hx : 0 < x) (h1 : (2 : K) ^ a ≤ x) (h2 : x < (2 : K) ^ (a + 1)) : Int.log 2 x = a := by
  have hb : 1 < 2 := by norm_num
  have l1 : a ≤ Int.log 2 x := by
    rw [← Int.zpow_le_iff_le_log hb hx]
    simpa using h1
  have l2 : Int.log 2 x < a + 1 := by
    rw [← Int.lt_zpow_iff_log_lt hb hx]
    simpa using h2
  omega

theorem round64_of_exponent {K : Type} [LinearOrderedField K] [FloorRing K] (x : K) (a : Int)
    (hx : 0 < x) (h1 : (2 : K) ^ a ≤ x) (h2 : x < (2 : K) ^ (a + 1)) :
    round64 x = (roundHalfEven (x / 2 ^ (a - 52)) : K) * 2 ^ (a - 52) := by
  unfold round64
  rw [if_neg hx.ne']
  simp only [abs_of_pos hx, log_two_eq x a hx h1 h2]

theorem roundHalfEven_quot_rem {K : Type} [LinearOrderedField K] [FloorRing K]
    (q r t : Nat) (hr : r < 2 ^ t) :
    roundHalfEven (((q : K) * 2 ^ t + (r : K)) / 2 ^ t)
      = ((if 2 * r < 2 ^ t then q else if 2 ^ t < 2 * r then q + 1
          else if q % 2 = 0 then q else q + 1 : Nat) : Int) := by
  have hp : (0 : K) < 2 ^ t := by positivity
  have hrlt : (r : K) < 2 ^ t := by exact_mod_cast hr
  have hr0 : (0 : K) ≤ (r : K) := Nat.cast_nonneg _
  have hx : ((q : K) * 2 ^ t + (r : K)) / 2 ^ t = (q : K) + (r : K) / 2 ^ t := by
    field_simp
  have h0 : (0 : K) ≤ (r : K) / 2 ^ t := div_nonneg hr0 hp.le
  have h1 : (r : K) / 2 ^ t < 1 := (div_lt_one hp).mpr hrlt
  have hfl : Int.floor (((q : K) * 2 ^ t + (r : K)) / 2 ^ t) = (q : Int) := by
    rw [Int.floor_eq_iff, hx, Int.cast_natCast]
    constructor <;> linarith
  have hfrac : ((q : K) * 2 ^ t + (r : K)) / 2 ^ t - (((q : Nat) : Int) : K)
      = (r : K) / 2 ^ t := by
    rw [hx, Int.cast_natCast]; ring
  have c1 : (r : K) / 2 ^ t < 1 / 2 ↔ 2 * r < 2 ^ t := by
    rw [div_lt_div_iff₀ hp (by norm_num)]
    constructor
    · intro h
      have h' : ((2 * r : Nat) : K) < ((2 ^ t : Nat) : K) := by
        push_cast; linarith
      exact_mod_cast h'
    · intro h
      have h' : ((2 * r : Nat) : K) < ((2 ^ t : Nat) : K) := by exact_mod_cast h
      push_cast at h'; linarith
  have c2 : 1 / 2 < (r : K) / 2 ^ t ↔ 2 ^ t < 2 * r := by
    rw [div_lt_div_iff₀ (by norm_num) hp]
    constructor
    · intro h
      have h' : ((2 ^ t : Nat) : K) < ((2 * r : Nat) : K) := by
        push_cast; linarith
      exact_mod_cast h'
    · intro h
      have h' : ((2 ^ t : Nat) : K) < ((2 * r : Nat) : K) := by exact_mod_cast h
      push_cast at h'; linarith
  have c3 : (q : Int) % 2 = 0 ↔ q % 2 = 0 := by omega
  unfold roundHalfEven
  simp only [hfl, hfrac, c1, c2, c3]
  split_ifs <;> simp

theorem roundHalfEven_natCast_div {K : Type} [LinearOrderedField K] [FloorRing K]
    (s t : Nat) : roundHalfEven ((s : K) / 2 ^ t) = (roundNat s t : Int) := by
  have hpn : 0 < 2 ^ t := by positivity
  have hs : (s : K) = ((s / 2 ^ t : Nat) : K) * 2 ^ t + ((s % 2 ^ t : Nat) : K) := by
    have := Nat.div_add_mod' s (2 ^ t)
    exact_mod_cast this.symm
  rw [hs, roundHalfEven_quot_rem _ _ t (Nat.mod_lt s hpn)]
  rfl

/-- On the grid of the multiples of 2 ^ -58, the float64 rounding is the rounding of the
numerator to 53 significant bits. -/
theorem round64_natCast_div {K : Type} [LinearOrderedField K] [FloorRing K] (s : Nat) :
    round64 ((s : K) / 2 ^ 58) = (round53 s : K) / 2 ^ 58 := by
  rcases Nat.eq_zero_or_pos s with h0 | hpos
  · subst h0
    have : round53 0 = 0 := by decide
    simp [round64, this]
  have hsK : (0 : K) < (s : K) := by exact_mod_cast hpos
  have hx : (0 : K) < (s : K) / 2 ^ 58 := by positivity
  obtain ⟨hlt, hge⟩ := shiftOf_self s
  unfold round53
  generalize shiftOf s s = t at hlt hge
  have hltK : (s : K) < 2 ^ (53 + t) := by exact_mod_cast hlt
  rcases hge with ht | hge
  · -- fewer than 54 bits: the value is a float64
    subst ht
    have hr : roundNat s 0 = s := by
      unfold roundNat
      rw [pow_zero, Nat.mod_one, Nat.div_one]
      simp
    rw [hr]
    have hhi : (s : K) / 2 ^ 58 < (2 : K) ^ (-5 : Int) := by
      rw [div_lt_iff₀ (by positivity)]
      have : (2 : K) ^ (-5 : Int) * 2 ^ 58 = 2 ^ (53 + 0) := by norm_num
      rw [this]
      exact hltK
    have hlog : Int.log 2 ((s : K) / 2 ^ 58) < -5 := by
      rw [← Int.lt_zpow_iff_log_lt (by norm_num) hx]
      simpa using hhi
    unfold round64
    rw [if_neg hx.ne']
    simp only [abs_of_pos hx]
    generalize Int.log 2 ((s : K) / 2 ^ 58) = e at hlog
    obtain ⟨k, hk⟩ : ∃ k : Nat, e = -6 - (k : Int) := ⟨(-6 - e).toNat, by omega⟩
    subst hk
    have hpow : (2 : K) ^ (-6 - (k : Int) - 52) = 1 / (2 ^ 58 * 2 ^ k) := by
      have : (-6 - (k : Int) - 52) = -((58 + k : Nat) : Int) := by push_cast; ring
      rw [this, zpow_neg, zpow_natCast, pow_add, one_div]
    have hval : (s : K) / 2 ^ 58 / (2 : K) ^ (-6 - (k : Int) - 52)
        = (((s * 2 ^ k : Nat) : Int) : K) := by
      rw [hpow]
      push_cast
      field_simp
      ring
    rw [hval, roundHalfEven_intCast, hpow]
    push_cast
    field_simp
    ring
  · have hgeK : (2 : K) ^ (52 + t) ≤ (s : K) := by exact_mod_cast hge
    have h1 : (2 : K) ^ ((t : Int) - 6) ≤ (s : K) / 2 ^ 58 := by
      rw [le_div_iff₀ (by positivity)]
      have : (2 : K) ^ ((t : Int) - 6) * 2 ^ 58 = 2 ^ (52 + t) := by
        rw [← zpow_natCast (2 : K) 58, ← zpow_add₀ (by norm_num), ← zpow_natCast]
        congr 1
        push_cast; ring
      rw [this]
      exact hgeK
    have h2 : (s : K) / 2 ^ 58 < (2 : K) ^ ((t : Int) - 6 + 1) := by
      rw [div_lt_iff₀ (by positivity)]
      have : (2 : K) ^ ((t : Int) - 6 + 1) * 2 ^ 58 = 2 ^ (53 + t) := by
        rw [← zpow_natCast (2 : K) 58, ← zpow_add₀ (by norm_num), ← zpow_natCast]
        congr 1
        push_cast; ring
      rw [this]
      exact hltK
    rw [round64_of_exponent _ _ hx h1 h2]
    have hpow : (2 : K) ^ ((t : Int) - 6 - 52) = 2 ^ t / 2 ^ 58 := by
      rw [eq_div_iff (by positivity), ← zpow_natCast (2 : K) 58, ← zpow_add₀ (by norm_num),
        ← zpow_natCast]
      congr 1
      ring
    have hval : (s : K) / 2 ^ 58 / (2 : K) ^ ((t : Int) - 6 - 52) = (s : K) / 2 ^ t := by
      rw [hpow]
      field_simp
    rw [hval, roundHalfEven_natCast_div, hpow, Int.cast_natCast]
    push_cast
    field_simp

theorem roundHalfEven_of_frac_gt {K : Type} [LinearOrderedField K] [FloorRing K] (x : K)
    (f : Int) (h1 : (f : K) + 1 / 2 < x) (h2 : x < (f : K) + 1) :
    roundHalfEven x = f + 1 := by
  have hfl : Int.floor x = f := by
    rw [Int.floor_eq_iff]
    constructor <;> linarith
  unfold roundHalfEven
  simp only [hfl]
  rw [if_neg (by linarith), if_pos (by linarith)]

theorem round64_step_phi {K : Type} [LinearOrderedField K] [FloorRing K] :
    round64 (0.02 : K) = ((5764607523034235 : Nat) : K) / 2 ^ 58 := by
  rw [round64_of_exponent (0.02 : K) (-6) (by norm_num) (by norm_num) (by norm_num),
    roundHalfEven_of_frac_gt _ 5764607523034234 (by norm_num) (by norm_num)]
  norm_num

theorem round64_step_theta {K : Type} [LinearOrderedField K] [FloorRing K] :
    round64 (0.07 : K) = ((20176126330619824 : Nat) : K) / 2 ^ 58 := by
  rw [round64_of_exponent (0.07 : K) (-4) (by norm_num) (by norm_num) (by norm_num),
    roundHalfEven_of_frac_gt _ 5044031582654955 (by norm_num) (by norm_num)]
  norm_num

/-- The sweep loop with the float64 addition, on the grid of the multiples of 2 ^ -58. -/
theorem sweepFrom_fadd64 {K : Type} [LinearOrderedField K] [FloorRing K] (step : K)
    (c : Nat) (hc : round64 step = (c : K) / 2 ^ 58) :
    ∀ fuel n : Nat, sweepFrom fadd64 (6.28 : K) step fuel ((n : K) / 2 ^ 58)
      = (sweepNat c fuel n).map fun m : Nat => (m : K) / 2 ^ 58 := by
  intro fuel
  induction fuel with
  | zero => intro n; rfl
  | succ fuel ih =>
    intro n
    have hcond : (n : K) / 2 ^ 58 < 6.28 ↔ n * 100 < 628 * 2 ^ 58 := by
      rw [div_lt_iff₀ (by positivity)]
      constructor
      · intro h
        have h' : ((n * 100 : Nat) : K) < ((628 * 2 ^ 58 : Nat) : K) := by
          push_cast
          linarith
        exact_mod_cast h'
      · intro h
        have h' : ((n * 100 : Nat) : K) < ((628 * 2 ^ 58 : Nat) : K) := by exact_mod_cast h
        push_cast at h'
        linarith
    have hstep : fadd64 ((n : K) / 2 ^ 58) step
        = ((round53 (round53 n + c) : Nat) : K) / 2 ^ 58 := by
      unfold fadd64
      rw [round64_natCast_div, hc, ← add_div, ← Nat.cast_add, round64_natCast_div]
    unfold sweepFrom sweepNat
    by_cases h : n * 100 < 628 * 2 ^ 58
    · rw [if_pos (hcond.mpr h), if_pos h, hstep, ih, List.map_cons]
    · rw [if_neg (fun h' => h (hcond.mp h')), if_neg h, List.map_nil]

theorem sweepNat_phi_length : (sweepNat 5764607523034235 1000 0).length = 315 := by
  set_option maxRecDepth 100000 in decide

theorem sweepNat_theta_length : (sweepNat 20176126330619824 1000 0).length = 90 := by
  set_option maxRecDepth 100000 in decide

theorem sweepNat_phi_last :
    (sweepNat 5764607523034235 1000 0).getLast? = some 1810086762232736512 := by
  set_option maxRecDepth 100000 in decide

/-- With the float64 addition the phi loop `for i := 0; i < 6.28; i += 0.02` has 315
iterations and the theta loop `for j := 0; j < 6.28; j += 0.07` has 90, within the fuel
of `sweep`. -/
theorem sweep_float64_iterations {K : Type} [LinearOrderedField K] [FloorRing K] :
    (sweepFrom fadd64 (6.28 : K) 0.02 1000 0).length = 315 ∧
    (sweepFrom fadd64 (6.28 : K) 0.07 1000 0).length = 90 := by
  have h0 : (0 : K) = ((0 : Nat) : K) / 2 ^ 58 := by simp
  constructor
  · rw [h0, sweepFrom_fadd64 (0.02 : K) _ round64_step_phi, List.length_map,
      sweepNat_phi_length]
  · rw [h0, sweepFrom_fadd64 (0.07 : K) _ round64_step_theta, List.length_map,
      sweepNat_theta_length]

/-- With the float64 addition a tick has 90 * 315 samples. -/
theorem sweep_float64_length {K : Type} [LinearOrderedField K] [FloorRing K]
    (sincos : K → K × K) (sA cA sB cB : K) :
    (sweep fadd64 sincos sA cA sB cB).length = 28350 := by
  obtain ⟨h1, h2⟩ := @sweep_float64_iterations K _ _
  unfold sweep
  rw [List.length_flatMap]
  have hf : (List.length ∘ fun j =>
      (sweepFrom fadd64 (6.28 : K) 0.02 1000 0).map fun i =>
        sample sA cA sB cB (sincos j).1 (sincos j).2 (sincos i).1 (sincos i).2)
      = fun _ => 315 := by
    funext j
    simp only [Function.comp_apply, List.length_map, h1]
  rw [hf, List.map_const', List.sum_replicate, h2]
  rfl

/-! ## The producer loop: one tick -/

theorem raster_lengths {K : Type} [LinearOrderedField K] (ss : List (Sample K)) :
    ∀ (c c' : Canvas K), raster c ss = some c' →
      c'.z.length = c.z.length ∧ c'.b.length = c.b.length := by
  induction ss with
  | nil =>
    intro c c' h
    simp only [raster, Option.some.injEq] at h
    subst h
    exact ⟨rfl, rfl⟩
  | cons s ss ih =>
    intro c c' h
    cases h1 : plot c s with
    | none => simp [raster, h1] at h
    | some c1 =>
      simp only [raster, h1] at h
      obtain ⟨hz, hb⟩ := ih c1 c' h
      obtain ⟨hz1, hb1⟩ := plot_lengths h1
      exact ⟨hz.trans hz1, hb.trans hb1⟩

/-- One tick from a state with buffers of `FBSZ` elements, with a `sincos` whose values
are a sine and a cosine: the blank-frame loop and the raster pass complete and leave a
buffer with the row structure. -/
theorem tick_canvas {K : Type} [LinearOrderedField K] [FloorRing K] (fadd : K → K → K)
    (sincos : K → K × K) (hsc : ∀ x, (sincos x).1 ^ 2 + (sincos x).2 ^ 2 = 1) (A B : K)
    (s : State K) (hb : s.b.length = FBSZ) (hz : s.z.length = FBSZ) :
    ∃ c1 c2, blank ⟨s.b, s.z⟩ = some c1 ∧
      raster c1 (sweep fadd sincos (sincos A).1 (sincos A).2 (sincos B).1 (sincos B).2)
        = some c2 ∧
      Rowed c2.b ∧ c2.z.length = FBSZ := by
  obtain ⟨c1, hc1, hrow1, hz1⟩ := blank_rowed (⟨s.b, s.z⟩ : Canvas K) hb hz
  obtain ⟨c2, hc2⟩ := raster_isSome
    (sweep fadd sincos (sincos A).1 (sincos A).2 (sincos B).1 (sincos B).2) c1 hz1 hrow1.1
    (sweep_N_le fadd sincos hsc A B)
  exact ⟨c1, c2, hc1, hc2, raster_rowed _ c1 c2 hc2 hrow1,
    (raster_lengths _ c1 c2 hc2).1.trans hz1⟩

/-- One tick completes, counts one frame and keeps the lengths of the buffers. -/
theorem tick_spec {K : Type} [LinearOrderedField K] [FloorRing K] (fadd : K → K → K)
    (sincos : K → K × K) (hsc : ∀ x, (sincos x).1 ^ 2 + (sincos x).2 ^ 2 = 1)
    (radToDegree elapsed : K) (s : State K) (hb : s.b.length = FBSZ)
    (hz : s.z.length = FBSZ) (hN : s.frameN + 1 < 2 ^ 63) :
    ∃ s' f, tick fadd sincos radToDegree elapsed s = some (s', f) ∧
      s'.frameN = s.frameN + 1 ∧ s'.b.length = FBSZ ∧ s'.z.length = FBSZ := by
  obtain ⟨c1, c2, hc1, hc2, hrow, hz2⟩ :=
    tick_canvas fadd sincos hsc (fadd s.A 0.07) (fadd s.B 0.03) s hb hz
  obtain ⟨b5, hb5, hl5, _, _⟩ := overlayText_spec 80 le_rfl (by norm_num) c2.b
    (s.frameN + 1) (rateText (s.frameN + 1) elapsed)
    (normalizeDegrees (fadd s.B 0.03 * radToDegree))
    (normalizeDegrees (fadd s.A 0.07 * radToDegree)) hrow.1
    (fun k hk => hrow.2 k (by unfold FBSZ; omega))
    (fmt5d_length_le _ hN) (fmt5d_no_newline _)
    (by intro k hk h1 _; omega)
  obtain ⟨rows, _, hf, _⟩ := MakeFrame_spec b5
  refine ⟨⟨fadd s.A 0.07, fadd s.B 0.03, s.frameN + 1, b5, c2.z⟩,
    join (top :: rows ++ [bttm]) (rune '\n'), ?_, rfl, hl5, hz2⟩
  unfold tick
  simp only [hc1, hc2, hb5, hf, Option.some_bind]

theorem tick_frameN {K : Type} [LinearOrderedField K] [FloorRing K] {fadd : K → K → K}
    {sincos : K → K × K} {radToDegree elapsed : K} {s s' : State K} {f : Frame}
    (h : tick fadd sincos radToDegree elapsed s = some (s', f)) :
    s'.frameN = s.frameN + 1 := by
  unfold tick at h
  simp only [Option.bind_eq_some] at h
  obtain ⟨c1, _, c2, _, b5, _, f', _, heq⟩ := h
  simp only [Option.some.injEq, Prod.mk.injEq] at heq
  rw [← heq.1]

theorem overlay_eq_overlayText {K : Type} [LinearOrderedField K] [FloorRing K]
    (b : List Rune) (frameN : Nat) (fps rollDeg yawDeg : K) :
    overlay b frameN fps rollDeg yawDeg
      = overlayText b frameN (fmt51 fps) rollDeg yawDeg := rfl

theorem overlay_congr {K : Type} [LinearOrderedField K] [FloorRing K] (b : List Rune)
    (frameN : Nat) (fps fps' rollDeg yawDeg : K) (h : fmt51 fps = fmt51 fps') :
    overlay b frameN fps rollDeg yawDeg = overlay b frameN fps' rollDeg yawDeg := by
  unfold overlay
  simp only [h]

/-- The rate text of a clock reading that is not zero is the text of the quotient. -/
theorem rateText_of_ne_zero {K : Type} [LinearOrderedField K] [FloorRing K] (frameN : Nat)
    (elapsed : K) (h : elapsed ≠ 0) :
    rateText frameN elapsed = fmt51 ((frameN : K) / elapsed) := by
  unfold rateText
  rw [if_neg h]

/-- A tick depends on the reading of the clock through the text of the rate only. -/
theorem tick_congr {K : Type} [LinearOrderedField K] [FloorRing K] (fadd : K → K → K)
    (sincos : K → K × K) (radToDegree e e' : K) (s : State K)
    (h : rateText (s.frameN + 1) e = rateText (s.frameN + 1) e') :
    tick fadd sincos radToDegree e s = tick fadd sincos radToDegree e' s := by
  unfold tick
  simp only [h]

theorem run_congr {K : Type} [LinearOrderedField K] [FloorRing K] (fadd : K → K → K)
    (sincos : K → K × K) (radToDegree : K) (clock clock' : Nat → K) (n : Nat) :
    ∀ s : State K,
      (∀ k : Nat, s.frameN ≤ k → k < s.frameN + n →
        rateText (k + 1) (clock k) = rateText (k + 1) (clock' k)) →
      run fadd sincos radToDegree clock n s = run fadd sincos radToDegree clock' n s := by
  induction n with
  | zero => intro s _; rfl
  | succ n ih =>
    intro s h
    have ht := tick_congr fadd sincos radToDegree (clock s.frameN) (clock' s.frameN) s
      (h s.frameN le_rfl (by omega))
    simp only [run, ← ht]
    cases h1 : tick fadd sincos radToDegree (clock s.frameN) s with
    | none => rfl
    | some p =>
      obtain ⟨s', f⟩ := p
      have hfn := tick_frameN h1
      simp only
      rw [ih s' (fun k hk1 hk2 => h k (by omega) (by omega))]

theorem run_spec {K : Type} [LinearOrderedField K] [FloorRing K] (fadd : K → K → K)
    (sincos : K → K × K) (hsc : ∀ x, (sincos x).1 ^ 2 + (sincos x).2 ^ 2 = 1)
    (radToDegree : K) (clock : Nat → K) (n : Nat) :
    ∀ s : State K, s.b.length = FBSZ → s.z.length = FBSZ → s.frameN + n < 2 ^ 63 →
      ∃ fs, run fadd sincos radToDegree clock n s = some fs ∧ fs.length = n := by
  induction n with
  | zero => intro s _ _ _; exact ⟨[], rfl, rfl⟩
  | succ n ih =>
    intro s hb hz hN
    obtain ⟨s', f, ht, hfn, hb', hz'⟩ :=
      tick_spec fadd sincos hsc radToDegree (clock s.frameN) s hb hz (by omega)
    obtain ⟨fs, hfs, hlen⟩ := ih s' hb' hz' (by omega)
    exact ⟨f :: fs, by simp only [run, ht, hfs], by simp [hlen]⟩

/-- The frame of a tick whose frame count has at most five digits and whose rate text
`txt` has at most seven runes, none a newline: the framed row of index 1 shows `txt` from
column 72 on. -/
theorem tick_row_one {K : Type} [LinearOrderedField K] [FloorRing K] (fadd : K → K → K)
    (sincos : K → K × K) (hsc : ∀ x, (sincos x).1 ^ 2 + (sincos x).2 ^ 2 = 1)
    (radToDegree elapsed : K) (s : State K) (hb : s.b.length = FBSZ)
    (hz : s.z.length = FBSZ) (hfr : (fmt5d (s.frameN + 1)).length = 5) (txt : List Rune)
    (htxt : rateText (s.frameN + 1) elapsed = txt) (hlen : txt.length ≤ 7)
    (hnl : rune '\n' ∉ txt) :
    ∃ s' rows r1,
      tick fadd sincos radToDegree elapsed s
        = some (s', join (top :: rows ++ [bttm]) (rune '\n')) ∧
      split (join (top :: rows ++ [bttm]) (rune '\n')) (rune '\n') = top :: rows ++ [bttm] ∧
      rows[1]? = some r1 ∧
      ∀ j : Nat, j < txt.length → r1[72 + j]? = txt[j]?.map toValid := by
  have hpre : (runes "│   FPS: ").length = 9 := by decide
  have hprenl : rune '\n' ∉ runes "│   FPS: " := by decide
  obtain ⟨c1, c2, hc1, hc2, hrow, hz2⟩ :=
    tick_canvas fadd sincos hsc (fadd s.A 0.07) (fadd s.B 0.03) s hb hz
  obtain ⟨b5, hb5, hl5, hr5, hform⟩ := overlayText_spec 160 (by norm_num) le_rfl c2.b
    (s.frameN + 1) (rateText (s.frameN + 1) elapsed)
    (normalizeDegrees (fadd s.B 0.03 * radToDegree))
    (normalizeDegrees (fadd s.A 0.07 * radToDegree)) hrow.1
    (fun k hk => hrow.2 k (by unfold FBSZ; omega))
    (by rw [hfr]; norm_num) (fmt5d_no_newline _)
    (by
      intro k hk h1 h2
      rw [htxt, List.length_append, hpre, hfr] at h2
      refine ⟨by omega, getElem?_ne_of_not_mem ?_ _⟩
      intro h
      rcases List.mem_append.mp h with h | h
      · exact hprenl h
      · rw [htxt] at h
        exact hnl h)
  obtain ⟨rows, hrows, hf, hsplit, _⟩ := MakeFrame_spec b5
  obtain ⟨rows', r1, hrows', hr1, hint⟩ := frameRows_row_one b5
    (by rw [hl5]; unfold FBSZ; norm_num) hr5
  have hrr : rows' = rows := Option.some.inj (hrows'.symm.trans hrows)
  subst hrr
  refine ⟨⟨fadd s.A 0.07, fadd s.B 0.03, s.frameN + 1, b5, c2.z⟩, rows', r1, ?_, hsplit,
    hr1, fun j hj => ?_⟩
  · unfold tick
    simp only [hc1, hc2, hb5, hf, Option.some_bind]
  · rw [hint (72 + j) (by omega) (by omega), hform (80 + (72 + j)) (by omega) (by omega)]
    simp only [hfr, htxt, List.length_append, hpre]
    rw [if_pos ⟨by omega, by omega⟩, List.getElem?_append_right (by rw [hpre]; omega), hpre]
    have hidx : 80 + (72 + j) - (80 + (68 - 5)) - 9 = j := by omega
    rw [hidx]

/-! ## The producer loop and the clock -/

theorem real_sincos_unit (x : ℝ) :
    ((fun t : ℝ => (Real.sin t, Real.cos t)) x).1 ^ 2
      + ((fun t : ℝ => (Real.sin t, Real.cos t)) x).2 ^ 2 = 1 :=
  Real.sin_sq_add_cos_sq x

theorem start_lengths {K : Type} [LinearOrderedField K] :
    (start : State K).b.length = FBSZ ∧ (start : State K).z.length = FBSZ ∧
      (start : State K).frameN = 0 := by
  simp [start]

theorem run_one_of_tick {K : Type} [LinearOrderedField K] [FloorRing K]
    (fadd : K → K → K) (sincos : K → K × K) (radToDegree : K) (clock : Nat → K)
    (s s' : State K) (f : Frame)
    (h : tick fadd sincos radToDegree (clock s.frameN) s = some (s', f)) :
    run fadd sincos radToDegree clock 1 s = some [f] := by
  show run fadd sincos radToDegree clock (0 + 1) s = some [f]
  rw [run, h]
  rfl

theorem rateText_one_second : rateText 1 (1 : ℝ) = runes "  1.0" := by
  have hr : runes "  1.0" = [32, 32, 49, 46, 48] := by decide
  rw [rateText_of_ne_zero 1 (1 : ℝ) (by norm_num), hr]
  have : ((1 : Nat) : ℝ) / 1 = 1 := by norm_num
  rw [this, fmt51_one]

theorem rateText_two_seconds : rateText 1 (2 : ℝ) = runes "  0.5" := by
  have hr : runes "  0.5" = [32, 32, 48, 46, 53] := by decide
  rw [rateText_of_ne_zero 1 (2 : ℝ) (by norm_num), hr]
  have : ((1 : Nat) : ℝ) / 2 = 1 / 2 := by norm_num
  rw [this, fmt51_half]

theorem rateText_near_one_second : rateText 1 (1001 / 1000 : ℝ) = runes "  1.0" := by
  have hr : runes "  1.0" = [32, 32, 49, 46, 48] := by decide
  rw [rateText_of_ne_zero 1 (1001 / 1000 : ℝ) (by norm_num), hr]
  have : ((1 : Nat) : ℝ) / (1001 / 1000) = 1 / (1001 / 1000) := by norm_num
  rw [this, fmt51_near_one]

/-- C10 (the claim fails on the clock): at the first tick the rate text is "  1.0" when
the clock reads one second and "  0.5" when it reads two seconds, and from the initial
state, with the sine and cosine of the reals and whatever the float64 addition of the
loop counters, the frame the producer loop sends in the one run differs from the frame it
sends in the other. -/
theorem frames_depend_on_clock :
    rateText 1 (1 : ℝ) = runes "  1.0" ∧ rateText 1 (2 : ℝ) = runes "  0.5" ∧
    ∀ fadd : ℝ → ℝ → ℝ, ∃ f1 f2,
      run fadd (fun t : ℝ => (Real.sin t, Real.cos t)) (180 / Real.pi) (fun _ => 1) 1
        start = some [f1] ∧
      run fadd (fun t : ℝ => (Real.sin t, Real.cos t)) (180 / Real.pi) (fun _ => 2) 1
        start = some [f2] ∧
      f1 ≠ f2 := by
  refine ⟨rateText_one_second, rateText_two_seconds, fun fadd => ?_⟩
  obtain ⟨hb, hz, hn⟩ := @start_lengths ℝ _
  have hfr : (fmt5d ((start : State ℝ).frameN + 1)).length = 5 := by
    rw [hn, fmt5d_one]; rfl
  have hr1 : runes "  1.0" = [32, 32, 49, 46, 48] := by decide
  have hr2 : runes "  0.5" = [32, 32, 48, 46, 53] := by decide
  have htxt1 : rateText ((start : State ℝ).frameN + 1) (1 : ℝ) = [32, 32, 49, 46, 48] := by
    rw [hn, ← hr1]
    exact rateText_one_second
  have htxt2 : rateText ((start : State ℝ).frameN + 1) (2 : ℝ) = [32, 32, 48, 46, 53] := by
    rw [hn, ← hr2]
    exact rateText_two_seconds
  obtain ⟨s1, rows1, r1, ht1, hs1, hrow1, hr1⟩ := tick_row_one fadd
    (fun t : ℝ => (Real.sin t, Real.cos t)) real_sincos_unit (180 / Real.pi) 1 start hb hz
    hfr _ htxt1 (by simp) (by decide)
  obtain ⟨s2, rows2, r2, ht2, hs2, hrow2, hr2⟩ := tick_row_one fadd
    (fun t : ℝ => (Real.sin t, Real.cos t)) real_sincos_unit (180 / Real.pi) 2 start hb hz
    hfr _ htxt2 (by simp) (by decide)
  refine ⟨join (top :: rows1 ++ [bttm]) (rune '\n'),
    join (top :: rows2 ++ [bttm]) (rune '\n'),
    run_one_of_tick fadd _ _ (fun _ => 1) start s1 _ ht1,
    run_one_of_tick fadd _ _ (fun _ => 2) start s2 _ ht2, fun heq => ?_⟩
  have hsplit : top :: rows1 ++ [bttm] = top :: rows2 ++ [bttm] := by
    rw [← hs1, ← hs2, heq]
  have hrows : rows1 = rows2 := by
    have := List.cons.inj hsplit
    exact List.append_cancel_right this.2
  subst hrows
  have hrr : r1 = r2 := Option.some.inj (hrow1.symm.trans hrow2)
  subst hrr
  have h1 := hr1 2 (by simp)
  have h2 := hr2 2 (by simp)
  rw [h1] at h2
  revert h2
  decide

/-- C10 (amended): from the initial state yaw = 0, roll = 0, with the sine and cosine of
the reals and whatever the float64 addition of the loop counters, running the producer
loop for n ticks (n within the range of the frame counter) sends n frames, and the
sequence is determined by the tick numbers and the texts of the rate at each tick, frame
count over elapsed seconds in the format %5.1f (+Inf when no time has elapsed): two runs
whose clock readings give the same rate texts send the same frames. -/
theorem frames_determined_by_rate_text (fadd : ℝ → ℝ → ℝ) (clock clock' : Nat → ℝ)
    (n : Nat) (hn : n < 2 ^ 63)
    (h : ∀ k : Nat, k < n → rateText (k + 1) (clock k) = rateText (k + 1) (clock' k)) :
    ∃ fs, fs.length = n ∧
      run fadd (fun t : ℝ => (Real.sin t, Real.cos t)) (180 / Real.pi) clock n start
        = some fs ∧
      run fadd (fun t : ℝ => (Real.sin t, Real.cos t)) (180 / Real.pi) clock' n start
        = some fs := by
  obtain ⟨hb, hz, hfn⟩ := @start_lengths ℝ _
  obtain ⟨fs, hfs, hlen⟩ := run_spec fadd (fun t : ℝ => (Real.sin t, Real.cos t))
    real_sincos_unit (180 / Real.pi) clock n start hb hz (by rw [hfn]; omega)
  refine ⟨fs, hlen, hfs, ?_⟩
  rw [← run_congr fadd (fun t : ℝ => (Real.sin t, Real.cos t)) (180 / Real.pi) clock clock'
    n start (fun k _ hk => h k (by rw [hfn] at hk; omega))]
  exact hfs

theorem frames_determined_by_rate_text_witness :
    1 < 2 ^ 63 ∧
    (∀ k : Nat, k < 1 →
      rateText (k + 1) ((fun _ : Nat => (1 : ℝ)) k)
        = rateText (k + 1) ((fun _ : Nat => (1001 / 1000 : ℝ)) k)) ∧
    ∃ fs, fs.length = 1 ∧
      run fadd64 (fun t : ℝ => (Real.sin t, Real.cos t)) (180 / Real.pi)
        (fun _ => 1) 1 start = some fs ∧
      run fadd64 (fun t : ℝ => (Real.sin t, Real.cos t)) (180 / Real.pi)
        (fun _ => 1001 / 1000) 1 start = some fs :=
  have h : ∀ k : Nat, k < 1 →
      rateText (k + 1) ((fun _ : Nat => (1 : ℝ)) k)
        = rateText (k + 1) ((fun _ : Nat => (1001 / 1000 : ℝ)) k) := by
    intro k hk
    have hk0 : k = 0 := by omega
    subst hk0
    show rateText 1 (1 : ℝ) = rateText 1 (1001 / 1000 : ℝ)
    rw [rateText_one_second, rateText_near_one_second]
  ⟨by norm_num, h, frames_determined_by_rate_text fadd64 _ _ 1 (by norm_num) h⟩

/-! ## The depth proxy -/

theorem depth_denominator_ge_one {K : Type} [LinearOrderedField K]
    (st ct sp cp sA cA : K) (h1 : st ^ 2 + ct ^ 2 = 1) (h2 : sp ^ 2 + cp ^ 2 = 1)
    (h3 : sA ^ 2 + cA ^ 2 = 1) : 1 ≤ sp * (ct + 2) * sA + st * cA + 5 := by
  have hh : 0 ≤ ct + 2 := by nlinarith [sq_nonneg st, sq_nonneg (ct + 1)]
  have hh3 : ct + 2 ≤ 3 := by nlinarith [sq_nonneg st, sq_nonneg (ct - 1)]
  have hps : -1 ≤ sp * sA := by nlinarith [sq_nonneg (sp + sA), sq_nonneg cp, sq_nonneg cA]
  have htc : -1 ≤ st * cA := by nlinarith [sq_nonneg (st + cA), sq_nonneg ct, sq_nonneg sA]
  have hprod : 0 ≤ (sp * sA + 1) * (ct + 2) := mul_nonneg (by linarith) hh
  nlinarith

theorem sample_D {K : Type} [LinearOrderedField K] [FloorRing K]
    (sA cA sB cB st ct sp cp : K) :
    (sample sA cA sB cB st ct sp cp).D = 1 / (sp * (ct + 2) * sA + st * cA + 5) := rfl

theorem drawn_iff {K : Type} [LinearOrderedField K] (c : Canvas K) (s : Sample K) (zo : K)
    (hw : inWindow s.x s.y = true) (hz : index c.z (pixel s.x s.y) = some zo) :
    drawn c s = true ↔ zo < s.D := by
  unfold drawn
  rw [hw, hz]
  simp

/-- The depth stored at a pixel no in-window sample of the pass maps to is unchanged. -/
theorem raster_depth_untouched {K : Type} [LinearOrderedField K] (ss : List (Sample K))
    (c c' : Canvas K) (h : raster c ss = some c') (o : Int) (zo : K)
    (hzo : index c.z o = some zo)
    (hno : ∀ t ∈ ss, inWindow t.x t.y = true → pixel t.x t.y ≠ o) :
    index c'.z o = some zo := by
  obtain ⟨zo', h1, _, _, h4, _⟩ := raster_depth ss c c' h o zo hzo
  rcases h4 with h4 | ⟨t, ht, hw, hp, _⟩
  · rw [h1, h4]
  · exact absurd hp (hno t ht hw)

theorem plot_of_drawn {K : Type} [LinearOrderedField K] {c c' : Canvas K} {s : Sample K}
    (h : plot c s = some c') (hd : drawn c s = true) :
    index c'.z (pixel s.x s.y) = some s.D ∧ index c'.b (pixel s.x s.y) = shade s.N := by
  rcases plot_cases h with ⟨hd', _⟩ | ⟨_, _, _, hz, ch, hch, hb⟩
  · rw [hd] at hd'; cases hd'
  · exact ⟨index_setIdx_same hz, by rw [hch]; exact index_setIdx_same hb⟩

theorem plot_of_not_drawn {K : Type} [LinearOrderedField K] {c c' : Canvas K} {s : Sample K}
    (h : plot c s = some c') (hd : drawn c s = false) : c' = c := by
  rcases plot_cases h with ⟨_, h'⟩ | ⟨hd', _⟩
  · exact h'
  · rw [hd] at hd'; cases hd'

/-- C11: for all real angles theta, phi and A the perspective denominator
sin phi * (cos theta + 2) * sin A + sin theta * cos A + 5 is positive, so the depth proxy
D = 1 / denominator of the sample is well defined and positive; so an in-window sample
that is the first of the pass to map to its pixel, the depth buffer holding 0 there, is
drawn and stores its D and its character, and a sample is drawn over a stored depth
exactly when its D is strictly larger, the canvas staying as it is otherwise. -/
theorem depth_proxy_positive (θ φ A B : ℝ) :
    0 < Real.sin φ * (Real.cos θ + 2) * Real.sin A + Real.sin θ * Real.cos A + 5 ∧
    (sample (Real.sin A) (Real.cos A) (Real.sin B) (Real.cos B)
        (Real.sin θ) (Real.cos θ) (Real.sin φ) (Real.cos φ)).D
      = 1 / (Real.sin φ * (Real.cos θ + 2) * Real.sin A + Real.sin θ * Real.cos A + 5) ∧
    0 < (sample (Real.sin A) (Real.cos A) (Real.sin B) (Real.cos B)
        (Real.sin θ) (Real.cos θ) (Real.sin φ) (Real.cos φ)).D ∧
    (∀ (c c1 c2 : Canvas ℝ) (pre : List (Sample ℝ)) (s : Sample ℝ),
      s = sample (Real.sin A) (Real.cos A) (Real.sin B) (Real.cos B)
        (Real.sin θ) (Real.cos θ) (Real.sin φ) (Real.cos φ) →
      inWindow s.x s.y = true → index c.z (pixel s.x s.y) = some 0 →
      raster c pre = some c1 →
      (∀ t ∈ pre, inWindow t.x t.y = true → pixel t.x t.y ≠ pixel s.x s.y) →
      plot c1 s = some c2 →
      drawn c1 s = true ∧ index c2.z (pixel s.x s.y) = some s.D ∧
        index c2.b (pixel s.x s.y) = shade s.N) ∧
    (∀ (c c' : Canvas ℝ) (s : Sample ℝ) (zo : ℝ),
      inWindow s.x s.y = true → index c.z (pixel s.x s.y) = some zo →
      plot c s = some c' →
      (drawn c s = true ↔ zo < s.D) ∧ (drawn c s = false → c' = c) ∧
      (drawn c s = true → index c'.z (pixel s.x s.y) = some s.D)) := by
  have hden := depth_denominator_ge_one (Real.sin θ) (Real.cos θ) (Real.sin φ) (Real.cos φ)
    (Real.sin A) (Real.cos A) (Real.sin_sq_add_cos_sq θ) (Real.sin_sq_add_cos_sq φ)
    (Real.sin_sq_add_cos_sq A)
  have hpos : 0 < Real.sin φ * (Real.cos θ + 2) * Real.sin A + Real.sin θ * Real.cos A + 5 := by
    linarith
  have hD : 0 < (sample (Real.sin A) (Real.cos A) (Real.sin B) (Real.cos B)
      (Real.sin θ) (Real.cos θ) (Real.sin φ) (Real.cos φ)).D := by
    rw [sample_D]
    exact one_div_pos.mpr hpos
  refine ⟨hpos, sample_D _ _ _ _ _ _ _ _, hD, ?_, ?_⟩
  · intro c c1 c2 pre s hs hw hz hr hno hp
    have hz1 := raster_depth_untouched pre c c1 hr _ 0 hz hno
    have hd : drawn c1 s = true := (drawn_iff c1 s 0 hw hz1).mpr (by rw [hs]; exact hD)
    exact ⟨hd, plot_of_drawn hp hd⟩
  · intro c c' s zo hw hz hp
    exact ⟨drawn_iff c s zo hw hz, plot_of_not_drawn hp, fun hd => (plot_of_drawn hp hd).1⟩

/-! ## The column of the statistics panel -/

theorem decimal_length_le_five (n : Nat) (h : n ≤ 99999) : (decimal n).length ≤ 5 := by
  unfold decimal
  split
  · simp
  · rename_i hn
    rw [List.length_map, List.length_reverse]
    have h1 := Nat.base_pow_length_digits_le 10 n (by norm_num) hn
    have h2 : 10 ^ (Nat.digits 10 n).length < 10 ^ 6 := by
      calc 10 ^ (Nat.digits 10 n).length ≤ 10 * n := h1
        _ < 10 ^ 6 := by norm_num; omega
    have := (Nat.pow_lt_pow_iff_right (by norm_num : 1 < 10)).mp h2
    omega

theorem fmt5d_length_of_le (n : Nat) (h : n ≤ 99999) : (fmt5d n).length = 5 := by
  have := decimal_length_le_five n h
  unfold fmt5d padLeft
  rw [List.length_append, List.length_replicate]
  omega

theorem fmt5d_100000 : fmt5d 100000 = runes "100000" := by
  have hd : Nat.digits 10 100000 = [0, 0, 0, 0, 0, 1] := by norm_num
  have hr : runes "100000" = [49, 48, 48, 48, 48, 48] := by decide
  rw [hr]
  unfold fmt5d decimal
  rw [if_neg (by norm_num), hd]
  simp [padLeft, rune_zero]

theorem top_junction : top[63]? = some (rune '┬') := by decide

/-- C12 (the claim fails from the frame count 100000 on): the frame line then has 15
runes, and the column offset 77 - 15 is 62, not the column 63 of the junction of the top
border. -/
theorem panel_offset_at_100000 :
    (1 : Nat) ≤ 100000 ∧
    (77 : Int) - ((runes "│ Frame: " ++ fmt5d 100000).length : Int) = 62 ∧
    top[63]? = some (rune '┬') ∧ top[62]? ≠ some (rune '┬') := by
  refine ⟨by norm_num, ?_, top_junction, by decide⟩
  rw [fmt5d_100000]
  decide

/-- C12 (amended): for every frame count n from 1 to 99999, the column offset donut
splices the five panel lines at, 77 - runeCount(Sprintf("│ Frame: %5d", n)), is 63, the
column of the junction in the top border line. -/
theorem panel_offset (n : Nat) (_h1 : 1 ≤ n) (h2 : n ≤ 99999) :
    (77 : Int) - ((runes "│ Frame: " ++ fmt5d n).length : Int) = 63 ∧
    top[63]? = some (rune '┬') ∧
    ∀ (b : List Rune) (fps rollDeg yawDeg : ℝ),
      overlay b n fps rollDeg yawDeg =
        (splice b 0 63 (runes "│ Frame: " ++ fmt5d n)).bind fun b =>
          (splice b 1 63 (runes "│   FPS: " ++ fmt51 fps)).bind fun b =>
            (splice b 2 63 (runes "│  Roll: " ++ fmt51 rollDeg ++ runes "˚")).bind fun b =>
              (splice b 3 63 (runes "│   Yaw: " ++ fmt51 yawDeg ++ runes "˚")).bind fun b =>
                splice b 4 63 (runes "└———————————————") := by
  have hpre : (runes "│ Frame: ").length = 9 := by decide
  have hoffs : (77 : Int) - ((runes "│ Frame: " ++ fmt5d n).length : Int) = 63 := by
    rw [List.length_append, hpre, fmt5d_length_of_le n h2]
    rfl
  refine ⟨hoffs, top_junction, fun b fps rollDeg yawDeg => ?_⟩
  unfold overlay
  simp only [hoffs]

theorem panel_offset_witness :
    (1 : Nat) ≤ 7 ∧ 7 ≤ 99999 ∧
    (77 : Int) - ((runes "│ Frame: " ++ fmt5d 7).length : Int) = 63 ∧
    top[63]? = some (rune '┬') ∧
    ∀ (b : List Rune) (fps rollDeg yawDeg : ℝ),
      overlay b 7 fps rollDeg yawDeg =
        (splice b 0 63 (runes "│ Frame: " ++ fmt5d 7)).bind fun b =>
          (splice b 1 63 (runes "│   FPS: " ++ fmt51 fps)).bind fun b =>
            (splice b 2 63 (runes "│  Roll: " ++ fmt51 rollDeg ++ runes "˚")).bind fun b =>
              (splice b 3 63 (runes "│   Yaw: " ++ fmt51 yawDeg ++ runes "˚")).bind fun b =>
                splice b 4 63 (runes "└———————————————") :=
  ⟨by norm_num, by norm_num, panel_offset 7 (by norm_num) (by norm_num)⟩

/-! ## The blank frame and the degrees modulo 360 -/

/-- C13: the blank-frame loop of a tick, on buffers of any contents with a depth buffer as
long as the character buffer (both have FBSZ elements in donut), completes, and after it,
for every index k < len(b), the depth buffer holds z[k] = 0 and b[k] is the newline when
k mod 80 = 79 and a space otherwise. -/
theorem blank_frame_clears {K : Type} [LinearOrderedField K] (c : Canvas K)
    (hz : c.b.length ≤ c.z.length) :
    ∃ c', blank c = some c' ∧ c'.b.length = c.b.length ∧ c'.z.length = c.z.length ∧
      ∀ k : Nat, k < c.b.length →
        c'.z[k]? = some 0 ∧
        c'.b[k]? = some (if k % 80 = 79 then rune '\n' else rune ' ') := by
  obtain ⟨c', hc', hbl, hzl, hall⟩ := blank_spec c hz
  exact ⟨c', hc', hbl, hzl, fun k hk => ⟨(hall k hk).2, (hall k hk).1⟩⟩

theorem blank_frame_clears_witness :
    (Canvas.mk [7, 10, 65] [(3 : ℚ), -1, 1 / 2, 9]).b.length
      ≤ (Canvas.mk [7, 10, 65] [(3 : ℚ), -1, 1 / 2, 9]).z.length ∧
    ∃ c', blank (Canvas.mk [7, 10, 65] [(3 : ℚ), -1, 1 / 2, 9]) = some c' ∧
      c'.b.length = (Canvas.mk [7, 10, 65] [(3 : ℚ), -1, 1 / 2, 9]).b.length ∧
      c'.z.length = (Canvas.mk [7, 10, 65] [(3 : ℚ), -1, 1 / 2, 9]).z.length ∧
      ∀ k : Nat, k < (Canvas.mk [7, 10, 65] [(3 : ℚ), -1, 1 / 2, 9]).b.length →
        c'.z[k]? = some 0 ∧
        c'.b[k]? = some (if k % 80 = 79 then rune '\n' else rune ' ') :=
  ⟨by simp, blank_frame_clears _ (by simp)⟩

theorem normalizeDegrees_eq_sub_floor {K : Type} [LinearOrderedField K] [FloorRing K]
    (d : K) (h : 0 ≤ d) :
    normalizeDegrees d = d - 360 * ((Int.floor (d / 360) : Int) : K) := by
  unfold normalizeDegrees truncInt
  simp only
  rw [if_pos (div_nonneg h (by norm_num))]
  push_cast
  ring

/-- C14: for every degree value d that is not negative, in exact arithmetic with int() as
truncation toward zero, normalizeDegrees(d) = d - 360 * floor(d / 360); it discards whole
periods, normalizeDegrees(d + 360 k) = normalizeDegrees(d) for every natural number k, it
is d when d < 360, and normalizeDegrees(720) = 0. -/
theorem normalizeDegrees_mod_360 (d : ℝ) (h : 0 ≤ d) :
    normalizeDegrees d = d - 360 * ((Int.floor (d / 360) : Int) : ℝ) ∧
    (∀ k : Nat, normalizeDegrees (d + 360 * (k : ℝ)) = normalizeDegrees d) ∧
    (d < 360 → normalizeDegrees d = d) ∧
    normalizeDegrees (720 : ℝ) = 0 := by
  refine ⟨normalizeDegrees_eq_sub_floor d h, fun k => ?_, fun hlt => ?_, normalizeDegrees_720⟩
  · have hk : 0 ≤ d + 360 * (k : ℝ) := by positivity
    rw [normalizeDegrees_eq_sub_floor _ hk, normalizeDegrees_eq_sub_floor d h]
    have hdiv : (d + 360 * (k : ℝ)) / 360 = d / 360 + (k : ℝ) := by
      field_simp
      ring
    rw [hdiv, Int.floor_add_nat]
    push_cast
    ring
  · rw [normalizeDegrees_eq_sub_floor d h]
    have hfl : Int.floor (d / 360) = 0 := by
      rw [Int.floor_eq_zero_iff]
      constructor
      · exact div_nonneg h (by norm_num)
      · rw [div_lt_one (by norm_num)]
        exact hlt
    rw [hfl]
    simp

theorem normalizeDegrees_mod_360_witness :
    (0 : ℝ) ≤ 725 ∧
    normalizeDegrees (725 : ℝ) = 725 - 360 * ((Int.floor ((725 : ℝ) / 360) : Int) : ℝ) ∧
    (∀ k : Nat, normalizeDegrees ((725 : ℝ) + 360 * (k : ℝ)) = normalizeDegrees (725 : ℝ)) ∧
    ((725 : ℝ) < 360 → normalizeDegrees (725 : ℝ) = 725) ∧
    normalizeDegrees (720 : ℝ) = 0 :=
  ⟨by norm_num, normalizeDegrees_mod_360 725 (by norm_num)⟩

/-! ## The statistics overlay: a line within its row -/

/-- A call of `splice` that stays within its row, on a buffer whose first newline is at
the index `w - 1`: it completes, writes `val` from the column `offs` of the row `yidx` on
and leaves every other position as it is. -/
theorem splice_within_row (b : List Rune) (w yidx offs : Nat) (val : List Rune)
    (hw : 1 ≤ w) (hnl : b[w - 1]? = some (rune '\n'))
    (hno : ∀ k : Nat, k < w - 1 → b[k]? ≠ some (rune '\n'))
    (hrow : (yidx + 1) * w ≤ b.length) (hfit : offs + val.length ≤ w - 1) :
    ∃ b', splice b yidx offs val = some b' ∧ b'.length = b.length ∧
      (∀ i : Nat, i < val.length → b'[yidx * w + offs + i]? = val[i]?) ∧
      ∀ k : Nat, (k < yidx * w + offs ∨ yidx * w + offs + val.length ≤ k) →
        b'[k]? = b[k]? := by
  have hf : _f b (rune '\n') = w - 1 := _f_eq b _ (w - 1) hno hnl
  have hmaxx : ((w - 1 : Nat) : Int) + 1 = (w : Int) := by omega
  obtain ⟨p, hp⟩ : ∃ p : Nat, p = yidx * w := ⟨_, rfl⟩
  have hpz : (yidx : Int) * (w : Int) = (p : Int) := by rw [hp]; push_cast; rfl
  have hrow' : p + w ≤ b.length := by
    rw [hp]
    have : (yidx + 1) * w = yidx * w + w := by ring
    omega
  obtain ⟨b', hb', hl, hall⟩ := spliceLoop_spec (w : Int) yidx offs val 0 b (by
    intro j hj _
    rw [hpz]
    push_cast
    constructor <;> omega)
  refine ⟨b', ?_, hl, fun i hi => ?_, fun k hk => ?_⟩
  · unfold splice
    simp only [hf, hmaxx]
    exact hb'
  · rw [hall, hpz, ← hp]
    rw [if_pos (by push_cast; omega)]
    congr 1
    push_cast
    omega
  · rw [hall, hpz]
    rw [← hp] at hk
    rw [if_neg (by push_cast; omega)]

theorem decimal_length_pos (m : Nat) : 1 ≤ (decimal m).length := by
  unfold decimal
  split
  · simp
  · rename_i hm
    rw [List.length_map, List.length_reverse]
    have : Nat.digits 10 m ≠ [] := Nat.digits_ne_nil_iff_ne_zero.mpr hm
    exact List.length_pos.mpr this

theorem decimal_length_le_of_lt (m k : Nat) (hk : 1 ≤ k) (h : m < 10 ^ k) :
    (decimal m).length ≤ k := by
  unfold decimal
  split
  · simpa using hk
  · rename_i hm
    rw [List.length_map, List.length_reverse]
    have h1 := Nat.base_pow_length_digits_le 10 m (by norm_num) hm
    have h2 : 10 ^ (Nat.digits 10 m).length < 10 ^ (k + 1) := by
      calc 10 ^ (Nat.digits 10 m).length ≤ 10 * m := h1
        _ < 10 * 10 ^ k := by omega
        _ = 10 ^ (k + 1) := by ring
    have := (Nat.pow_lt_pow_iff_right (by norm_num : 1 < 10)).mp h2
    omega

theorem roundHalfEven_le {K : Type} [LinearOrderedField K] [FloorRing K] (x : K) :
    Int.floor x ≤ roundHalfEven x ∧ roundHalfEven x ≤ Int.floor x + 1 := by
  unfold roundHalfEven
  simp only
  split
  · omega
  · split
    · omega
    · split <;> omega

theorem padLeft_length (w : Nat) (s : List Rune) :
    (padLeft w s).length = max w s.length := by
  unfold padLeft
  rw [List.length_append, List.length_replicate]
  omega

theorem fmt51_length_ge {K : Type} [LinearOrderedField K] [FloorRing K] (x : K) :
    5 ≤ (fmt51 x).length := by
  unfold fmt51
  simp only
  rw [padLeft_length]
  omega

/-- The text of a degree value in [0, 360) has exactly five runes. -/
theorem fmt51_length_of_degrees {K : Type} [LinearOrderedField K] [FloorRing K] (x : K)
    (h0 : 0 ≤ x) (h1 : x < 360) : (fmt51 x).length = 5 := by
  have habs : |x| * 10 < ((3600 : Int) : K) := by
    rw [abs_of_nonneg h0]
    push_cast
    linarith
  have habs0 : ((0 : Int) : K) ≤ |x| * 10 := by
    push_cast
    exact mul_nonneg (abs_nonneg x) (by norm_num)
  have hfl : Int.floor (|x| * 10) < 3600 := Int.floor_lt.mpr habs
  have hfl0 : 0 ≤ Int.floor (|x| * 10) := Int.le_floor.mpr habs0
  obtain ⟨hr0, hr1⟩ := roundHalfEven_le (|x| * 10)
  have ht : (roundHalfEven (|x| * 10)).toNat ≤ 3600 := by omega
  have hd1 := decimal_length_le_of_lt ((roundHalfEven (|x| * 10)).toNat / 10) 3
    (by norm_num) (by norm_num; omega)
  have hd2 := decimal_length_le_of_lt ((roundHalfEven (|x| * 10)).toNat % 10) 1
    (by norm_num) (by norm_num; omega)
  have hp1 := decimal_length_pos ((roundHalfEven (|x| * 10)).toNat / 10)
  have hp2 := decimal_length_pos ((roundHalfEven (|x| * 10)).toNat % 10)
  unfold fmt51
  simp only
  rw [padLeft_length, if_neg (not_lt.mpr h0)]
  simp only [List.nil_append, List.length_append, List.length_cons]
  omega

/-- The five lines donut splices, for a frame count of at most five digits, a rate text of
at most seven runes and angles that are not negative: they have 14 to 16 runes. -/
theorem overlay_lines_lengths (n : Nat) (fps A B : ℝ) (hn : n ≤ 99999)
    (hfps : (fmt51 fps).length ≤ 7) (hA : 0 ≤ A) (hB : 0 ≤ B) :
    (runes "│ Frame: " ++ fmt5d n).length = 14 ∧
    14 ≤ (runes "│   FPS: " ++ fmt51 fps).length ∧
    (runes "│   FPS: " ++ fmt51 fps).length ≤ 16 ∧
    (runes "│  Roll: " ++ fmt51 (normalizeDegrees (B * (180 / Real.pi))) ++ runes "˚").length
      = 15 ∧
    (runes "│   Yaw: " ++ fmt51 (normalizeDegrees (A * (180 / Real.pi))) ++ runes "˚").length
      = 15 ∧
    (runes "└———————————————").length = 16 := by
  have hpos : (0 : ℝ) ≤ 180 / Real.pi := div_nonneg (by norm_num) Real.pi_pos.le
  obtain ⟨hB0, hB1⟩ := normalizeDegrees_of_nonneg (B * (180 / Real.pi)) (mul_nonneg hB hpos)
  obtain ⟨hA0, hA1⟩ := normalizeDegrees_of_nonneg (A * (180 / Real.pi)) (mul_nonneg hA hpos)
  have h1 : (runes "│ Frame: ").length = 9 := by decide
  have h2 : (runes "│   FPS: ").length = 9 := by decide
  have h3 : (runes "│  Roll: ").length = 9 := by decide
  have h4 : (runes "│   Yaw: ").length = 9 := by decide
  have h5 : (runes "˚").length = 1 := by decide
  have hge := fmt51_length_ge fps
  refine ⟨?_, ?_, ?_, ?_, ?_, by decide⟩
  · rw [List.length_append, h1, fmt5d_length_of_le n hn]
  · rw [List.length_append, h2]; omega
  · rw [List.length_append, h2]; omega
  · rw [List.length_append, List.length_append, h3, h5, fmt51_length_of_degrees _ hB0 hB1]
  · rw [List.length_append, List.length_append, h4, h5, fmt51_length_of_degrees _ hA0 hA1]

theorem decimal_100000 : decimal 100000 = [49, 48, 48, 48, 48, 48] := by
  have hd : Nat.digits 10 100000 = [0, 0, 0, 0, 0, 1] := by norm_num
  unfold decimal
  rw [if_neg (by norm_num), hd]
  simp [rune_zero]

theorem fmt51_100000 {K : Type} [LinearOrderedField K] [FloorRing K] :
    fmt51 (100000 : K) = runes "100000.0" := by
  have hr : runes "100000.0" = [49, 48, 48, 48, 48, 48, 46, 48] := by decide
  have h : |(100000 : K)| * 10 = ((1000000 : Int) : K) := by
    rw [abs_of_pos (by norm_num)]; norm_num
  unfold fmt51
  simp only [h, roundHalfEven_intCast]
  have h1 : ¬ (100000 : K) < 0 := by norm_num
  have h10 : (1000000 : Int).toNat / 10 = 100000 := by decide
  have h0 : (1000000 : Int).toNat % 10 = 0 := by decide
  rw [if_neg h1, h10, h0, decimal_100000, decimal_zero, hr]
  simp [padLeft, rune_point]

/-- The buffer the blank-frame loop leaves: 22 rows of 79 spaces and a newline. -/
theorem blank_buffer_rows :
    ((List.range FBSZ).map fun k => if k % 80 = 79 then rune '\n' else rune ' ').length
        = FBSZ ∧
      ∀ k : Nat, k < FBSZ →
        (((List.range FBSZ).map fun k => if k % 80 = 79 then rune '\n' else rune ' ')[k]?
            = some (rune '\n') ↔ k % 80 = 79) := by
  refine ⟨by simp, fun k hk => ?_⟩
  rw [List.getElem?_map, List.getElem?_range hk]
  simp only [Option.map_some']
  by_cases h : k % 80 = 79
  · simp [h]
  · simp only [if_neg h, h, iff_false]
    decide

/-- C15 (the claim fails on calls donut makes): from the frame count 100000 on the frame
line has 15 runes and donut splices its five lines at the offset 62, not 63; and a rate
of 100000.0 gives a rate line of 17 runes, which does not fit between the offset 63 and
the newline of its row: on the blank buffer of 22 rows of 80 runes, at the frame count 1,
the five calls of splice complete and leave the last rune of the rate line, '0', at the
index 159, where the newline of row 1 was. -/
theorem donut_splice_outside_claimed_range :
    (runes "│ Frame: " ++ fmt5d 100000).length = 15 ∧
    (∀ (b : List Rune) (fps rollDeg yawDeg : ℝ),
      overlay b 100000 fps rollDeg yawDeg =
        (splice b 0 62 (runes "│ Frame: " ++ fmt5d 100000)).bind fun b =>
          (splice b 1 62 (runes "│   FPS: " ++ fmt51 fps)).bind fun b =>
            (splice b 2 62 (runes "│  Roll: " ++ fmt51 rollDeg ++ runes "˚")).bind fun b =>
              (splice b 3 62 (runes "│   Yaw: " ++ fmt51 yawDeg ++ runes "˚")).bind fun b =>
                splice b 4 62 (runes "└———————————————")) ∧
    (runes "│   FPS: " ++ fmt51 (100000 : ℝ)).length = 17 ∧
    ¬ (63 + (runes "│   FPS: " ++ fmt51 (100000 : ℝ)).length ≤ 80 - 1) ∧
    ((List.range FBSZ).map fun k => if k % 80 = 79 then rune '\n' else rune ' ')[159]?
      = some (rune '\n') ∧
    ∃ b5,
      overlay ((List.range FBSZ).map fun k => if k % 80 = 79 then rune '\n' else rune ' ')
        1 (100000 : ℝ) 0 0 = some b5 ∧
      b5[159]? = some (rune '0') := by
  have hlen15 : (runes "│ Frame: " ++ fmt5d 100000).length = 15 := by
    rw [fmt5d_100000]; decide
  have hlen17 : (runes "│   FPS: " ++ fmt51 (100000 : ℝ)).length = 17 := by
    rw [fmt51_100000]; decide
  obtain ⟨hbl, hbr⟩ := blank_buffer_rows
  refine ⟨hlen15, fun b fps rollDeg yawDeg => ?_, hlen17, by rw [hlen17]; norm_num,
    (hbr 159 (by unfold FBSZ; norm_num)).mpr (by norm_num), ?_⟩
  · have hoffs : (77 : Int) - ((runes "│ Frame: " ++ fmt5d 100000).length : Int) = 62 := by
      rw [hlen15]; rfl
    unfold overlay
    simp only [hoffs]
  · have hfr : (fmt5d 1).length = 5 := by rw [fmt5d_one]; rfl
    obtain ⟨b5, hb5, _, _, hform⟩ := overlay_spec 80 le_rfl (by norm_num) _ 1
      (100000 : ℝ) 0 0 hbl (fun k hk => hbr k (by unfold FBSZ; omega))
      (by rw [hfr]; norm_num) (fmt5d_no_newline _)
      (by intro k hk h1 _; rw [hfr] at h1; omega)
    refine ⟨b5, hb5, ?_⟩
    rw [hform 159 (by norm_num) (by norm_num), hfr, hlen17, if_pos ⟨by norm_num, by norm_num⟩,
      fmt51_100000]
    decide

/-- C15 (amended): for every buffer b whose first newline is at index w - 1, every row
index yidx with (yidx + 1) * w <= len(b) and every offs and val with
offs + len(val) <= w - 1, the call splice(b, yidx, offs, val) completes, after it
b[yidx * w + offs + i] = val[i] for every i < len(val) and every other position of b is
unchanged; this holds in particular on the buffer of 80 x 22 runes for w = 80, offs = 63,
the rows 0 to 4 and lines of 14 to 16 runes, and these are the splice calls donut makes
when the frame count is at most 99999, the rate text has at most seven runes and the
angles are not negative: then the offset is 63 and the five lines have 14 to 16 runes. -/
theorem splice_writes_val_in_row (b : List Rune) (w yidx offs : Nat) (val : List Rune)
    (hw : 1 ≤ w) (hnl : b[w - 1]? = some (rune '\n'))
    (hno : ∀ k : Nat, k < w - 1 → b[k]? ≠ some (rune '\n'))
    (hrow : (yidx + 1) * w ≤ b.length) (hfit : offs + val.length ≤ w - 1) :
    (∃ b', splice b yidx offs val = some b' ∧ b'.length = b.length ∧
      (∀ i : Nat, i < val.length → b'[yidx * w + offs + i]? = val[i]?) ∧
      ∀ k : Nat, (k < yidx * w + offs ∨ yidx * w + offs + val.length ≤ k) →
        b'[k]? = b[k]?) ∧
    (∀ (buf : List Rune) (y : Nat) (txt : List Rune), buf.length = FBSZ →
      buf[79]? = some (rune '\n') → (∀ k : Nat, k < 79 → buf[k]? ≠ some (rune '\n')) →
      y ≤ 4 → 14 ≤ txt.length → txt.length ≤ 16 →
      ∃ buf', splice buf y 63 txt = some buf' ∧ buf'.length = buf.length ∧
        (∀ i : Nat, i < txt.length → buf'[y * 80 + 63 + i]? = txt[i]?) ∧
        ∀ k : Nat, (k < y * 80 + 63 ∨ y * 80 + 63 + txt.length ≤ k) →
          buf'[k]? = buf[k]?) ∧
    ∀ (n : Nat) (fps A B : ℝ), n ≤ 99999 → (fmt51 fps).length ≤ 7 → 0 ≤ A → 0 ≤ B →
      (77 : Int) - ((runes "│ Frame: " ++ fmt5d n).length : Int) = 63 ∧
      (runes "│ Frame: " ++ fmt5d n).length = 14 ∧
      14 ≤ (runes "│   FPS: " ++ fmt51 fps).length ∧
      (runes "│   FPS: " ++ fmt51 fps).length ≤ 16 ∧
      (runes "│  Roll: " ++ fmt51 (normalizeDegrees (B * (180 / Real.pi)))
        ++ runes "˚").length = 15 ∧
      (runes "│   Yaw: " ++ fmt51 (normalizeDegrees (A * (180 / Real.pi)))
        ++ runes "˚").length = 15 ∧
      (runes "└———————————————").length = 16 := by
  refine ⟨splice_within_row b w yidx offs val hw hnl hno hrow hfit, ?_, ?_⟩
  · intro buf y txt hc h79 hno' hy _ h16
    exact splice_within_row buf 80 y 63 txt (by norm_num) h79 hno'
      (by rw [hc]; unfold FBSZ; omega) (by omega)
  · intro n fps A B hn hfps hA hB
    have hl := overlay_lines_lengths n fps A B hn hfps hA hB
    refine ⟨?_, hl⟩
    rw [hl.1]
    rfl

theorem splice_writes_val_in_row_witness :
    1 ≤ 3 ∧ (runes "ab\ncd\n")[3 - 1]? = some (rune '\n') ∧
    (∀ k : Nat, k < 3 - 1 → (runes "ab\ncd\n")[k]? ≠ some (rune '\n')) ∧
    (1 + 1) * 3 ≤ (runes "ab\ncd\n").length ∧ 1 + (runes "X").length ≤ 3 - 1 ∧
    ∃ b', splice (runes "ab\ncd\n") (1 : Nat) (1 : Nat) (runes "X") = some b' ∧
      b'.length = (runes "ab\ncd\n").length ∧
      (∀ i : Nat, i < (runes "X").length → b'[1 * 3 + 1 + i]? = (runes "X")[i]?) ∧
      ∀ k : Nat, (k < 1 * 3 + 1 ∨ 1 * 3 + 1 + (runes "X").length ≤ k) →
        b'[k]? = (runes "ab\ncd\n")[k]? :=
  have h1 : (runes "ab\ncd\n")[3 - 1]? = some (rune '\n') := by decide
  have h2 : ∀ k : Nat, k < 3 - 1 → (runes "ab\ncd\n")[k]? ≠ some (rune '\n') := by decide
  have h3 : (1 + 1) * 3 ≤ (runes "ab\ncd\n").length := by decide
  have h4 : 1 + (runes "X").length ≤ 3 - 1 := by decide
  ⟨by norm_num, h1, h2, h3, h4,
    (splice_writes_val_in_row (runes "ab\ncd\n") 3 1 1 (runes "X") (by norm_num)
      h1 h2 h3 h4).1⟩

/-! ## The character of a written pixel -/

/-- The depth and the character stored at a pixel after the raster pass: those stored
before, when no in-window sample at the pixel has a larger depth than the stored one, and
else those of the earliest sample that attains the maximal depth at the pixel. -/
theorem raster_earliest_max {K : Type} [LinearOrderedField K] (ss : List (Sample K)) :
    ∀ (c c' : Canvas K), raster c ss = some c' →
      ∀ (o : Int) (zo : K), index c.z o = some zo →
        ((∀ t ∈ ss, inWindow t.x t.y = true → pixel t.x t.y = o → t.D ≤ zo) ∧
          index c'.z o = some zo ∧ index c'.b o = index c.b o) ∨
        ∃ pre s post, ss = pre ++ s :: post ∧ inWindow s.x s.y = true ∧
          pixel s.x s.y = o ∧ zo < s.D ∧
          (∀ t ∈ pre, inWindow t.x t.y = true → pixel t.x t.y = o → t.D < s.D) ∧
          (∀ t ∈ post, inWindow t.x t.y = true → pixel t.x t.y = o → t.D ≤ s.D) ∧
          index c'.z o = some s.D ∧ index c'.b o = shade s.N := by
  induction ss with
  | nil =>
    intro c c' h o zo hzo
    simp only [raster, Option.some.injEq] at h
    subst h
    exact Or.inl ⟨by simp, hzo, rfl⟩
  | cons s0 rest ih =>
    intro c c' h o zo hzo
    cases h1 : plot c s0 with
    | none => simp [raster, h1] at h
    | some c1 =>
      simp only [raster, h1] at h
      rcases plot_cases h1 with ⟨hd, rfl⟩ | ⟨hd, hw, ⟨zp, hzp, hlt⟩, hset, ch, hch, hb⟩
      · have hs0 : inWindow s0.x s0.y = true → pixel s0.x s0.y = o → s0.D ≤ zo := by
          intro hw hp
          have := drawn_iff c1 s0 zo hw (by rw [hp]; exact hzo)
          rw [hd] at this
          exact not_lt.mp (fun hlt => by simpa using this.mpr hlt)
        rcases ih c1 c' h o zo hzo with ⟨hA, hz', hb'⟩ | ⟨pre, s, post, hss, hw, hp, hgt, hpre, hpost, hz', hb'⟩
        · left
          refine ⟨fun t ht hwt hpt => ?_, hz', hb'⟩
          rcases List.mem_cons.mp ht with rfl | ht
          · exact hs0 hwt hpt
          · exact hA t ht hwt hpt
        · right
          refine ⟨s0 :: pre, s, post, by rw [hss]; rfl, hw, hp, hgt, fun t ht hwt hpt => ?_,
            hpost, hz', hb'⟩
          rcases List.mem_cons.mp ht with rfl | ht
          · exact lt_of_le_of_lt (hs0 hwt hpt) hgt
          · exact hpre t ht hwt hpt
      · by_cases hop : o = pixel s0.x s0.y
        · subst hop
          rw [hzp] at hzo
          cases hzo
          have hb1 : index c1.b (pixel s0.x s0.y) = shade s0.N := by
            rw [hch]; exact index_setIdx_same hb
          right
          rcases ih c1 c' h _ s0.D (index_setIdx_same hset) with
            ⟨hA, hz', hb'⟩ | ⟨pre, s, post, hss, hw', hp, hgt, hpre, hpost, hz', hb'⟩
          · exact ⟨[], s0, rest, rfl, hw, rfl, hlt, by simp, hA, hz', by rw [hb', hb1]⟩
          · refine ⟨s0 :: pre, s, post, by rw [hss]; rfl, hw', hp, lt_trans hlt hgt,
              fun t ht hwt hpt => ?_, hpost, hz', hb'⟩
            rcases List.mem_cons.mp ht with rfl | ht
            · exact hgt
            · exact hpre t ht hwt hpt
        · have hzo1 : index c1.z o = some zo := by
            rw [index_setIdx_ne hset hop]; exact hzo
          have hbo1 : index c1.b o = index c.b o := index_setIdx_ne hb hop
          rcases ih c1 c' h o zo hzo1 with
            ⟨hA, hz', hb'⟩ | ⟨pre, s, post, hss, hw', hp, hgt, hpre, hpost, hz', hb'⟩
          · left
            refine ⟨fun t ht hwt hpt => ?_, hz', by rw [hb', hbo1]⟩
            rcases List.mem_cons.mp ht with rfl | ht
            · exact absurd hpt.symm hop
            · exact hA t ht hwt hpt
          · right
            refine ⟨s0 :: pre, s, post, by rw [hss]; rfl, hw', hp, hgt,
              fun t ht hwt hpt => ?_, hpost, hz', hb'⟩
            rcases List.mem_cons.mp ht with rfl | ht
            · exact absurd hpt.symm hop
            · exact hpre t ht hwt hpt

/-- C16: in the raster pass, a fold in sweep order over samples on a cleared canvas, for
every pixel o written during the pass the character finally stored in b[o] is the ramp
character at the clamped luminance index of the earliest sample that attains the maximal
D among the in-window samples mapped to o: every such sample before it has a strictly
smaller D, and none after it has a larger one, so a later sample of equal depth does not
replace the character. -/
theorem raster_char_of_earliest_max {K : Type} [LinearOrderedField K] (c : Canvas K)
    (ss : List (Sample K)) (hz : c.z = List.replicate FBSZ 0) (hb : c.b.length = FBSZ)
    (hN : ∀ s ∈ ss, s.N ≤ 11) :
    ∃ c', raster c ss = some c' ∧
      ∀ o ∈ written c ss, ∃ pre s post ch, ss = pre ++ s :: post ∧
        inWindow s.x s.y = true ∧ pixel s.x s.y = o ∧
        (∀ t ∈ pre, inWindow t.x t.y = true → pixel t.x t.y = o → t.D < s.D) ∧
        (∀ t ∈ post, inWindow t.x t.y = true → pixel t.x t.y = o → t.D ≤ s.D) ∧
        index c'.z o = some s.D ∧
        index ramp (lumIndex s.N) = some ch ∧ index c'.b o = some ch := by
  have hzl : c.z.length = FBSZ := by rw [hz]; simp
  obtain ⟨c', hc'⟩ := raster_isSome ss c hzl hb hN
  refine ⟨c', hc', fun o ho => ?_⟩
  obtain ⟨h0, h1⟩ := written_bounds ss c o ho
  obtain ⟨z0, hz0⟩ := index_isSome c.z o h0 (by rw [hzl]; exact h1)
  obtain ⟨zo', hzo', _, _, _, hgt⟩ := raster_depth ss c c' hc' o z0 hz0
  rcases raster_earliest_max ss c c' hc' o z0 hz0 with
    ⟨_, hz', _⟩ | ⟨pre, s, post, hss, hw, hp, _, hpre, hpost, hz', hb'⟩
  · rw [hz'] at hzo'
    have := hgt ho
    rw [Option.some.inj hzo'] at this
    exact absurd this (lt_irrefl _)
  · have hsN : s.N ≤ 11 := hN s (by rw [hss]; simp)
    obtain ⟨ch, hch⟩ := shade_of_le s.N hsN
    refine ⟨pre, s, post, ch, hss, hw, hp, hpre, hpost, hz', ?_, by rw [hb', hch]⟩
    unfold shade at hch
    exact hch

theorem raster_char_of_earliest_max_witness :
    (Canvas.mk (List.replicate FBSZ 32) (List.replicate FBSZ (0 : ℚ))).z
      = List.replicate FBSZ 0 ∧
    (Canvas.mk (List.replicate FBSZ 32) (List.replicate FBSZ (0 : ℚ))).b.length = FBSZ ∧
    (∀ s ∈ [Sample.mk 2 1 (1 / 4 : ℚ) 3, Sample.mk 2 1 (1 / 2 : ℚ) 5,
        Sample.mk 2 1 (1 / 2 : ℚ) 7], s.N ≤ 11) ∧
    ∃ c', raster (Canvas.mk (List.replicate FBSZ 32) (List.replicate FBSZ (0 : ℚ)))
        [Sample.mk 2 1 (1 / 4 : ℚ) 3, Sample.mk 2 1 (1 / 2 : ℚ) 5,
          Sample.mk 2 1 (1 / 2 : ℚ) 7] = some c' ∧
      ∀ o ∈ written (Canvas.mk (List.replicate FBSZ 32) (List.replicate FBSZ (0 : ℚ)))
          [Sample.mk 2 1 (1 / 4 : ℚ) 3, Sample.mk 2 1 (1 / 2 : ℚ) 5,
            Sample.mk 2 1 (1 / 2 : ℚ) 7],
        ∃ pre s post ch,
          [Sample.mk 2 1 (1 / 4 : ℚ) 3, Sample.mk 2 1 (1 / 2 : ℚ) 5,
            Sample.mk 2 1 (1 / 2 : ℚ) 7] = pre ++ s :: post ∧
          inWindow s.x s.y = true ∧ pixel s.x s.y = o ∧
          (∀ t ∈ pre, inWindow t.x t.y = true → pixel t.x t.y = o → t.D < s.D) ∧
          (∀ t ∈ post, inWindow t.x t.y = true → pixel t.x t.y = o → t.D ≤ s.D) ∧
          index c'.z o = some s.D ∧
          index ramp (lumIndex s.N) = some ch ∧ index c'.b o = some ch :=
  ⟨rfl, by simp, by simp,
    raster_char_of_earliest_max _ _ rfl (by simp) (by simp)⟩

/-! ## The rows of the buffer -/

theorem join_split (s : List Rune) (sep : Rune) : join (split s sep) sep = s := by
  induction s with
  | nil => simp [split, join]
  | cons c cs ih =>
    unfold split
    split
    · rename_i hc
      cases hsp : split cs sep with
      | nil => exact absurd hsp (split_ne_nil cs sep)
      | cons l ls =>
        rw [hsp] at ih
        simp only [join, List.nil_append, ih, hc]
    · cases hsp : split cs sep with
      | nil => exact absurd hsp (split_ne_nil cs sep)
      | cons l ls =>
        rw [hsp] at ih
        simp only
        cases ls with
        | nil =>
          simp only [join] at ih ⊢
          rw [ih]
        | cons l' ls' =>
          simp only [join] at ih ⊢
          rw [List.cons_append, ih]

/-- A string of `n` rows of 80 runes, the newline exactly at the indices that are 79
modulo 80, splits at the newlines into `n` rows of 79 runes and an empty rest. -/
theorem split_rows (n : Nat) :
    ∀ s : List Rune, s.length = 80 * n →
      (∀ k : Nat, k < 80 * n → (s[k]? = some (rune '\n') ↔ k % 80 = 79)) →
      ∃ rows, split s (rune '\n') = rows ++ [[]] ∧ rows.length = n ∧
        ∀ r ∈ rows, r.length = 79 ∧ rune '\n' ∉ r := by
  induction n with
  | zero =>
    intro s hlen _
    have hs : s = [] := List.eq_nil_of_length_eq_zero (by simpa using hlen)
    subst hs
    exact ⟨[], by simp [split], rfl, by simp⟩
  | succ n ih =>
    intro s hlen hrow
    have hsplit := split_at_newline s 79 ((hrow 79 (by omega)).mpr rfl)
      (fun k hk h => by have := (hrow k (by omega)).mp h; omega)
    obtain ⟨rows, hrows, hl, hall⟩ := ih (s.drop 80) (by rw [List.length_drop]; omega)
      (fun k hk => by
        rw [List.getElem?_drop, hrow (80 + k) (by omega)]
        omega)
    refine ⟨s.take 79 :: rows, by rw [hsplit, hrows]; rfl, by simp [hl], ?_⟩
    intro r hr
    rcases List.mem_cons.mp hr with rfl | hr
    · refine ⟨by rw [List.length_take]; omega, ?_⟩
      have := split_no_sep s (rune '\n') (s.take 79) (by rw [hsplit]; exact List.mem_cons_self _ _)
      exact this
    · exact hall r hr

theorem rowed_split {b : List Rune} (h : Rowed b) :
    ∃ rows, split b (rune '\n') = rows ++ [[]] ∧ rows.length = 22 ∧
      ∀ r ∈ rows, r.length = 79 ∧ rune '\n' ∉ r :=
  split_rows 22 b h.1 h.2

theorem pixel_mod_ne {x y : Int} (h : inWindow x y = true) : pixel x y % 80 ≠ 79 := by
  rw [inWindow_iff] at h
  unfold pixel
  omega

/-- C17: after the blank-frame loop followed by any sequence of samples, drawn where they
pass the window check, the buffer of FBSZ = 1760 runes has b[k] = newline exactly for the
k with k mod 80 = 79: a pixel index o = x + 80 y in the window has o mod 80 != 79 and no
ramp character is a newline; so the buffer is 22 rows of 79 runes that are no newlines,
each followed by a newline. -/
theorem raster_keeps_rows {K : Type} [LinearOrderedField K] (c : Canvas K)
    (ss : List (Sample K)) (hb : c.b.length = FBSZ) (hz : c.z.length = FBSZ)
    (hN : ∀ s ∈ ss, s.N ≤ 11) :
    ∃ c1 c2, blank c = some c1 ∧ raster c1 ss = some c2 ∧ c2.b.length = 1760 ∧
      (∀ k : Nat, k < 1760 → (c2.b[k]? = some (rune '\n') ↔ k % 80 = 79)) ∧
      (∀ x y : Int, inWindow x y = true → pixel x y % 80 ≠ 79) ∧
      (∀ ch ∈ ramp, ch ≠ rune '\n') ∧
      ∃ rows, rows.length = 22 ∧ (∀ r ∈ rows, r.length = 79 ∧ rune '\n' ∉ r) ∧
        split c2.b (rune '\n') = rows ++ [[]] ∧
        c2.b = join (rows ++ [[]]) (rune '\n') := by
  obtain ⟨c1, hc1, hrow1, hz1⟩ := blank_rowed c hb hz
  obtain ⟨c2, hc2⟩ := raster_isSome ss c1 hz1 hrow1.1 hN
  have hrow2 := raster_rowed ss c1 c2 hc2 hrow1
  obtain ⟨rows, hsplit, hlen, hall⟩ := rowed_split hrow2
  refine ⟨c1, c2, hc1, hc2, hrow2.1, hrow2.2, fun x y h => pixel_mod_ne h, ramp_no_newline,
    rows, hlen, hall, hsplit, ?_⟩
  rw [← hsplit, join_split]

theorem raster_keeps_rows_witness :
    (Canvas.mk (List.replicate FBSZ 7) (List.replicate FBSZ (3 : ℚ))).b.length = FBSZ ∧
    (Canvas.mk (List.replicate FBSZ 7) (List.replicate FBSZ (3 : ℚ))).z.length = FBSZ ∧
    (∀ s ∈ [Sample.mk 78 21 (1 / 4 : ℚ) 11, Sample.mk 79 0 (1 / 2 : ℚ) 5], s.N ≤ 11) ∧
    ∃ c1 c2, blank (Canvas.mk (List.replicate FBSZ 7) (List.replicate FBSZ (3 : ℚ)))
        = some c1 ∧
      raster c1 [Sample.mk 78 21 (1 / 4 : ℚ) 11, Sample.mk 79 0 (1 / 2 : ℚ) 5] = some c2 ∧
      c2.b.length = 1760 ∧
      (∀ k : Nat, k < 1760 → (c2.b[k]? = some (rune '\n') ↔ k % 80 = 79)) ∧
      (∀ x y : Int, inWindow x y = true → pixel x y % 80 ≠ 79) ∧
      (∀ ch ∈ ramp, ch ≠ rune '\n') ∧
      ∃ rows, rows.length = 22 ∧ (∀ r ∈ rows, r.length = 79 ∧ rune '\n' ∉ r) ∧
        split c2.b (rune '\n') = rows ++ [[]] ∧
        c2.b = join (rows ++ [[]]) (rune '\n') :=
  ⟨by simp, by simp, by simp, raster_keeps_rows _ _ (by simp) (by simp) (by simp)⟩

/-! ## The frame of a buffer of rows -/

theorem toValid_eq_newline_iff (r : Rune) : toValid r = rune '\n' ↔ r = rune '\n' := by
  rw [rune_newline]
  constructor
  · exact toValid_eq_newline
  · intro h; subst h; decide

theorem split_stringOfRunes (pic : List Rune) :
    split (stringOfRunes pic) (rune '\n') = (split pic (rune '\n')).map stringOfRunes := by
  induction pic with
  | nil => simp [split, stringOfRunes]
  | cons ch rest ih =>
    have hcons : stringOfRunes (ch :: rest) = toValid ch :: stringOfRunes rest := rfl
    rw [hcons]
    by_cases hc : ch = rune '\n'
    · have hv : toValid ch = rune '\n' := (toValid_eq_newline_iff ch).mpr hc
      rw [split, if_pos hv, split, if_pos hc, ih]
      rfl
    · have hv : ¬ toValid ch = rune '\n' := fun h => hc ((toValid_eq_newline_iff ch).mp h)
      rw [split, if_neg hv, split, if_neg hc, ih]
      cases hsp : split rest (rune '\n') with
      | nil => exact absurd hsp (split_ne_nil rest _)
      | cons l ls => rfl

/-- The rows of the loop of `MakeFrame`, one for each line, made by the body of the loop
at the index of the line. -/
theorem frameLoop_rows (w : Nat) (lines : List (List Rune)) :
    ∀ (i : Nat) (rows : List (List Rune)), frameLoop w i lines = some rows →
      rows.length = lines.length ∧
      ∀ (k : Nat) (l : List Rune), lines[k]? = some l →
        ∃ r, rows[k]? = some r ∧ frameRow w (i + k) l = some r := by
  induction lines with
  | nil =>
    intro i rows h
    simp only [frameLoop, Option.some.injEq] at h
    subst h
    exact ⟨rfl, by simp⟩
  | cons l0 ls ih =>
    intro i rows h
    cases h0 : frameRow w i l0 with
    | none => simp [frameLoop, h0] at h
    | some r0 =>
      cases h1 : frameLoop w (i + 1) ls with
      | none => simp [frameLoop, h0, h1] at h
      | some rs =>
        simp only [frameLoop, h0, h1, Option.some.injEq] at h
        subst h
        obtain ⟨hlen, hall⟩ := ih (i + 1) rs h1
        refine ⟨by simp [hlen], fun k l hk => ?_⟩
        cases k with
        | zero =>
          simp only [List.getElem?_cons_zero, Option.some.injEq] at hk
          subst hk
          exact ⟨r0, by simp, h0⟩
        | succ k =>
          simp only [List.getElem?_cons_succ] at hk
          obtain ⟨r, hr, hfr⟩ := hall k l hk
          have hik : i + 1 + k = i + (k + 1) := by omega
          rw [hik] at hfr
          exact ⟨r, by simpa using hr, hfr⟩

theorem join_rows_length (m : Nat) (sep : Rune) (rows : List (List Rune))
    (h : ∀ r ∈ rows, r.length = m) :
    (join (rows ++ [[]]) sep).length = rows.length * (m + 1) := by
  induction rows with
  | nil => simp [join]
  | cons r rs ih =>
    have hr := h r (List.mem_cons_self _ _)
    have ih' := ih (fun t ht => h t (List.mem_cons_of_mem _ ht))
    cases hrs : rs ++ [[]] with
    | nil => simp at hrs
    | cons l ls =>
      rw [hrs] at ih'
      rw [List.cons_append, hrs]
      simp only [join, List.length_append, List.length_cons, ih', hr]
      ring

theorem frameRow_empty :
    frameRow 80 22 [] = some (side :: (List.replicate 78 (rune ' ') ++ [side])) := by
  decide

/-- C18: for every buffer made of 22 rows, each of 79 runes that are no newlines followed
by a newline (1760 runes), MakeFrame returns 25 newline-separated lines: the top border
first, the bottom border last, and between them 23 framed rows, the last of which is the
side glyph, 78 spaces and the side glyph, from the empty segment after the last newline
of the buffer. -/
theorem MakeFrame_of_22_rows (b : List Rune) (rows22 : List (List Rune))
    (hsplit : split b (rune '\n') = rows22 ++ [[]]) (hlen : rows22.length = 22)
    (h79 : ∀ r ∈ rows22, r.length = 79) :
    b.length = 1760 ∧
    ∃ rows f, frameRows b = some rows ∧ MakeFrame b = some f ∧
      split f (rune '\n') = top :: rows ++ [bttm] ∧
      (split f (rune '\n')).length = 25 ∧
      (split f (rune '\n'))[0]? = some top ∧ (split f (rune '\n'))[24]? = some bttm ∧
      rows.length = 23 ∧
      rows[22]? = some (side :: (List.replicate 78 (rune ' ') ++ [side])) ∧
      (split b (rune '\n'))[22]? = some [] := by
  have hlines : split (stringOfRunes b) (rune '\n')
      = rows22.map stringOfRunes ++ [[]] := by
    rw [split_stringOfRunes, hsplit, List.map_append]
    rfl
  obtain ⟨rows, hrows, hf, hsp, _⟩ := MakeFrame_spec b
  have hfl : frameLoop 80 0 (rows22.map stringOfRunes ++ [[]]) = some rows := by
    have := hrows
    unfold frameRows at this
    rw [top_length, hlines] at this
    exact this
  obtain ⟨hrl, hall⟩ := frameLoop_rows 80 _ 0 rows hfl
  have hrl' : rows.length = 23 := by
    rw [hrl, List.length_append, List.length_map, hlen]
    rfl
  obtain ⟨r, hr, hfr⟩ := hall 22 [] (by
    rw [List.getElem?_append_right (by rw [List.length_map, hlen]), List.length_map, hlen]
    rfl)
  rw [Nat.zero_add, frameRow_empty] at hfr
  have hblen : b.length = 1760 := by
    have hj := join_split b (rune '\n')
    rw [hsplit] at hj
    rw [← hj, join_rows_length 79 _ rows22 h79, hlen]
  refine ⟨hblen, rows, _, hrows, hf, hsp, ?_, ?_, ?_, hrl', ?_, ?_⟩
  · rw [hsp]
    simp [hrl']
  · rw [hsp]
    simp
  · rw [hsp]
    have : (top :: rows ++ [bttm]) = (top :: rows) ++ [bttm] := rfl
    rw [this, List.getElem?_append_right (by simp [hrl'])]
    simp [hrl']
  · rw [hr, ← hfr]
  · rw [hsplit, List.getElem?_append_right (by rw [hlen]), hlen]
    rfl

theorem MakeFrame_of_22_rows_witness :
    split (join (List.replicate 22 (List.replicate 79 (rune ' ')) ++ [[]]) (rune '\n'))
        (rune '\n')
      = List.replicate 22 (List.replicate 79 (rune ' ')) ++ [[]] ∧
    (List.replicate 22 (List.replicate 79 (rune ' '))).length = 22 ∧
    (∀ r ∈ List.replicate 22 (List.replicate 79 (rune ' ')), r.length = 79) ∧
    (join (List.replicate 22 (List.replicate 79 (rune ' ')) ++ [[]]) (rune '\n')).length
      = 1760 ∧
    ∃ rows f,
      frameRows (join (List.replicate 22 (List.replicate 79 (rune ' ')) ++ [[]]) (rune '\n'))
        = some rows ∧
      MakeFrame (join (List.replicate 22 (List.replicate 79 (rune ' ')) ++ [[]]) (rune '\n'))
        = some f ∧
      split f (rune '\n') = top :: rows ++ [bttm] ∧
      (split f (rune '\n')).length = 25 ∧
      (split f (rune '\n'))[0]? = some top ∧ (split f (rune '\n'))[24]? = some bttm ∧
      rows.length = 23 ∧
      rows[22]? = some (side :: (List.replicate 78 (rune ' ') ++ [side])) ∧
      (split (join (List.replicate 22 (List.replicate 79 (rune ' ')) ++ [[]]) (rune '\n'))
        (rune '\n'))[22]? = some [] :=
  have h1 : split (join (List.replicate 22 (List.replicate 79 (rune ' ')) ++ [[]])
      (rune '\n')) (rune '\n')
      = List.replicate 22 (List.replicate 79 (rune ' ')) ++ [[]] := by
    apply split_join _ _ (by simp)
    intro l hl
    rcases List.mem_append.mp hl with hl | hl
    · rw [(List.mem_replicate.mp hl).2]
      decide
    · rw [List.mem_singleton] at hl
      rw [hl]
      simp
  have h2 : (List.replicate 22 (List.replicate 79 (rune ' '))).length = 22 := by simp
  have h3 : ∀ r ∈ List.replicate 22 (List.replicate 79 (rune ' ')), r.length = 79 := by
    intro r hr
    rw [(List.mem_replicate.mp hr).2]
    simp
  ⟨h1, h2, h3, MakeFrame_of_22_rows _ _ h1 h2 h3⟩

/-- C19 (the claim fails for a rune that is no Unicode scalar value): for the buffer of
the two runes 'A' and -1, the formatted row 0 has U+FFFD at column 1, not the rune -1 the
row of the buffer has there. -/
theorem framed_row_replaces_invalid_rune :
    ∃ rows r l, frameRows [rune 'A', -1] = some rows ∧
      (split [rune 'A', -1] (rune '\n'))[0]? = some l ∧ rows[0]? = some r ∧
      l[1]? = some (-1) ∧ r[1]? = some 0xFFFD ∧ r[1]? ≠ l[1]? := by
  refine ⟨_, _, _, rfl, rfl, rfl, rfl, rfl, ?_⟩
  decide

/-- C19 (amended): MakeFrame changes only the border columns of a row: for every buffer
pic, every row index i and every column j with 1 <= j <= 78, the rune at column j of the
formatted row i is the rune at column j of the i-th newline-separated row of pic as the
conversion to a string holds it (the rune itself when it is a Unicode scalar value,
U+FFFD when it is not) when that row has more than j runes, and a space otherwise; the
formatted row has 80 runes, the border at the columns 0 and 79, so the rune of the buffer
row at column 0 and those at column 79 and beyond are discarded, not shifted. -/
theorem MakeFrame_keeps_interior (pic : List Rune) :
    ∃ rows f, frameRows pic = some rows ∧ MakeFrame pic = some f ∧
      split f (rune '\n') = top :: rows ++ [bttm] ∧
      rows.length = (split pic (rune '\n')).length ∧
      ∀ (i : Nat) (l : List Rune), (split pic (rune '\n'))[i]? = some l →
        ∃ r, rows[i]? = some r ∧ r.length = 80 ∧ r[0]? = some side ∧
          r[79]? = some (if i = 4 then rune '┤' else side) ∧
          ∀ j : Nat, 1 ≤ j → j ≤ 78 →
            r[j]? = some (((l[j]?).map toValid).getD (rune ' ')) ∧
            (∀ ch, l[j]? = some ch → validRune ch = true → r[j]? = some ch) ∧
            (l.length ≤ j → r[j]? = some (rune ' ')) := by
  obtain ⟨rows, hrows, hf, hsp, _, hspec⟩ := MakeFrame_spec pic
  have hfl : frameLoop 80 0 ((split pic (rune '\n')).map stringOfRunes) = some rows := by
    have := hrows
    unfold frameRows at this
    rw [top_length, split_stringOfRunes] at this
    exact this
  obtain ⟨hrl, hall⟩ := frameLoop_rows 80 _ 0 rows hfl
  refine ⟨rows, _, hrows, hf, hsp, by rw [hrl, List.length_map], fun i l hl => ?_⟩
  obtain ⟨r, hr, hfr⟩ := hall i (stringOfRunes l) (by rw [List.getElem?_map, hl]; rfl)
  rw [Nat.zero_add] at hfr
  obtain ⟨hlen, h0, h79⟩ := hspec i r hr
  refine ⟨r, hr, hlen, h0, h79, fun j h1 h78 => ?_⟩
  have hint := frameRow_interior i (stringOfRunes l) r hfr j h1 h78
  have hval : r[j]? = some (((l[j]?).map toValid).getD (rune ' ')) := by
    rw [hint, stringOfRunes_getElem?]
    cases l[j]? with
    | none => rfl
    | some d =>
      simp only [Option.map_some', Option.getD_some]
      rw [toValid_idem]
  refine ⟨hval, fun ch hch hv => ?_, fun hle => ?_⟩
  · rw [hval, hch]
    simp only [Option.map_some', Option.getD_some]
    rw [toValid_of_valid hv]
  · rw [hval, List.getElem?_eq_none hle]
    rfl

end Donut
